import Mathlib

/-!
Verification of the S2Builder::Graph edge-graph assembly engine
(`src/s2/s2builder_graph.h`).

The header file declares the interface and implements a few inline
methods (notably `Graph::reverse`); the algorithmic bodies
(`GetLeftTurnMap`, `GetDirectedLoops`, `GetUndirectedComponents`,
`GetInEdgeIds`/`GetSiblingMap`, `CanonicalizeLoopOrder`,
`CanonicalizeVectorOrder`, `ProcessEdges`) live in a translation unit
that is not part of this tree, so those operations are modelled from
the specification's description of them (each such definition carries a
`Modelled from the spec:` doc comment).

Conventions of the embedding:
* `VertexId` and `EdgeId` are `Nat` (the C++ uses dense non-negative
  `int32` indices).
* An `Edge` is a pair `(origin, destination) : Nat × Nat`.
* The C++ `-1` sentinel entries of the left-turn map are modelled as
  `Option Nat` (`none` = sentinel), following the spec's own design
  note that the sentinel is an explicit "present | absent" encoding.
* The geometric clockwise angular order of the edges around each
  vertex is produced by exact geometric predicates that the spec
  declares external to this core; it therefore enters the model as an
  explicit parameter (`vorder`), constrained by `ValidOrder` to list
  exactly the incident edges of each vertex.
-/

/-! ## Data model -/

/-- GraphOptions axis `edge_type` (spec section 3). -/
inductive EdgeType where
  | directed
  | undirected
deriving DecidableEq, Repr

/-- GraphOptions axis `degenerate_edges` (spec section 3). -/
inductive DegenerateEdges where
  | keep
  | discard
deriving DecidableEq, Repr

/-- GraphOptions axis `duplicate_edges` (spec section 3). -/
inductive DuplicateEdges where
  | keep
  | merge
deriving DecidableEq, Repr

/-- GraphOptions axis `sibling_pairs` (spec section 3). -/
inductive SiblingPairs where
  | keep
  | discard
  | require
  | create
deriving DecidableEq, Repr

/-- The four independent configuration axes of `S2Builder::GraphOptions`. -/
structure GraphOptions where
  edgeType : EdgeType
  degenerateEdges : DegenerateEdges
  duplicateEdges : DuplicateEdges
  siblingPairs : SiblingPairs
deriving DecidableEq, Repr

/-- The immutable graph view: vertices are `0, ..., numVertices - 1`;
`edges` is the list of `(origin, destination)` pairs indexed by
`EdgeId`.  (Vertex coordinates and the provenance/label lexicons are
not needed by the graph algorithms modelled here.)  Translated from
`class S2Builder::Graph` in `s2builder_graph.h`. -/
structure Graph where
  options : GraphOptions
  numVertices : Nat
  edges : List (Nat × Nat)
deriving DecidableEq, Repr

namespace Graph

/-- `Graph::reverse`: given an edge `(src, dst)`, the reverse edge
`(dst, src)`.  Translated from the inline body in
`s2builder_graph.h`: `return Edge(e.second, e.first);`. -/
def reverse (e : Nat × Nat) : Nat × Nat := (e.2, e.1)

/-- The edge with a given id (`Graph::edge`). -/
def edge (g : Graph) (e : Nat) : Nat × Nat := g.edges.getD e (0, 0)

/-- Origin vertex of edge `e`. -/
def org (g : Graph) (e : Nat) : Nat := (g.edge e).1

/-- Destination vertex of edge `e`. -/
def dst (g : Graph) (e : Nat) : Nat := (g.edge e).2

/-- Number of edges (`Graph::num_edges`). -/
def numEdges (g : Graph) : Nat := g.edges.length

/-- A well-formed graph only references vertices below `numVertices`
(spec section 3 invariant). -/
def WF (g : Graph) : Prop :=
  ∀ p ∈ g.edges, p.1 < g.numVertices ∧ p.2 < g.numVertices

instance (g : Graph) : Decidable (WF g) := by
  unfold WF
  exact List.decidableBAll _ _

end Graph

/-! ## Canonicalizer (spec section 4.5)

`CanonicalizeLoopOrder` rotates a loop so that the edge with the
largest minimum-input-edge-id comes last; `CanonicalizeVectorOrder`
stable-sorts edge chains by the minimum-input-id of their first
edge. -/

/-- The minimum input edge id recorded for output edge `e`
(`min_input_ids[e]`; `-1` means no input edge was snapped there). -/
def minInputKey (ids : List Int) (e : Nat) : Int := ids.getD e (-1)

/-- Index of the last occurrence of the maximum of a list of keys
(the edge that must end up last after the canonicalizing rotation). -/
def lastMaxIdx : List Int → Nat
  | [] => 0
  | [_] => 0
  | x :: y :: rest =>
    let j := lastMaxIdx (y :: rest)
    if (y :: rest).getD j 0 < x then 0 else j + 1

/-- Modelled from the spec: `Graph::CanonicalizeLoopOrder` (declared in
`s2builder_graph.h`, body not in this tree) "rotates a discovered
loop's edge sequence so the edge with the largest min-input-id comes
last" (spec section 4.5). -/
def CanonicalizeLoopOrder (ids : List Int) (loop : List Nat) : List Nat :=
  loop.rotate ((lastMaxIdx (loop.map (minInputKey ids)) + 1) % loop.length)

/-- Modelled from the spec: `Graph::CanonicalizeVectorOrder` (declared
in `s2builder_graph.h`, body not in this tree) "stable-sorts a
collection of loops or polylines by the minimum-input-id of each one's
first edge" (spec section 4.5). -/
def CanonicalizeVectorOrder (ids : List Int) (chains : List (List Nat)) :
    List (List Nat) :=
  chains.insertionSort
    (fun c1 c2 => minInputKey ids (c1.headD 0) ≤ minInputKey ids (c2.headD 0))

/-! ### Properties of `lastMaxIdx` -/

theorem lastMaxIdx_lt_length (l : List Int) (h : l ≠ []) :
    lastMaxIdx l < l.length := by
  match l with
  | [_] => simp [lastMaxIdx]
  | x :: y :: rest =>
    have ih := lastMaxIdx_lt_length (y :: rest) (by simp)
    unfold lastMaxIdx
    dsimp only
    split
    · simp
    · simpa using Nat.succ_lt_succ ih

theorem getD_le_getD_lastMaxIdx (l : List Int) (i : Nat) (hi : i < l.length) :
    l.getD i 0 ≤ l.getD (lastMaxIdx l) 0 := by
  match l with
  | [] => simp at hi
  | [x] =>
    have h0 : i = 0 := by
      simp only [List.length_singleton, Nat.lt_one_iff] at hi
      exact hi
    subst h0
    simp [lastMaxIdx]
  | x :: y :: rest =>
    unfold lastMaxIdx
    dsimp only
    split
    case isTrue hlt =>
      match i with
      | 0 => simp
      | i + 1 =>
        have ih := getD_le_getD_lastMaxIdx (y :: rest) i (by simpa using hi)
        simp only [List.getD_cons_succ, List.getD_cons_zero]
        exact le_of_lt (lt_of_le_of_lt ih hlt)
    case isFalse hge =>
      match i with
      | 0 =>
        simp only [List.getD_cons_succ, List.getD_cons_zero]
        exact le_of_not_lt hge
      | i + 1 =>
        have ih := getD_le_getD_lastMaxIdx (y :: rest) i (by simpa using hi)
        simpa using ih

theorem lastMaxIdx_eq_of_last_max (l : List Int) (h : l ≠ [])
    (hmax : ∀ i, i < l.length → l.getD i 0 ≤ l.getD (l.length - 1) 0) :
    lastMaxIdx l = l.length - 1 := by
  match l with
  | [_] => simp [lastMaxIdx]
  | x :: y :: rest =>
    have htail : ∀ i, i < (y :: rest).length →
        (y :: rest).getD i 0 ≤ (y :: rest).getD ((y :: rest).length - 1) 0 := by
      intro i hi
      have := hmax (i + 1) (by simpa using Nat.succ_lt_succ hi)
      simpa using this
    have ih := lastMaxIdx_eq_of_last_max (y :: rest) (by simp) htail
    unfold lastMaxIdx
    dsimp only
    rw [ih]
    have hx : x ≤ (y :: rest).getD ((y :: rest).length - 1) 0 := by
      have := hmax 0 (by simp)
      simpa using this
    rw [if_neg (not_lt.mpr hx)]
    simp

/-! ## C10: `Graph::reverse` swaps endpoints and is an involution -/

/-- C10: `Graph::reverse` swaps the two endpoints of an edge —
`reverse (a, b) = (b, a)` for every vertex pair — and is therefore an
involution: `reverse (reverse e) = e` for every edge `e`. -/
theorem reverse_swap_involution :
    (∀ a b : Nat, Graph.reverse (a, b) = (b, a)) ∧
      ∀ e : Nat × Nat, Graph.reverse (Graph.reverse e) = e := by
  constructor
  · intro a b
    rfl
  · intro e
    rfl

/-! ## C4: canonicalization idempotence -/

theorem canonicalizeLoopOrder_idem (ids : List Int) (loop : List Nat) :
    CanonicalizeLoopOrder ids (CanonicalizeLoopOrder ids loop) =
      CanonicalizeLoopOrder ids loop := by
  rcases loop.eq_nil_or_concat with rfl | hne
  · simp [CanonicalizeLoopOrder]
  · have hlen : 0 < loop.length := by
      rcases hne with ⟨l, a, rfl⟩
      simp
    set keys := loop.map (minInputKey ids) with hkeys
    have hklen : keys.length = loop.length := by simp [hkeys]
    set j := lastMaxIdx keys with hj
    have hjlt : j < loop.length := by
      have := lastMaxIdx_lt_length keys (by
        intro hcon
        rw [hcon] at hklen
        simp at hklen
        omega)
      omega
    set r := (j + 1) % loop.length with hr
    set loop' := loop.rotate r with hloop'
    have hlen' : loop'.length = loop.length := by simp [hloop']
    -- the keys of the rotated loop, index by index
    have hkey' : ∀ i, (hi : i < loop.length) →
        (loop'.map (minInputKey ids)).getD i 0 = keys.getD ((i + r) % loop.length) 0 := by
      intro i hi
      have hi' : i < (loop'.map (minInputKey ids)).length := by
        simp [hloop', hi]
      have hmod : (i + r) % loop.length < loop.length := Nat.mod_lt _ hlen
      have hil : i < loop'.length := by omega
      rw [List.getD_eq_getElem _ _ hi']
      have hmk : (loop'.map (minInputKey ids))[i] =
          minInputKey ids (loop'.get ⟨i, hil⟩) := by
        simp
      rw [hmk]
      have hrot : loop'.get ⟨i, hil⟩ =
          loop.get ⟨(i + r) % loop.length, hmod⟩ := by
        simp only [hloop', List.get_eq_getElem]
        rw [List.getElem_rotate]
      rw [hrot]
      rw [List.getD_eq_getElem _ _ (by simpa [hkeys] using hmod)]
      simp [hkeys]
    -- the last key of the rotated loop is the overall maximum
    have hlastidx : (loop.length - 1 + r) % loop.length = j := by
      have h1 : (loop.length - 1 + r) % loop.length
          = (loop.length - 1 + (j + 1)) % loop.length := by
        rw [hr, Nat.add_mod, Nat.mod_mod_of_dvd, ← Nat.add_mod]
        exact dvd_refl _
      rw [h1]
      have h2 : loop.length - 1 + (j + 1) = loop.length + j := by omega
      rw [h2, Nat.add_mod_left, Nat.mod_eq_of_lt hjlt]
    have hmax' : ∀ i, i < (loop'.map (minInputKey ids)).length →
        (loop'.map (minInputKey ids)).getD i 0 ≤
          (loop'.map (minInputKey ids)).getD ((loop'.map (minInputKey ids)).length - 1) 0 := by
      intro i hi
      have hilen : i < loop.length := by simpa [hloop'] using hi
      have hmlen : (loop'.map (minInputKey ids)).length = loop.length := by simp [hloop']
      rw [hmlen]
      rw [hkey' i hilen, hkey' (loop.length - 1) (by omega), hlastidx]
      exact getD_le_getD_lastMaxIdx keys _ (by
        rw [hklen]
        exact Nat.mod_lt _ hlen)
    have hlast : lastMaxIdx (loop'.map (minInputKey ids)) =
        (loop'.map (minInputKey ids)).length - 1 := by
      apply lastMaxIdx_eq_of_last_max _ _ hmax'
      intro hcon
      have h0 : (loop'.map (minInputKey ids)).length = 0 := by rw [hcon]; rfl
      rw [List.length_map, hlen'] at h0
      omega
    show CanonicalizeLoopOrder ids loop' = loop'
    unfold CanonicalizeLoopOrder
    rw [hlast]
    have hmlen : (loop'.map (minInputKey ids)).length = loop.length := by simp [hloop']
    rw [hmlen, hlen']
    have : loop.length - 1 + 1 = loop.length := by omega
    rw [this, Nat.mod_self, List.rotate_zero]

theorem canonicalizeVectorOrder_idem (ids : List Int) (chains : List (List Nat)) :
    CanonicalizeVectorOrder ids (CanonicalizeVectorOrder ids chains) =
      CanonicalizeVectorOrder ids chains := by
  unfold CanonicalizeVectorOrder
  haveI : IsTotal (List Nat)
      (fun c1 c2 => minInputKey ids (c1.headD 0) ≤ minInputKey ids (c2.headD 0)) :=
    ⟨fun a b => Int.le_total _ _⟩
  haveI : IsTrans (List Nat)
      (fun c1 c2 => minInputKey ids (c1.headD 0) ≤ minInputKey ids (c2.headD 0)) :=
    ⟨fun a b c hab hbc => le_trans hab hbc⟩
  exact List.Sorted.insertionSort_eq (List.sorted_insertionSort _ chains)

/-- C4: `CanonicalizeLoopOrder` and `CanonicalizeVectorOrder` are
idempotent — for every min-input-id vector and every loop
(respectively every collection of edge chains), a second application
leaves the result of the first application unchanged. -/
theorem canonicalize_idempotent (ids : List Int) (loop : List Nat)
    (chains : List (List Nat)) :
    CanonicalizeLoopOrder ids (CanonicalizeLoopOrder ids loop) =
        CanonicalizeLoopOrder ids loop ∧
      CanonicalizeVectorOrder ids (CanonicalizeVectorOrder ids chains) =
        CanonicalizeVectorOrder ids chains :=
  ⟨canonicalizeLoopOrder_idem ids loop, canonicalizeVectorOrder_idem ids chains⟩

/-! ## Left-turn map construction (spec section 4.3)

The clockwise angular sequence of edges incident to one vertex is a
cyclic list of slots: an incoming edge is an opening parenthesis, an
outgoing edge a closing one.  Adjacent (incoming, outgoing) pairs are
repeatedly matched and removed; slots that can never be matched are
left over and become `-1` (here: `none`) sentinel entries. -/

/-- One position in the clockwise angular order around a vertex:
either an incoming edge (`into e`) or an outgoing edge (`out e`). -/
inductive Slot where
  | into (e : Nat)
  | out (e : Nat)
deriving DecidableEq, Repr

/-- Whether a slot is an incoming edge. -/
def Slot.isInto : Slot → Bool
  | .into _ => true
  | .out _ => false

/-- Whether a slot is an outgoing edge. -/
def Slot.isOut : Slot → Bool
  | .into _ => false
  | .out _ => true

/-- The incoming edge ids among a slot sequence. -/
def intoIds (s : List Slot) : List Nat :=
  s.filterMap fun x =>
    match x with
    | Slot.into e => some e
    | Slot.out _ => none

/-- The outgoing edge ids among a slot sequence. -/
def outIds (s : List Slot) : List Nat :=
  s.filterMap fun x =>
    match x with
    | Slot.into _ => none
    | Slot.out e => some e

/-- Finds the first linearly adjacent (incoming, outgoing) slot pair;
returns the matched pair of edge ids and the remaining slots. -/
def findMatch : List Slot → Option (Nat × Nat × List Slot)
  | [] => none
  | [_] => none
  | Slot.into a :: Slot.out b :: rest => some (a, b, rest)
  | Slot.into a :: Slot.into b :: rest =>
      (findMatch (Slot.into b :: rest)).map
        (fun r => (r.1, r.2.1, Slot.into a :: r.2.2))
  | Slot.out a :: y :: rest =>
      (findMatch (y :: rest)).map
        (fun r => (r.1, r.2.1, Slot.out a :: r.2.2))

/-- One round of cyclic parenthesis matching: a linearly adjacent
(incoming, outgoing) pair, or the wrap-around pair formed by the last
and first slots of the cyclic order. -/
def matchRound (s : List Slot) : Option (Nat × Nat × List Slot) :=
  match findMatch s with
  | some r => some r
  | none =>
    match s, s.getLast? with
    | Slot.out b :: tail, some (Slot.into a) => some (a, b, tail.dropLast)
    | _, _ => none

/-- Repeatedly matches and removes adjacent (incoming, outgoing)
pairs, returning the list of matched pairs and the leftover slots. -/
def matchAll : Nat → List Slot → List (Nat × Nat) × List Slot
  | 0, s => ([], s)
  | fuel + 1, s =>
    match matchRound s with
    | none => ([], s)
    | some (a, b, rest) =>
      let r := matchAll fuel rest
      ((a, b) :: r.1, r.2)

theorem findMatch_perm : (s : List Slot) → (a b : Nat) → (rest : List Slot) →
    findMatch s = some (a, b, rest) → s.Perm (Slot.into a :: Slot.out b :: rest)
  | [], a, b, rest, h => by simp [findMatch] at h
  | [x], a, b, rest, h => by simp [findMatch] at h
  | Slot.into a0 :: Slot.out b0 :: r0, a, b, rest, h => by
      simp only [findMatch, Option.some.injEq, Prod.mk.injEq] at h
      obtain ⟨rfl, rfl, rfl⟩ := h
      exact List.Perm.refl _
  | Slot.into a0 :: Slot.into b0 :: r0, a, b, rest, h => by
      simp only [findMatch, Option.map_eq_some'] at h
      obtain ⟨r, hr, heq⟩ := h
      obtain ⟨rfl, rfl, rfl⟩ : r.1 = a ∧ r.2.1 = b ∧ Slot.into a0 :: r.2.2 = rest := by
        have h1 := congrArg Prod.fst heq
        have h2 := congrArg (fun p => p.2.1) heq
        have h3 := congrArg (fun p => p.2.2) heq
        exact ⟨h1, h2, h3⟩
      have ih := findMatch_perm (Slot.into b0 :: r0) r.1 r.2.1 r.2.2 hr
      exact (List.Perm.cons (Slot.into a0) ih).trans
        ((List.Perm.swap _ _ _).trans
          (List.Perm.cons _ (List.Perm.swap _ _ _)))
  | Slot.out a0 :: y :: r0, a, b, rest, h => by
      simp only [findMatch, Option.map_eq_some'] at h
      obtain ⟨r, hr, heq⟩ := h
      obtain ⟨rfl, rfl, rfl⟩ : r.1 = a ∧ r.2.1 = b ∧ Slot.out a0 :: r.2.2 = rest := by
        have h1 := congrArg Prod.fst heq
        have h2 := congrArg (fun p => p.2.1) heq
        have h3 := congrArg (fun p => p.2.2) heq
        exact ⟨h1, h2, h3⟩
      have ih := findMatch_perm (y :: r0) r.1 r.2.1 r.2.2 hr
      exact (List.Perm.cons (Slot.out a0) ih).trans
        ((List.Perm.swap _ _ _).trans
          (List.Perm.cons _ (List.Perm.swap _ _ _)))

theorem findMatch_none_struct : (s : List Slot) → findMatch s = none →
    ∃ (bs as : List Nat), s = bs.map Slot.out ++ as.map Slot.into
  | [], _ => ⟨[], [], rfl⟩
  | [Slot.into a], _ => ⟨[], [a], rfl⟩
  | [Slot.out b], _ => ⟨[b], [], rfl⟩
  | Slot.into a0 :: Slot.out b0 :: r0, h => by simp [findMatch] at h
  | Slot.into a0 :: Slot.into b0 :: r0, h => by
      simp only [findMatch, Option.map_eq_none'] at h
      obtain ⟨bs, as, hs⟩ := findMatch_none_struct (Slot.into b0 :: r0) h
      cases bs with
      | nil =>
        refine ⟨[], a0 :: as, ?_⟩
        simp only [List.map_nil, List.nil_append] at hs
        simp only [List.map_nil, List.nil_append, List.map_cons]
        rw [← hs]
      | cons b bs' => simp at hs
  | Slot.out a0 :: y :: r0, h => by
      simp only [findMatch, Option.map_eq_none'] at h
      obtain ⟨bs, as, hs⟩ := findMatch_none_struct (y :: r0) h
      exact ⟨a0 :: bs, as, by rw [List.map_cons, List.cons_append, hs]⟩

theorem matchRound_perm (s : List Slot) (a b : Nat) (rest : List Slot)
    (h : matchRound s = some (a, b, rest)) :
    s.Perm (Slot.into a :: Slot.out b :: rest) := by
  unfold matchRound at h
  cases hf : findMatch s with
  | some r =>
    rw [hf] at h
    cases h
    exact findMatch_perm s a b rest hf
  | none =>
    rw [hf] at h
    cases s with
    | nil => simp at h
    | cons x tail =>
      cases x with
      | into a0 =>
        cases hl : (Slot.into a0 :: tail).getLast? with
        | none => rw [hl] at h; simp at h
        | some z => rw [hl] at h; cases z <;> simp at h
      | out b0 =>
        cases hl : (Slot.out b0 :: tail).getLast? with
        | none => rw [hl] at h; simp at h
        | some z =>
          cases z with
          | out a0 => rw [hl] at h; simp at h
          | into a0 =>
            rw [hl] at h
            simp only [Option.some.injEq, Prod.mk.injEq] at h
            obtain ⟨rfl, rfl, rfl⟩ := h
            have htail : tail ≠ [] := by
              intro hcon
              subst hcon
              simp at hl
            have hlast : tail.getLast htail = Slot.into a0 := by
              have h1 := List.getLast?_eq_getLast (Slot.out b0 :: tail) (by simp)
              rw [hl] at h1
              have h2 : (Slot.out b0 :: tail).getLast (by simp) = tail.getLast htail :=
                List.getLast_cons htail
              rw [h2] at h1
              exact (Option.some.injEq _ _).mp h1.symm
            have hsplit : tail.dropLast ++ [Slot.into a0] = tail := by
              rw [← hlast]
              exact List.dropLast_append_getLast htail
            have hstep1 : (Slot.out b0 :: tail).Perm
                (Slot.out b0 :: (Slot.into a0 :: tail.dropLast)) := by
              conv_lhs => rw [← hsplit]
              exact List.Perm.cons _
                (@List.perm_append_comm _ tail.dropLast [Slot.into a0])
            exact hstep1.trans (List.Perm.swap _ _ _)

theorem matchRound_isSome_of_mixed (s : List Slot) (_hne : s ≠ [])
    (hin : ∃ x ∈ s, x.isInto = true) (hout : ∃ y ∈ s, y.isOut = true) :
    ∃ r, matchRound s = some r := by
  cases hf : findMatch s with
  | some r =>
    refine ⟨r, ?_⟩
    unfold matchRound
    rw [hf]
  | none =>
    obtain ⟨bs, as, hs⟩ := findMatch_none_struct s hf
    have hbs : bs ≠ [] := by
      intro hcon
      subst hcon
      obtain ⟨y, hy, hyp⟩ := hout
      rw [hs] at hy
      simp only [List.map_nil, List.nil_append, List.mem_map] at hy
      obtain ⟨a, _, rfl⟩ := hy
      simp [Slot.isOut] at hyp
    have has : as ≠ [] := by
      intro hcon
      subst hcon
      obtain ⟨x, hx, hxp⟩ := hin
      rw [hs] at hx
      simp only [List.map_nil, List.append_nil, List.mem_map] at hx
      obtain ⟨a, _, rfl⟩ := hx
      simp [Slot.isInto] at hxp
    obtain ⟨b, bs', rfl⟩ := List.exists_cons_of_ne_nil hbs
    have hlast : s.getLast? = some (Slot.into (as.getLast has)) := by
      have hsp : as.map Slot.into =
          (as.dropLast).map Slot.into ++ [Slot.into (as.getLast has)] := by
        conv_lhs => rw [← List.dropLast_append_getLast has]
        rw [List.map_append]
        rfl
      rw [hs, hsp, ← List.append_assoc]
      exact List.getLast?_concat _
    have hs2 : s = Slot.out b :: (bs'.map Slot.out ++ as.map Slot.into) := by
      rw [hs]
      simp
    have hlast2 : (Slot.out b :: (bs'.map Slot.out ++ as.map Slot.into)).getLast?
        = some (Slot.into (as.getLast has)) := by
      rw [← hs2]
      exact hlast
    refine ⟨(as.getLast has, b, ((bs'.map Slot.out ++ as.map Slot.into)).dropLast), ?_⟩
    unfold matchRound
    rw [hf, hs2, hlast2]

theorem matchAll_perm : ∀ (fuel : Nat) (s : List Slot),
    s.Perm ((((matchAll fuel s).1.map (fun p => Slot.into p.1)) ++
      ((matchAll fuel s).1.map (fun p => Slot.out p.2))) ++ (matchAll fuel s).2)
  | 0, s => by simp [matchAll]
  | fuel + 1, s => by
    cases h : matchRound s with
    | none => simp [matchAll, h]
    | some r =>
      obtain ⟨a, b, rest⟩ := r
      have hperm := matchRound_perm s a b rest h
      have ih := matchAll_perm fuel rest
      simp only [matchAll, h]
      refine hperm.trans ?_
      refine (List.Perm.cons _ (List.Perm.cons _ ih)).trans ?_
      simp only [List.map_cons, List.cons_append, List.append_assoc]
      refine List.Perm.cons _ ?_
      exact List.perm_middle.symm

theorem mem_intoIds (s : List Slot) (e : Nat) :
    e ∈ intoIds s ↔ Slot.into e ∈ s := by
  unfold intoIds
  rw [List.mem_filterMap]
  constructor
  · rintro ⟨x, hx, hfx⟩
    cases x with
    | into a =>
      simp only [Option.some.injEq] at hfx
      subst hfx
      exact hx
    | out b => simp at hfx
  · intro h
    exact ⟨Slot.into e, h, rfl⟩

theorem mem_outIds (s : List Slot) (e : Nat) :
    e ∈ outIds s ↔ Slot.out e ∈ s := by
  unfold outIds
  rw [List.mem_filterMap]
  constructor
  · rintro ⟨x, hx, hfx⟩
    cases x with
    | into a => simp at hfx
    | out b =>
      simp only [Option.some.injEq] at hfx
      subst hfx
      exact hx
  · intro h
    exact ⟨Slot.out e, h, rfl⟩

theorem intoIds_append (s t : List Slot) :
    intoIds (s ++ t) = intoIds s ++ intoIds t := by
  unfold intoIds
  exact List.filterMap_append _ _ _

theorem outIds_append (s t : List Slot) :
    outIds (s ++ t) = outIds s ++ outIds t := by
  unfold outIds
  exact List.filterMap_append _ _ _

theorem intoIds_map_into (l : List Nat) : intoIds (l.map Slot.into) = l := by
  induction l with
  | nil => rfl
  | cons x xs ih =>
    simp only [List.map_cons]
    unfold intoIds at ih ⊢
    simp [ih]

theorem intoIds_map_out (l : List Nat) : intoIds (l.map Slot.out) = [] := by
  induction l with
  | nil => rfl
  | cons x xs ih =>
    simp only [List.map_cons]
    unfold intoIds at ih ⊢
    simp [ih]

theorem outIds_map_out (l : List Nat) : outIds (l.map Slot.out) = l := by
  induction l with
  | nil => rfl
  | cons x xs ih =>
    simp only [List.map_cons]
    unfold outIds at ih ⊢
    simp [ih]

theorem outIds_map_into (l : List Nat) : outIds (l.map Slot.into) = [] := by
  induction l with
  | nil => rfl
  | cons x xs ih =>
    simp only [List.map_cons]
    unfold outIds at ih ⊢
    simp [ih]

theorem intoIds_length_add_outIds_length (s : List Slot) :
    (intoIds s).length + (outIds s).length = s.length := by
  induction s with
  | nil => rfl
  | cons x xs ih =>
    cases x with
    | into a =>
      unfold intoIds outIds at ih ⊢
      simp only [List.filterMap_cons]
      simp only [List.length_cons]
      omega
    | out b =>
      unfold intoIds outIds at ih ⊢
      simp only [List.filterMap_cons]
      simp only [List.length_cons]
      omega

/-- The matched pairs and the leftover account exactly for the
incoming edge ids of the slot sequence. -/
theorem matchAll_intoIds_perm (fuel : Nat) (s : List Slot) :
    (intoIds s).Perm
      (((matchAll fuel s).1.map Prod.fst) ++ intoIds (matchAll fuel s).2) := by
  have h := matchAll_perm fuel s
  have h2 := h.filterMap (fun x =>
    match x with
    | Slot.into e => some e
    | Slot.out _ => none)
  refine h2.trans ?_
  rw [show (List.filterMap (fun x =>
      match x with
      | Slot.into e => some e
      | Slot.out _ => none)
      ((((matchAll fuel s).1.map (fun p => Slot.into p.1)) ++
        ((matchAll fuel s).1.map (fun p => Slot.out p.2))) ++ (matchAll fuel s).2)) =
      intoIds ((((matchAll fuel s).1.map (fun p => Slot.into p.1)) ++
        ((matchAll fuel s).1.map (fun p => Slot.out p.2))) ++ (matchAll fuel s).2) from rfl]
  rw [intoIds_append, intoIds_append]
  rw [show ((matchAll fuel s).1.map (fun p => Slot.into p.1)) =
      (((matchAll fuel s).1.map Prod.fst).map Slot.into) from by
    rw [List.map_map]
    rfl]
  rw [intoIds_map_into]
  rw [show ((matchAll fuel s).1.map (fun p => Slot.out p.2)) =
      (((matchAll fuel s).1.map Prod.snd).map Slot.out) from by
    rw [List.map_map]
    rfl]
  rw [intoIds_map_out]
  simp

/-- The matched pairs and the leftover account exactly for the
outgoing edge ids of the slot sequence. -/
theorem matchAll_outIds_perm (fuel : Nat) (s : List Slot) :
    (outIds s).Perm
      (((matchAll fuel s).1.map Prod.snd) ++ outIds (matchAll fuel s).2) := by
  have h := matchAll_perm fuel s
  have h2 := h.filterMap (fun x =>
    match x with
    | Slot.into _ => none
    | Slot.out e => some e)
  refine h2.trans ?_
  rw [show (List.filterMap (fun x =>
      match x with
      | Slot.into _ => none
      | Slot.out e => some e)
      ((((matchAll fuel s).1.map (fun p => Slot.into p.1)) ++
        ((matchAll fuel s).1.map (fun p => Slot.out p.2))) ++ (matchAll fuel s).2)) =
      outIds ((((matchAll fuel s).1.map (fun p => Slot.into p.1)) ++
        ((matchAll fuel s).1.map (fun p => Slot.out p.2))) ++ (matchAll fuel s).2) from rfl]
  rw [outIds_append, outIds_append]
  rw [show ((matchAll fuel s).1.map (fun p => Slot.into p.1)) =
      (((matchAll fuel s).1.map Prod.fst).map Slot.into) from by
    rw [List.map_map]
    rfl]
  rw [outIds_map_into]
  rw [show ((matchAll fuel s).1.map (fun p => Slot.out p.2)) =
      (((matchAll fuel s).1.map Prod.snd).map Slot.out) from by
    rw [List.map_map]
    rfl]
  rw [outIds_map_out]
  simp

theorem matchRound_of_matchAll_leftover : ∀ (fuel : Nat) (s : List Slot),
    s.length ≤ fuel → matchRound (matchAll fuel s).2 = none
  | 0, s, hle => by
    have hs : s = [] := List.length_eq_zero.mp (Nat.le_zero.mp hle)
    subst hs
    rfl
  | fuel + 1, s, hle => by
    cases h : matchRound s with
    | none => simp [matchAll, h]
    | some r =>
      obtain ⟨a, b, rest⟩ := r
      have hperm := matchRound_perm s a b rest h
      have hlen : s.length = rest.length + 2 := by
        have := hperm.length_eq
        simpa using this
      have ih := matchRound_of_matchAll_leftover fuel rest (by omega)
      simpa [matchAll, h] using ih

/-- A nonempty leftover can always be characterized: with enough fuel,
the leftover is empty exactly when the slot sequence has as many
incoming as outgoing edges. -/
theorem matchAll_leftover_empty_iff (fuel : Nat) (s : List Slot)
    (hfuel : s.length ≤ fuel) :
    (matchAll fuel s).2 = [] ↔ (intoIds s).length = (outIds s).length := by
  have hin := (matchAll_intoIds_perm fuel s).length_eq
  have hout := (matchAll_outIds_perm fuel s).length_eq
  rw [List.length_append] at hin hout
  simp only [List.length_map] at hin hout
  constructor
  · intro hempty
    rw [hempty] at hin hout
    simp only [show intoIds ([] : List Slot) = [] from rfl,
      show outIds ([] : List Slot) = [] from rfl, List.length_nil] at hin hout
    omega
  · intro hbal
    by_contra hne
    have hnone := matchRound_of_matchAll_leftover fuel s hfuel
    have hlfbal : (intoIds (matchAll fuel s).2).length =
        (outIds (matchAll fuel s).2).length := by omega
    have hlen := intoIds_length_add_outIds_length (matchAll fuel s).2
    have hpos : 0 < (matchAll fuel s).2.length := by
      cases hcase : (matchAll fuel s).2 with
      | nil => exact absurd hcase hne
      | cons x xs => simp
    have hinpos : 0 < (intoIds (matchAll fuel s).2).length := by omega
    have houtpos : 0 < (outIds (matchAll fuel s).2).length := by omega
    obtain ⟨e, he⟩ := List.exists_mem_of_length_pos hinpos
    obtain ⟨f, hf⟩ := List.exists_mem_of_length_pos houtpos
    have hin' : Slot.into e ∈ (matchAll fuel s).2 := (mem_intoIds _ _).mp he
    have hout' : Slot.out f ∈ (matchAll fuel s).2 := (mem_outIds _ _).mp hf
    obtain ⟨r, hr⟩ := matchRound_isSome_of_mixed (matchAll fuel s).2 hne
      ⟨Slot.into e, hin', rfl⟩ ⟨Slot.out f, hout', rfl⟩
    rw [hr] at hnone
    exact Option.noConfusion hnone

/-! ## Per-vertex incident edges and the vertex order parameter -/

/-- Ids of non-degenerate edges (self-loops are excluded from the
angular matching; they always get sentinel entries). -/
def nondegenIds (g : Graph) : List Nat :=
  (List.range g.numEdges).filter (fun e => !(g.org e == g.dst e))

/-- Ids of non-degenerate edges coming into vertex `v`. -/
def inIdsAt (g : Graph) (v : Nat) : List Nat :=
  (nondegenIds g).filter (fun e => g.dst e == v)

/-- Ids of non-degenerate edges going out of vertex `v`. -/
def outIdsAt (g : Graph) (v : Nat) : List Nat :=
  (nondegenIds g).filter (fun e => g.org e == v)

/-- The incoming slots of vertex `v`. -/
def inSlotsAt (g : Graph) (v : Nat) : List Slot := (inIdsAt g v).map Slot.into

/-- The outgoing slots of vertex `v`. -/
def outSlotsAt (g : Graph) (v : Nat) : List Slot := (outIdsAt g v).map Slot.out

/-- `vorder` is a valid clockwise angular order for `g`: one cyclic
slot sequence per vertex, listing exactly the incident non-degenerate
edges of that vertex (in some cyclic geometric order, which the
exact predicates excluded from this core would provide). -/
def ValidOrder (g : Graph) (vorder : List (List Slot)) : Prop :=
  vorder.length = g.numVertices ∧
    ∀ v, v < g.numVertices →
      (vorder.getD v []).Perm (inSlotsAt g v ++ outSlotsAt g v)

instance (g : Graph) (vorder : List (List Slot)) :
    Decidable (ValidOrder g vorder) := by
  unfold ValidOrder
  infer_instance

/-- Number of edges into `v` (degenerate edges included). -/
def inDegree (g : Graph) (v : Nat) : Nat :=
  ((List.range g.numEdges).filter (fun e => g.dst e == v)).length

/-- Number of edges out of `v` (degenerate edges included). -/
def outDegree (g : Graph) (v : Nat) : Nat :=
  ((List.range g.numEdges).filter (fun e => g.org e == v)).length

/-- The parenthesis matching performed at one vertex: matched
(incoming, outgoing) pairs plus unmatched leftover slots. -/
def vertexMatch (g : Graph) (vorder : List (List Slot)) (v : Nat) :
    List (Nat × Nat) × List Slot :=
  matchAll (vorder.getD v []).length (vorder.getD v [])

/-- All (incoming edge, left-turn successor) pairs over all vertices. -/
def allLtmPairs (g : Graph) (vorder : List (List Slot)) : List (Nat × Nat) :=
  ((List.range g.numVertices).map (fun v => (vertexMatch g vorder v).1)).flatten

/-- First-match association lookup. -/
def lookupPair : List (Nat × Nat) → Nat → Option Nat
  | [], _ => none
  | p :: ps, e => if p.1 = e then some p.2 else lookupPair ps e

/-- Success test of the left-turn computation: no degenerate edge is
present and every vertex is fully matched. -/
def ltmOk (g : Graph) (vorder : List (List Slot)) : Bool :=
  g.edges.all (fun p => !(p.1 == p.2)) &&
    (List.range g.numVertices).all (fun v => (vertexMatch g vorder v).2.isEmpty)

/-- Modelled from the spec: `Graph::GetLeftTurnMap` (declared in
`s2builder_graph.h`, body not in this tree).  "For each vertex, take
the interleaved sequence of incoming and outgoing edges in clockwise
angular order; repeatedly match adjacent (incoming, outgoing) pairs
and remove them ... if a vertex's incoming/outgoing sequence cannot be
fully matched (unbalanced parentheses) or a self-loop edge is present,
the corresponding entries are set to a sentinel and the overall call
fails, reporting an error while still returning the partially-valid
map" (spec section 4.3).  Returns the error (populated exactly when
the call fails, that is, when the C++ method returns false) together
with the left-turn map. -/
def GetLeftTurnMap (g : Graph) (vorder : List (List Slot)) :
    Option String × List (Option Nat) :=
  ((if ltmOk g vorder then none
    else some "graph has degenerate edges or unmatched incoming edges"),
   (List.range g.numEdges).map (lookupPair (allLtmPairs g vorder)))

/-- The left-turn map entry of edge `e` (`none` models the `-1`
sentinel of the C++ implementation). -/
def ltmEntry (g : Graph) (vorder : List (List Slot)) (e : Nat) : Option Nat :=
  (GetLeftTurnMap g vorder).2.getD e none

/-- The left-turn map as a total function on edge ids (meaningful on
graphs where `GetLeftTurnMap` succeeds). -/
def ltmFun (g : Graph) (vorder : List (List Slot)) (e : Nat) : Nat :=
  (ltmEntry g vorder e).getD 0

/-! ### Structural facts about the per-vertex matching -/

theorem countP_split {α : Type} (p q : α → Bool) (l : List α) :
    l.countP p = l.countP (fun a => p a && q a) + l.countP (fun a => p a && !q a) := by
  induction l with
  | nil => rfl
  | cons x xs ih =>
    by_cases hp : p x <;> by_cases hq : q x <;>
      simp [List.countP_cons, hp, hq, ih] <;> omega

theorem mem_nondegenIds (g : Graph) (e : Nat) :
    e ∈ nondegenIds g ↔ e < g.numEdges ∧ g.org e ≠ g.dst e := by
  unfold nondegenIds
  rw [List.mem_filter, List.mem_range]
  simp

theorem mem_inIdsAt (g : Graph) (v e : Nat) :
    e ∈ inIdsAt g v ↔ e < g.numEdges ∧ g.org e ≠ g.dst e ∧ g.dst e = v := by
  unfold inIdsAt
  rw [List.mem_filter, mem_nondegenIds]
  simp
  tauto

theorem mem_outIdsAt (g : Graph) (v e : Nat) :
    e ∈ outIdsAt g v ↔ e < g.numEdges ∧ g.org e ≠ g.dst e ∧ g.org e = v := by
  unfold outIdsAt
  rw [List.mem_filter, mem_nondegenIds]
  simp
  tauto

theorem nodup_inIdsAt (g : Graph) (v : Nat) : (inIdsAt g v).Nodup :=
  (((List.nodup_range _).filter _).filter _)

theorem nodup_outIdsAt (g : Graph) (v : Nat) : (outIdsAt g v).Nodup :=
  (((List.nodup_range _).filter _).filter _)

theorem intoIds_vorder_perm (g : Graph) (vorder : List (List Slot))
    (hv : ValidOrder g vorder) (v : Nat) (hvlt : v < g.numVertices) :
    (intoIds (vorder.getD v [])).Perm (inIdsAt g v) := by
  have hperm := hv.2 v hvlt
  have h2 := hperm.filterMap (fun x =>
    match x with
    | Slot.into e => some e
    | Slot.out _ => none)
  refine h2.trans ?_
  rw [show (List.filterMap (fun x =>
      match x with
      | Slot.into e => some e
      | Slot.out _ => none) (inSlotsAt g v ++ outSlotsAt g v)) =
      intoIds (inSlotsAt g v ++ outSlotsAt g v) from rfl]
  rw [intoIds_append]
  unfold inSlotsAt outSlotsAt
  rw [intoIds_map_into, intoIds_map_out]
  simp

theorem outIds_vorder_perm (g : Graph) (vorder : List (List Slot))
    (hv : ValidOrder g vorder) (v : Nat) (hvlt : v < g.numVertices) :
    (outIds (vorder.getD v [])).Perm (outIdsAt g v) := by
  have hperm := hv.2 v hvlt
  have h2 := hperm.filterMap (fun x =>
    match x with
    | Slot.into _ => none
    | Slot.out e => some e)
  refine h2.trans ?_
  rw [show (List.filterMap (fun x =>
      match x with
      | Slot.into _ => none
      | Slot.out e => some e) (inSlotsAt g v ++ outSlotsAt g v)) =
      outIds (inSlotsAt g v ++ outSlotsAt g v) from rfl]
  rw [outIds_append]
  unfold inSlotsAt outSlotsAt
  rw [outIds_map_into, outIds_map_out]
  simp

/-- The matched pairs plus the leftover incoming slots of one vertex
account exactly for the incoming edges of that vertex. -/
theorem vertexMatch_fst_perm (g : Graph) (vorder : List (List Slot))
    (hv : ValidOrder g vorder) (v : Nat) (hvlt : v < g.numVertices) :
    ((((vertexMatch g vorder v).1.map Prod.fst)) ++
      intoIds (vertexMatch g vorder v).2).Perm (inIdsAt g v) :=
  (matchAll_intoIds_perm _ _).symm.trans (intoIds_vorder_perm g vorder hv v hvlt)

/-- The matched pairs plus the leftover outgoing slots of one vertex
account exactly for the outgoing edges of that vertex. -/
theorem vertexMatch_snd_perm (g : Graph) (vorder : List (List Slot))
    (hv : ValidOrder g vorder) (v : Nat) (hvlt : v < g.numVertices) :
    ((((vertexMatch g vorder v).1.map Prod.snd)) ++
      outIds (vertexMatch g vorder v).2).Perm (outIdsAt g v) :=
  (matchAll_outIds_perm _ _).symm.trans (outIds_vorder_perm g vorder hv v hvlt)

/-- At each vertex the matching succeeds completely exactly when the
vertex has as many (non-degenerate) incoming as outgoing edges. -/
theorem vertexMatch_leftover_empty_iff (g : Graph) (vorder : List (List Slot))
    (hv : ValidOrder g vorder) (v : Nat) (hvlt : v < g.numVertices) :
    (vertexMatch g vorder v).2 = [] ↔
      (inIdsAt g v).length = (outIdsAt g v).length := by
  unfold vertexMatch
  rw [matchAll_leftover_empty_iff _ _ (le_refl _)]
  rw [(intoIds_vorder_perm g vorder hv v hvlt).length_eq,
    (outIds_vorder_perm g vorder hv v hvlt).length_eq]

/-- Adding back the per-vertex degenerate-edge count relates
non-degenerate balance and full degree balance. -/
theorem inIdsAt_balance_iff_degree (g : Graph) (v : Nat) :
    (inIdsAt g v).length = (outIdsAt g v).length ↔
      inDegree g v = outDegree g v := by
  have e1 : inDegree g v =
      (List.range g.numEdges).countP (fun e => g.dst e == v) := by
    unfold inDegree
    rw [← List.countP_eq_length_filter]
  have e2 : outDegree g v =
      (List.range g.numEdges).countP (fun e => g.org e == v) := by
    unfold outDegree
    rw [← List.countP_eq_length_filter]
  have e3 : (inIdsAt g v).length = (List.range g.numEdges).countP
      (fun e => (g.dst e == v) && !(g.org e == g.dst e)) := by
    unfold inIdsAt nondegenIds
    rw [← List.countP_eq_length_filter, List.countP_filter]
  have e4 : (outIdsAt g v).length = (List.range g.numEdges).countP
      (fun e => (g.org e == v) && !(g.org e == g.dst e)) := by
    unfold outIdsAt nondegenIds
    rw [← List.countP_eq_length_filter, List.countP_filter]
  have s1 := countP_split (fun e => g.dst e == v)
    (fun e => !(g.org e == g.dst e)) (List.range g.numEdges)
  have s2 := countP_split (fun e => g.org e == v)
    (fun e => !(g.org e == g.dst e)) (List.range g.numEdges)
  have c1 : (List.range g.numEdges).countP
      (fun e => (g.dst e == v) && !(!(g.org e == g.dst e))) =
      (List.range g.numEdges).countP
      (fun e => (g.org e == v) && !(!(g.org e == g.dst e))) := by
    apply List.countP_congr
    intro e _
    by_cases h2 : g.org e = g.dst e <;> simp [h2]
  omega

/-! ### Lookup and key-uniqueness facts -/

theorem lookupPair_eq_some : ∀ (l : List (Nat × Nat)) (e b : Nat),
    lookupPair l e = some b → (e, b) ∈ l
  | [], e, b, h => by simp [lookupPair] at h
  | p :: ps, e, b, h => by
    unfold lookupPair at h
    split at h
    case isTrue heq =>
      cases h
      have hp : p = (e, p.2) := by
        rw [← heq]
      rw [← hp]
      exact List.mem_cons_self _ _
    case isFalse hne =>
      right
      exact lookupPair_eq_some ps e b h

theorem lookupPair_isSome_of_mem : ∀ (l : List (Nat × Nat)) (e b : Nat),
    (e, b) ∈ l → ∃ c, lookupPair l e = some c
  | [], e, b, h => by simp at h
  | p :: ps, e, b, h => by
    unfold lookupPair
    split
    case isTrue heq => exact ⟨p.2, rfl⟩
    case isFalse hne =>
      rcases List.mem_cons.mp h with heq | hmem
      · exact absurd (congrArg Prod.fst heq.symm) hne
      · exact lookupPair_isSome_of_mem ps e b hmem

theorem nodup_keys_val_unique : ∀ {l : List (Nat × Nat)},
    (l.map Prod.fst).Nodup → ∀ {a b1 b2 : Nat},
    (a, b1) ∈ l → (a, b2) ∈ l → b1 = b2 := by
  intro l
  induction l with
  | nil =>
    intro _ a b1 b2 h1 _
    simp at h1
  | cons p ps ih =>
    intro hU a b1 b2 h1 h2
    rw [List.map_cons, List.nodup_cons] at hU
    rcases List.mem_cons.mp h1 with he1 | hm1 <;>
      rcases List.mem_cons.mp h2 with he2 | hm2
    · rw [← he1] at he2
      exact ((Prod.mk.injEq _ _ _ _).mp he2.symm).2
    · exfalso
      apply hU.1
      rw [← he1]
      exact List.mem_map.mpr ⟨(a, b2), hm2, rfl⟩
    · exfalso
      apply hU.1
      rw [← he2]
      exact List.mem_map.mpr ⟨(a, b1), hm1, rfl⟩
    · exact ih hU.2 hm1 hm2

theorem nodup_vals_key_unique : ∀ {l : List (Nat × Nat)},
    (l.map Prod.snd).Nodup → ∀ {a1 a2 b : Nat},
    (a1, b) ∈ l → (a2, b) ∈ l → a1 = a2 := by
  intro l
  induction l with
  | nil =>
    intro _ a1 a2 b h1 _
    simp at h1
  | cons p ps ih =>
    intro hU a1 a2 b h1 h2
    rw [List.map_cons, List.nodup_cons] at hU
    rcases List.mem_cons.mp h1 with he1 | hm1 <;>
      rcases List.mem_cons.mp h2 with he2 | hm2
    · rw [← he1] at he2
      exact ((Prod.mk.injEq _ _ _ _).mp he2.symm).1
    · exfalso
      apply hU.1
      rw [← he1]
      exact List.mem_map.mpr ⟨(a2, b), hm2, rfl⟩
    · exfalso
      apply hU.1
      rw [← he2]
      exact List.mem_map.mpr ⟨(a1, b), hm1, rfl⟩
    · exact ih hU.2 hm1 hm2

theorem mem_allLtmPairs (g : Graph) (vorder : List (List Slot)) (p : Nat × Nat) :
    p ∈ allLtmPairs g vorder ↔
      ∃ v, v < g.numVertices ∧ p ∈ (vertexMatch g vorder v).1 := by
  unfold allLtmPairs
  rw [List.mem_flatten]
  constructor
  · rintro ⟨l, hl, hp⟩
    obtain ⟨v, hv, rfl⟩ := List.mem_map.mp hl
    exact ⟨v, List.mem_range.mp hv, hp⟩
  · rintro ⟨v, hv, hp⟩
    exact ⟨(vertexMatch g vorder v).1,
      List.mem_map.mpr ⟨v, List.mem_range.mpr hv, rfl⟩, hp⟩

/-- A matched pair at vertex `v` pairs an incoming edge of `v` with an
outgoing edge of `v`. -/
theorem vertexMatch_pair_mem (g : Graph) (vorder : List (List Slot))
    (hv : ValidOrder g vorder) (v : Nat) (hvlt : v < g.numVertices)
    (a b : Nat) (h : (a, b) ∈ (vertexMatch g vorder v).1) :
    a ∈ inIdsAt g v ∧ b ∈ outIdsAt g v := by
  constructor
  · have ha : a ∈ ((vertexMatch g vorder v).1.map Prod.fst) :=
      List.mem_map.mpr ⟨(a, b), h, rfl⟩
    exact (vertexMatch_fst_perm g vorder hv v hvlt).mem_iff.mp
      (List.mem_append.mpr (Or.inl ha))
  · have hb : b ∈ ((vertexMatch g vorder v).1.map Prod.snd) :=
      List.mem_map.mpr ⟨(a, b), h, rfl⟩
    exact (vertexMatch_snd_perm g vorder hv v hvlt).mem_iff.mp
      (List.mem_append.mpr (Or.inl hb))

/-- The matched-pair keys at one vertex never repeat. -/
theorem vertexMatch_fst_nodup (g : Graph) (vorder : List (List Slot))
    (hv : ValidOrder g vorder) (v : Nat) (hvlt : v < g.numVertices) :
    ((vertexMatch g vorder v).1.map Prod.fst).Nodup := by
  have h := (vertexMatch_fst_perm g vorder hv v hvlt).nodup_iff.mpr
    (nodup_inIdsAt g v)
  exact h.of_append_left

/-- The matched-pair values at one vertex never repeat. -/
theorem vertexMatch_snd_nodup (g : Graph) (vorder : List (List Slot))
    (hv : ValidOrder g vorder) (v : Nat) (hvlt : v < g.numVertices) :
    ((vertexMatch g vorder v).1.map Prod.snd).Nodup := by
  have h := (vertexMatch_snd_perm g vorder hv v hvlt).nodup_iff.mpr
    (nodup_outIdsAt g v)
  exact h.of_append_left

/-! ### Entries of the left-turn map -/

theorem ltmEntry_eq_lookup (g : Graph) (vorder : List (List Slot)) (e : Nat)
    (he : e < g.numEdges) :
    ltmEntry g vorder e = lookupPair (allLtmPairs g vorder) e := by
  unfold ltmEntry GetLeftTurnMap
  dsimp only
  rw [List.getD_eq_getElem _ _ (by simpa using he)]
  rw [List.getElem_map]
  congr 1
  exact List.getElem_range _ _

theorem ltmEntry_eq_none_of_ge (g : Graph) (vorder : List (List Slot)) (e : Nat)
    (he : g.numEdges ≤ e) : ltmEntry g vorder e = none := by
  unfold ltmEntry GetLeftTurnMap
  dsimp only
  apply List.getD_eq_default
  simpa using he

/-- A non-sentinel entry comes from a matched pair at the destination
vertex of its edge. -/
theorem ltmEntry_mem_pairs (g : Graph) (vorder : List (List Slot)) (e b : Nat)
    (h : ltmEntry g vorder e = some b) : (e, b) ∈ allLtmPairs g vorder := by
  by_cases hlt : e < g.numEdges
  · rw [ltmEntry_eq_lookup g vorder e hlt] at h
    exact lookupPair_eq_some _ _ _ h
  · rw [ltmEntry_eq_none_of_ge g vorder e (le_of_not_lt hlt)] at h
    exact Option.noConfusion h

/-- Every non-sentinel entry of the (possibly partial) left-turn map
is structurally correct: it sends an incoming non-degenerate edge to a
non-degenerate outgoing edge at its destination vertex. -/
theorem ltmEntry_some_props (g : Graph) (vorder : List (List Slot))
    (hv : ValidOrder g vorder) (e b : Nat)
    (h : ltmEntry g vorder e = some b) :
    e < g.numEdges ∧ b < g.numEdges ∧ g.org b = g.dst e ∧
      g.org e ≠ g.dst e ∧ g.org b ≠ g.dst b := by
  obtain ⟨v, hvlt, hmem⟩ := (mem_allLtmPairs g vorder (e, b)).mp
    (ltmEntry_mem_pairs g vorder e b h)
  obtain ⟨ha, hb⟩ := vertexMatch_pair_mem g vorder hv v hvlt e b hmem
  rw [mem_inIdsAt] at ha
  rw [mem_outIdsAt] at hb
  exact ⟨ha.1, hb.1, by rw [hb.2.2, ha.2.2], ha.2.1, hb.2.1⟩

/-- Distinct incoming edges are never sent to the same outgoing edge,
even on a partial (failed) left-turn map. -/
theorem ltmEntry_inj (g : Graph) (vorder : List (List Slot))
    (hv : ValidOrder g vorder) (e1 e2 b : Nat)
    (h1 : ltmEntry g vorder e1 = some b) (h2 : ltmEntry g vorder e2 = some b) :
    e1 = e2 := by
  obtain ⟨v1, hv1, hm1⟩ := (mem_allLtmPairs g vorder (e1, b)).mp
    (ltmEntry_mem_pairs g vorder e1 b h1)
  obtain ⟨v2, hv2, hm2⟩ := (mem_allLtmPairs g vorder (e2, b)).mp
    (ltmEntry_mem_pairs g vorder e2 b h2)
  have hb1 := (vertexMatch_pair_mem g vorder hv v1 hv1 e1 b hm1).2
  have hb2 := (vertexMatch_pair_mem g vorder hv v2 hv2 e2 b hm2).2
  rw [mem_outIdsAt] at hb1 hb2
  have hveq : v1 = v2 := by rw [← hb1.2.2, ← hb2.2.2]
  subst hveq
  exact nodup_vals_key_unique (vertexMatch_snd_nodup g vorder hv v1 hv1) hm1 hm2

/-! ### Success characterization of the left-turn computation -/

theorem getLeftTurnMap_err_none_iff_ok (g : Graph) (vorder : List (List Slot)) :
    (GetLeftTurnMap g vorder).1 = none ↔ ltmOk g vorder = true := by
  unfold GetLeftTurnMap
  dsimp only
  split
  case isTrue h => simp [h]
  case isFalse h => simp [h]

theorem ltmOk_iff (g : Graph) (vorder : List (List Slot)) :
    ltmOk g vorder = true ↔
      ((∀ p ∈ g.edges, p.1 ≠ p.2) ∧
        ∀ v, v < g.numVertices → (vertexMatch g vorder v).2 = []) := by
  unfold ltmOk
  simp [List.all_eq_true, List.isEmpty_iff, List.mem_range]

theorem edge_mem_of_lt (g : Graph) (e : Nat) (he : e < g.numEdges) :
    g.edge e ∈ g.edges := by
  unfold Graph.edge
  rw [List.getD_eq_getElem _ _ he]
  exact List.getElem_mem _

theorem ltm_success_no_degen (g : Graph) (vorder : List (List Slot))
    (hok : (GetLeftTurnMap g vorder).1 = none) (e : Nat) (he : e < g.numEdges) :
    g.org e ≠ g.dst e := by
  have h := (ltmOk_iff g vorder).mp
    ((getLeftTurnMap_err_none_iff_ok g vorder).mp hok)
  exact h.1 (g.edge e) (edge_mem_of_lt g e he)

theorem dst_lt_of_wf (g : Graph) (hwf : g.WF) (e : Nat) (he : e < g.numEdges) :
    g.dst e < g.numVertices :=
  (hwf (g.edge e) (edge_mem_of_lt g e he)).2

theorem org_lt_of_wf (g : Graph) (hwf : g.WF) (e : Nat) (he : e < g.numEdges) :
    g.org e < g.numVertices :=
  (hwf (g.edge e) (edge_mem_of_lt g e he)).1

/-- If the destination vertex of a non-degenerate edge was fully
matched, the edge has a left-turn successor. -/
theorem ltmEntry_isSome_of_matched (g : Graph) (vorder : List (List Slot))
    (hwf : g.WF) (hv : ValidOrder g vorder) (e : Nat) (he : e < g.numEdges)
    (hnd : g.org e ≠ g.dst e)
    (hlf : (vertexMatch g vorder (g.dst e)).2 = []) :
    ∃ b, ltmEntry g vorder e = some b := by
  have hvlt : g.dst e < g.numVertices := dst_lt_of_wf g hwf e he
  have hein : e ∈ inIdsAt g (g.dst e) := (mem_inIdsAt g _ e).mpr ⟨he, hnd, rfl⟩
  have hperm := vertexMatch_fst_perm g vorder hv (g.dst e) hvlt
  rw [hlf] at hperm
  simp only [show intoIds ([] : List Slot) = [] from rfl, List.append_nil]
    at hperm
  have hmemf : e ∈ (vertexMatch g vorder (g.dst e)).1.map Prod.fst :=
    hperm.mem_iff.mpr hein
  obtain ⟨p, hpair, heq⟩ := List.mem_map.mp hmemf
  have hpe : (e, p.2) ∈ (vertexMatch g vorder (g.dst e)).1 := by
    have : p = (e, p.2) := by rw [← heq]
    rw [← this]
    exact hpair
  have hmemall : (e, p.2) ∈ allLtmPairs g vorder :=
    (mem_allLtmPairs _ _ _).mpr ⟨g.dst e, hvlt, hpe⟩
  obtain ⟨c, hc⟩ := lookupPair_isSome_of_mem _ e p.2 hmemall
  refine ⟨c, ?_⟩
  rw [ltmEntry_eq_lookup g vorder e he]
  exact hc

/-- On success the left-turn map is total: every edge has a
non-sentinel entry, and the entry is `ltmFun`. -/
theorem ltm_success_entry (g : Graph) (vorder : List (List Slot))
    (hwf : g.WF) (hv : ValidOrder g vorder)
    (hok : (GetLeftTurnMap g vorder).1 = none) (e : Nat) (he : e < g.numEdges) :
    ltmEntry g vorder e = some (ltmFun g vorder e) := by
  have hOk := (ltmOk_iff g vorder).mp
    ((getLeftTurnMap_err_none_iff_ok g vorder).mp hok)
  have hnd := ltm_success_no_degen g vorder hok e he
  have hvlt : g.dst e < g.numVertices := dst_lt_of_wf g hwf e he
  obtain ⟨b, hb⟩ := ltmEntry_isSome_of_matched g vorder hwf hv e he hnd
    (hOk.2 (g.dst e) hvlt)
  rw [hb]
  unfold ltmFun
  rw [hb]
  rfl

theorem ltmFun_props (g : Graph) (vorder : List (List Slot))
    (hwf : g.WF) (hv : ValidOrder g vorder)
    (hok : (GetLeftTurnMap g vorder).1 = none) (e : Nat) (he : e < g.numEdges) :
    ltmFun g vorder e < g.numEdges ∧ g.org (ltmFun g vorder e) = g.dst e := by
  have h := ltm_success_entry g vorder hwf hv hok e he
  have hp := ltmEntry_some_props g vorder hv e _ h
  exact ⟨hp.2.1, hp.2.2.1⟩

theorem ltmFun_inj (g : Graph) (vorder : List (List Slot))
    (hwf : g.WF) (hv : ValidOrder g vorder)
    (hok : (GetLeftTurnMap g vorder).1 = none) (e1 e2 : Nat)
    (he1 : e1 < g.numEdges) (he2 : e2 < g.numEdges)
    (heq : ltmFun g vorder e1 = ltmFun g vorder e2) : e1 = e2 := by
  have h1 := ltm_success_entry g vorder hwf hv hok e1 he1
  have h2 := ltm_success_entry g vorder hwf hv hok e2 he2
  rw [heq] at h1
  exact ltmEntry_inj g vorder hv e1 e2 _ h1 h2

/-- A sentinel entry of an in-range edge means the edge is degenerate
or its destination vertex is unbalanced. -/
theorem ltmEntry_none_cases (g : Graph) (vorder : List (List Slot))
    (hwf : g.WF) (hv : ValidOrder g vorder) (e : Nat) (he : e < g.numEdges)
    (hnone : ltmEntry g vorder e = none) :
    g.org e = g.dst e ∨ inDegree g (g.dst e) ≠ outDegree g (g.dst e) := by
  by_contra hcon
  push_neg at hcon
  obtain ⟨hnd, hbal⟩ := hcon
  have hvlt : g.dst e < g.numVertices := dst_lt_of_wf g hwf e he
  have hlf : (vertexMatch g vorder (g.dst e)).2 = [] :=
    (vertexMatch_leftover_empty_iff g vorder hv _ hvlt).mpr
      ((inIdsAt_balance_iff_degree g _).mpr hbal)
  obtain ⟨b, hb⟩ := ltmEntry_isSome_of_matched g vorder hwf hv e he hnd hlf
  rw [hnone] at hb
  exact Option.noConfusion hb

/-- A degenerate edge always has a sentinel entry. -/
theorem ltmEntry_none_of_degen (g : Graph) (vorder : List (List Slot))
    (hv : ValidOrder g vorder) (e : Nat) (hd : g.org e = g.dst e) :
    ltmEntry g vorder e = none := by
  cases hcase : ltmEntry g vorder e with
  | none => rfl
  | some b =>
    have hp := ltmEntry_some_props g vorder hv e b hcase
    exact absurd hd hp.2.2.2.1

/-- Failure of the left-turn computation happens exactly when a
degenerate edge is present or some vertex is unbalanced. -/
theorem getLeftTurnMap_fail_iff (g : Graph) (vorder : List (List Slot))
    (hv : ValidOrder g vorder) :
    (GetLeftTurnMap g vorder).1.isSome = true ↔
      ((∃ p ∈ g.edges, p.1 = p.2) ∨
        ∃ v, v < g.numVertices ∧ inDegree g v ≠ outDegree g v) := by
  have hiff := (getLeftTurnMap_err_none_iff_ok g vorder).not
  rw [ltmOk_iff] at hiff
  constructor
  · intro hsome
    have hne : ¬ (GetLeftTurnMap g vorder).1 = none := by
      intro hcon
      rw [hcon] at hsome
      simp at hsome
    have h := hiff.mp hne
    rw [not_and_or] at h
    rcases h with h | h
    · left
      push_neg at h
      obtain ⟨p, hp, hpe⟩ := h
      exact ⟨p, hp, hpe⟩
    · right
      push_neg at h
      obtain ⟨v, hvlt, hlf⟩ := h
      refine ⟨v, hvlt, ?_⟩
      intro hEq
      apply hlf
      rw [vertexMatch_leftover_empty_iff g vorder hv v hvlt,
        inIdsAt_balance_iff_degree g v]
      exact hEq
  · intro hcase
    have hne : ¬ (GetLeftTurnMap g vorder).1 = none := by
      apply hiff.mpr
      rw [not_and_or]
      rcases hcase with ⟨p, hp, hpe⟩ | ⟨v, hvlt, hdeg⟩
      · left
        push_neg
        exact ⟨p, hp, hpe⟩
      · right
        push_neg
        refine ⟨v, hvlt, ?_⟩
        intro hEq
        apply hdeg
        rw [← inIdsAt_balance_iff_degree g v,
          ← vertexMatch_leftover_empty_iff g vorder hv v hvlt]
        exact hEq
    cases hcase2 : (GetLeftTurnMap g vorder).1 with
    | none => exact absurd hcase2 hne
    | some msg => rfl

/-- On success every vertex is balanced. -/
theorem ltm_success_balanced (g : Graph) (vorder : List (List Slot))
    (hv : ValidOrder g vorder) (hok : (GetLeftTurnMap g vorder).1 = none)
    (v : Nat) (hvlt : v < g.numVertices) : inDegree g v = outDegree g v := by
  have hOk := (ltmOk_iff g vorder).mp
    ((getLeftTurnMap_err_none_iff_ok g vorder).mp hok)
  rw [← inIdsAt_balance_iff_degree g v,
    ← vertexMatch_leftover_empty_iff g vorder hv v hvlt]
  exact hOk.2 v hvlt

/-! ## Loop assembly (spec sections 4.4) -/

/-- `Graph::LoopType`: SIMPLE closes a loop at the first repeated
vertex, CIRCUIT at the first repeated edge. -/
inductive LoopType where
  | simple
  | circuit
deriving DecidableEq, Repr

/-- Marks one edge id as used. -/
def mark (used : Nat → Bool) (e : Nat) : Nat → Bool :=
  fun x => if x = e then true else used x

/-- The CIRCUIT walk: follow the left-turn map from `e`, marking edges
along the way, until an already-used edge is reached. -/
def walkC (f : Nat → Nat) : (Nat → Bool) → Nat → Nat → List Nat
  | _, _, 0 => []
  | used, e, fuel + 1 =>
    if used e then [] else e :: walkC f (mark used e) (f e) fuel

/-- Position of the first path edge whose origin vertex is `d`
(the role of `path_index` in the C++ implementation). -/
def peelIdx (g : Graph) (d : Nat) : List Nat → Option Nat
  | [] => none
  | x :: xs => if g.org x = d then some 0 else (peelIdx g d xs).map Nat.succ

/-- The SIMPLE walk: follow the left-turn map, and whenever the
destination of the pushed edge is the origin of some edge already on
the path, peel the enclosed segment off as a loop and defer the rest
of the walk. -/
def speel (g : Graph) (ids : List Int) (f : Nat → Nat) :
    (Nat → Bool) → List Nat → List (List Nat) → Nat → Nat →
      List (List Nat) × List Nat × (Nat → Bool)
  | used, path, loops, _, 0 => (loops, path, used)
  | used, path, loops, e, fuel + 1 =>
    if used e then (loops, path, used)
    else
      match peelIdx g (g.dst e) (path ++ [e]) with
      | some j =>
        speel g ids f (mark used e) ((path ++ [e]).take j)
          (loops ++ [CanonicalizeLoopOrder ids ((path ++ [e]).drop j)]) (f e)
          fuel
      | none => speel g ids f (mark used e) (path ++ [e]) loops (f e) fuel

/-- Visits every edge id as a potential loop start, building a loop
(or, for SIMPLE, a batch of peeled loops) from each not-yet-used
start. -/
def assembleAux (g : Graph) (ids : List Int) (f : Nat → Nat) (lt : LoopType)
    (n : Nat) :
    List Nat → List (List Nat) × (Nat → Bool) → List (List Nat) × (Nat → Bool)
  | [], st => st
  | start :: rest, st =>
    if st.2 start then assembleAux g ids f lt n rest st
    else
      match lt with
      | LoopType.circuit =>
        let L := walkC f st.2 start (n + 1)
        assembleAux g ids f lt n rest
          (st.1 ++ [CanonicalizeLoopOrder ids L], fun x => st.2 x || L.contains x)
      | LoopType.simple =>
        let r := speel g ids f st.2 [] st.1 start (n + 1)
        assembleAux g ids f lt n rest (r.1, r.2.2)

/-- The loops assembled from the left-turn map, with the canonicalized
edge order within each loop and the canonicalized loop order. -/
def assembleLoops (g : Graph) (vorder : List (List Slot)) (ids : List Int)
    (lt : LoopType) : List (List Nat) :=
  CanonicalizeVectorOrder ids
    (assembleAux g ids (ltmFun g vorder) lt g.numEdges
      (List.range g.numEdges) ([], fun _ => false)).1

/-- Modelled from the spec: `Graph::GetDirectedLoops` (declared in
`s2builder_graph.h`, body not in this tree).  "Starting from any
not-yet-used edge, repeatedly follow the left-turn map until (SIMPLE)
a previously visited vertex is revisited — closing the loop there and
deferring the remainder of the walk to a fresh start — or (CIRCUIT) a
previously used edge is revisited, closing the loop on that edge"
(spec section 4.4); edge and loop order are canonicalized (spec
section 4.5); failure of the left-turn map construction makes the call
fail with the same error.  `ids` is the min-input-edge-id vector
(`GetMinInputEdgeIds`). -/
def GetDirectedLoops (g : Graph) (vorder : List (List Slot)) (ids : List Int)
    (lt : LoopType) : Option String × List (List Nat) :=
  match (GetLeftTurnMap g vorder).1 with
  | some err => (some err, [])
  | none => (none, assembleLoops g vorder ids lt)

/-! ## Concrete graphs used as witnesses -/

/-- A directed triangle `0 → 1 → 2 → 0`. -/
def triGraph : Graph :=
  { options := ⟨EdgeType.directed, DegenerateEdges.discard,
      DuplicateEdges.keep, SiblingPairs.keep⟩,
    numVertices := 3,
    edges := [(0, 1), (1, 2), (2, 0)] }

/-- An angular order for the triangle. -/
def triVorder : List (List Slot) :=
  [[Slot.into 2, Slot.out 0], [Slot.into 0, Slot.out 1], [Slot.into 1, Slot.out 2]]

/-- Identity min-input-edge ids for the triangle. -/
def triIds : List Int := [0, 1, 2]

/-- A single self-loop edge `(3, 3)` with `degenerate_edges = KEEP`
(scenario 4 of the spec). -/
def selfLoopGraph : Graph :=
  { options := ⟨EdgeType.directed, DegenerateEdges.keep,
      DuplicateEdges.keep, SiblingPairs.keep⟩,
    numVertices := 4,
    edges := [(3, 3)] }

/-- The (empty) angular orders of the self-loop graph: a degenerate
edge contributes no slots. -/
def selfLoopVorder : List (List Slot) := [[], [], [], []]

/-! ## C9: parentheses balance on success -/

/-- C9: whenever `GetLeftTurnMap` succeeds (returns true, i.e. reports
no error), every vertex of the graph has as many incoming edges as
outgoing edges. -/
theorem left_turn_success_balanced (g : Graph) (vorder : List (List Slot))
    (hv : ValidOrder g vorder)
    (hok : (GetLeftTurnMap g vorder).1 = none) :
    ∀ v, v < g.numVertices → inDegree g v = outDegree g v :=
  fun v hvlt => ltm_success_balanced g vorder hv hok v hvlt

/-- Witness for C9 at the directed triangle. -/
theorem left_turn_success_balanced_witness :
    ValidOrder triGraph triVorder ∧
      (GetLeftTurnMap triGraph triVorder).1 = none ∧
      ∀ v, v < triGraph.numVertices →
        inDegree triGraph v = outDegree triGraph v :=
  ⟨by decide, by decide,
    left_turn_success_balanced triGraph triVorder (by decide) (by decide)⟩

/-! ## C2: failure semantics of `GetLeftTurnMap` -/

/-- C2: `GetLeftTurnMap` fails (returns false and populates the error)
exactly when some incoming edge cannot be matched (equivalently, some
vertex is unbalanced) or a degenerate edge is present; sentinel
entries only occur for degenerate edges or edges into unbalanced
vertices (and always for degenerate edges), while every non-sentinel
entry of the partially-valid map is still a correct left-turn
successor: a distinct outgoing edge at the destination vertex. -/
theorem left_turn_map_failure_semantics (g : Graph)
    (vorder : List (List Slot)) (hwf : g.WF) (hv : ValidOrder g vorder) :
    ((GetLeftTurnMap g vorder).1.isSome = true ↔
      ((∃ p ∈ g.edges, p.1 = p.2) ∨
        ∃ v, v < g.numVertices ∧ inDegree g v ≠ outDegree g v)) ∧
    (∀ e, e < g.numEdges → ltmEntry g vorder e = none →
      g.org e = g.dst e ∨ inDegree g (g.dst e) ≠ outDegree g (g.dst e)) ∧
    (∀ e, e < g.numEdges → g.org e = g.dst e →
      ltmEntry g vorder e = none) ∧
    (∀ e b, ltmEntry g vorder e = some b →
      b < g.numEdges ∧ g.org b = g.dst e ∧ g.org e ≠ g.dst e) ∧
    (∀ e1 e2 b, ltmEntry g vorder e1 = some b →
      ltmEntry g vorder e2 = some b → e1 = e2) := by
  refine ⟨getLeftTurnMap_fail_iff g vorder hv, ?_, ?_, ?_, ?_⟩
  · intro e he hnone
    exact ltmEntry_none_cases g vorder hwf hv e he hnone
  · intro e _ hd
    exact ltmEntry_none_of_degen g vorder hv e hd
  · intro e b h
    have hp := ltmEntry_some_props g vorder hv e b h
    exact ⟨hp.2.1, hp.2.2.1, hp.2.2.2.1⟩
  · intro e1 e2 b h1 h2
    exact ltmEntry_inj g vorder hv e1 e2 b h1 h2

/-- Witness for C2 at the directed triangle. -/
theorem left_turn_map_failure_semantics_witness :
    Graph.WF triGraph ∧ ValidOrder triGraph triVorder ∧
      (((GetLeftTurnMap triGraph triVorder).1.isSome = true ↔
        ((∃ p ∈ triGraph.edges, p.1 = p.2) ∨
          ∃ v, v < triGraph.numVertices ∧
            inDegree triGraph v ≠ outDegree triGraph v)) ∧
      (∀ e, e < triGraph.numEdges → ltmEntry triGraph triVorder e = none →
        triGraph.org e = triGraph.dst e ∨
          inDegree triGraph (triGraph.dst e) ≠
            outDegree triGraph (triGraph.dst e)) ∧
      (∀ e, e < triGraph.numEdges → triGraph.org e = triGraph.dst e →
        ltmEntry triGraph triVorder e = none) ∧
      (∀ e b, ltmEntry triGraph triVorder e = some b →
        b < triGraph.numEdges ∧ triGraph.org b = triGraph.dst e ∧
          triGraph.org e ≠ triGraph.dst e) ∧
      (∀ e1 e2 b, ltmEntry triGraph triVorder e1 = some b →
        ltmEntry triGraph triVorder e2 = some b → e1 = e2)) :=
  ⟨by decide, by decide,
    left_turn_map_failure_semantics triGraph triVorder (by decide) (by decide)⟩

/-! ## C8: a kept self-loop edge makes `GetDirectedLoops` fail -/

/-- C8: on the graph consisting of the single self-loop edge `(3, 3)`
with `degenerate_edges = KEEP`, `GetDirectedLoops` (for both loop
types) returns false and reports an assembly failure; the angular
order used is valid, so the failure is forced by the degenerate edge
itself. -/
theorem self_loop_directed_loops_fails :
    selfLoopGraph.options.degenerateEdges = DegenerateEdges.keep ∧
      ValidOrder selfLoopGraph selfLoopVorder ∧
      (GetDirectedLoops selfLoopGraph selfLoopVorder [0]
        LoopType.simple).1.isSome = true ∧
      (GetDirectedLoops selfLoopGraph selfLoopVorder [0]
        LoopType.circuit).1.isSome = true := by
  refine ⟨rfl, by decide, ?_, ?_⟩ <;> rfl

/-! ### The circuit walk consumes exactly one cycle of the left-turn
permutation -/

theorem contains_iff_mem_nat (L : List Nat) (x : Nat) :
    L.contains x = true ↔ x ∈ L := by
  rw [List.contains_eq_any_beq, List.any_eq_true]
  constructor
  · rintro ⟨b, hb, hbeq⟩
    rw [show x = b from by simpa using hbeq]
    exact hb
  · intro h
    exact ⟨x, h, by simp⟩

theorem length_le_of_nodup_lt (n : Nat) (L : List Nat) (hnd : L.Nodup)
    (hb : ∀ x ∈ L, x < n) : L.length ≤ n := by
  classical
  have h1 : L.toFinset ⊆ Finset.range n := by
    intro x hx
    simp only [List.mem_toFinset] at hx
    exact Finset.mem_range.mpr (hb x hx)
  have h2 := Finset.card_le_card h1
  rw [List.toFinset_card_of_nodup hnd, Finset.card_range] at h2
  exact h2

theorem walkC_mem_unused (f : Nat → Nat) (fuel : Nat) :
    ∀ (used : Nat → Bool) (e x : Nat),
    x ∈ walkC f used e fuel → used x = false := by
  induction fuel with
  | zero =>
    intro used e x h
    simp [walkC] at h
  | succ fuel ih =>
    intro used e x h
    unfold walkC at h
    split at h
    case isTrue => simp at h
    case isFalse hne =>
      rcases List.mem_cons.mp h with rfl | hmem
      · exact Bool.eq_false_iff.mpr hne
      · have hx := ih (mark used e) (f e) x hmem
        unfold mark at hx
        split at hx
        case isTrue => exact absurd hx (by simp)
        case isFalse => exact hx

theorem walkC_nodup (f : Nat → Nat) (fuel : Nat) :
    ∀ (used : Nat → Bool) (e : Nat), (walkC f used e fuel).Nodup := by
  induction fuel with
  | zero =>
    intro used e
    simp [walkC]
  | succ fuel ih =>
    intro used e
    unfold walkC
    split
    case isTrue => simp
    case isFalse hne =>
      rw [List.nodup_cons]
      refine ⟨?_, ih _ _⟩
      intro hcon
      have := walkC_mem_unused f fuel (mark used e) (f e) e hcon
      unfold mark at this
      simp at this

theorem walkC_ne_nil (f : Nat → Nat) (fuel : Nat) (used : Nat → Bool) (e : Nat)
    (hfuel : 0 < fuel) (hne : used e = false) : walkC f used e fuel ≠ [] := by
  cases fuel with
  | zero => omega
  | succ fuel =>
    unfold walkC
    rw [if_neg (by rw [hne]; exact Bool.false_ne_true)]
    exact List.cons_ne_nil _ _

theorem walkC_head (f : Nat → Nat) (fuel : Nat) (used : Nat → Bool) (e : Nat)
    (hne : walkC f used e fuel ≠ []) :
    (walkC f used e fuel).getD 0 0 = e := by
  cases fuel with
  | zero => exact absurd rfl hne
  | succ fuel =>
    unfold walkC at hne ⊢
    split at hne
    case isTrue => exact absurd rfl hne
    case isFalse h =>
      rw [if_neg h]
      rfl

theorem walkC_chain (f : Nat → Nat) (fuel : Nat) :
    ∀ (used : Nat → Bool) (e i : Nat),
    i + 1 < (walkC f used e fuel).length →
    (walkC f used e fuel).getD (i + 1) 0 = f ((walkC f used e fuel).getD i 0) := by
  induction fuel with
  | zero =>
    intro used e i h
    simp [walkC] at h
  | succ fuel ih =>
    intro used e i h
    unfold walkC at h ⊢
    split at h
    case isTrue => simp at h
    case isFalse hne =>
      rw [if_neg hne]
      simp only [List.length_cons] at h
      match i with
      | 0 =>
        simp only [List.getD_cons_succ, List.getD_cons_zero]
        have htne : walkC f (mark used e) (f e) fuel ≠ [] := by
          intro hcon
          rw [hcon] at h
          simp at h
        exact walkC_head f fuel (mark used e) (f e) htne
      | i + 1 =>
        simp only [List.getD_cons_succ]
        exact ih (mark used e) (f e) i (by omega)

theorem walkC_mem_lt (f : Nat → Nat) (n : Nat)
    (hrange : ∀ x, x < n → f x < n) (fuel : Nat) :
    ∀ (used : Nat → Bool) (e : Nat), e < n →
    ∀ x ∈ walkC f used e fuel, x < n := by
  induction fuel with
  | zero =>
    intro used e _ x hx
    simp [walkC] at hx
  | succ fuel ih =>
    intro used e he x hx
    unfold walkC at hx
    split at hx
    case isTrue => simp at hx
    case isFalse =>
      rcases List.mem_cons.mp hx with rfl | hmem
      · exact he
      · exact ih (mark used e) (f e) (hrange e he) x hmem

theorem walkC_stop (f : Nat → Nat) (fuel : Nat) :
    ∀ (used : Nat → Bool) (e : Nat),
    (walkC f used e fuel).length < fuel → walkC f used e fuel ≠ [] →
    (used (f ((walkC f used e fuel).getD ((walkC f used e fuel).length - 1) 0))
        = true ∨
      f ((walkC f used e fuel).getD ((walkC f used e fuel).length - 1) 0) ∈
        walkC f used e fuel) := by
  induction fuel with
  | zero =>
    intro used e hlen _
    omega
  | succ fuel ih =>
    intro used e hlen hnil
    unfold walkC at hlen hnil ⊢
    split at hnil
    case isTrue => exact absurd rfl hnil
    case isFalse hne =>
      rw [if_neg hne] at hlen ⊢
      by_cases hrest : walkC f (mark used e) (f e) fuel = []
      · rw [hrest]
        rw [hrest] at hlen
        simp only [List.length_cons, List.length_nil] at hlen
        have hred : ((e :: []) : List Nat).getD
            (((e :: []) : List Nat).length - 1) 0 = e := rfl
        rw [hred]
        have hfuel : 0 < fuel := by omega
        have hmark : mark used e (f e) = true := by
          by_contra hcon
          exact walkC_ne_nil f fuel (mark used e) (f e) hfuel
            (Bool.eq_false_iff.mpr hcon) hrest
        unfold mark at hmark
        split at hmark
        · rename_i heq
          right
          rw [heq]
          exact List.mem_cons_self _ _
        · left
          exact hmark
      · have hlen2 : (walkC f (mark used e) (f e) fuel).length < fuel := by
          simp only [List.length_cons] at hlen
          omega
        have ihr := ih (mark used e) (f e) hlen2 hrest
        have hpos : 0 < (walkC f (mark used e) (f e) fuel).length := by
          cases hcase : walkC f (mark used e) (f e) fuel with
          | nil => exact absurd hcase hrest
          | cons a as => simp
        have hgetD : (e :: walkC f (mark used e) (f e) fuel).getD
            ((e :: walkC f (mark used e) (f e) fuel).length - 1) 0 =
            (walkC f (mark used e) (f e) fuel).getD
              ((walkC f (mark used e) (f e) fuel).length - 1) 0 := by
          simp only [List.length_cons]
          rw [show (walkC f (mark used e) (f e) fuel).length + 1 - 1 =
            ((walkC f (mark used e) (f e) fuel).length - 1) + 1 from by omega]
          rw [List.getD_cons_succ]
        rw [hgetD]
        rcases ihr with hused | hmem
        · unfold mark at hused
          split at hused
          · rename_i heq
            right
            have heq2 : f ((walkC f (mark used e) (f e) fuel).getD
                ((walkC f (mark used e) (f e) fuel).length - 1) 0) = e := heq
            rw [heq2]
            exact List.mem_cons_self _ _
          · left
            exact hused
        · right
          exact List.mem_cons_of_mem _ hmem

/-- A set of used edges closed under left-turn preimages. -/
def UsedClosed (f : Nat → Nat) (n : Nat) (used : Nat → Bool) : Prop :=
  ∀ x, x < n → used (f x) = true → used x = true

/-- The circuit walk from an unused edge is a complete cycle of the
left-turn permutation: it is nonempty and the left turn from its last
edge is its first edge. -/
theorem walkC_last_f (f : Nat → Nat) (n : Nat)
    (hrange : ∀ x, x < n → f x < n)
    (hinj : ∀ x y, x < n → y < n → f x = f y → x = y)
    (used : Nat → Bool) (hU : UsedClosed f n used)
    (e : Nat) (he : e < n) (hne : used e = false) :
    walkC f used e (n + 1) ≠ [] ∧
      f ((walkC f used e (n + 1)).getD
        ((walkC f used e (n + 1)).length - 1) 0) = e := by
  have hnil : walkC f used e (n + 1) ≠ [] :=
    walkC_ne_nil f (n + 1) used e (by omega) hne
  refine ⟨hnil, ?_⟩
  have hlenle : (walkC f used e (n + 1)).length ≤ n :=
    length_le_of_nodup_lt n _ (walkC_nodup f (n + 1) used e)
      (walkC_mem_lt f n hrange (n + 1) used e he)
  have hstop := walkC_stop f (n + 1) used e (by omega) hnil
  set L := walkC f used e (n + 1) with hL
  have hlast_mem : L.getD (L.length - 1) 0 ∈ L := by
    have hpos : 0 < L.length := by
      cases hcase : L with
      | nil => exact absurd hcase hnil
      | cons a as => simp
    rw [List.getD_eq_getElem _ _ (by omega)]
    exact List.getElem_mem _
  have hlast_lt : L.getD (L.length - 1) 0 < n :=
    walkC_mem_lt f n hrange (n + 1) used e he _ hlast_mem
  rcases hstop with hused | hmem
  · exfalso
    have h1 := hU _ hlast_lt hused
    have h2 := walkC_mem_unused f (n + 1) used e _ hlast_mem
    rw [h2] at h1
    exact Bool.noConfusion h1
  · obtain ⟨i, hi, hieq⟩ := List.mem_iff_getElem.mp hmem
    match i with
    | 0 =>
      rw [← hieq, ← List.getD_eq_getElem L 0 hi]
      exact (walkC_head f (n + 1) used e hnil).symm ▸ rfl
    | i + 1 =>
      exfalso
      have hchain := walkC_chain f (n + 1) used e i (by rw [← hL]; omega)
      rw [← hL] at hchain
      have hieq2 : L.getD (i + 1) 0 = f (L.getD (L.length - 1) 0) := by
        rw [List.getD_eq_getElem _ _ hi]
        exact hieq
      rw [hchain] at hieq2
      have hmem_i : L.getD i 0 ∈ L := by
        rw [List.getD_eq_getElem _ _ (by omega)]
        exact List.getElem_mem _
      have hlt_i : L.getD i 0 < n :=
        walkC_mem_lt f n hrange (n + 1) used e he _ hmem_i
      have heq2 : L.getD i 0 = L.getD (L.length - 1) 0 :=
        hinj _ _ hlt_i hlast_lt hieq2
      have hpos : 0 < L.length := by
        cases hcase : L with
        | nil => exact absurd hcase hnil
        | cons a as => simp
      rw [List.getD_eq_getElem _ _ (by omega),
        List.getD_eq_getElem _ _ (by omega)] at heq2
      have := ((walkC_nodup f (n + 1) used e).getElem_inj_iff).mp heq2
      omega

/-- Cyclic successor property of a loop: each element is related to
the cyclically next one. -/
def CyclicRel (R : Nat → Nat → Prop) (L : List Nat) : Prop :=
  ∀ i, i < L.length → R (L.getD i 0) (L.getD ((i + 1) % L.length) 0)

instance (R : Nat → Nat → Prop) [DecidableRel R] (L : List Nat) :
    Decidable (CyclicRel R L) := by
  unfold CyclicRel
  infer_instance

theorem cyclicRel_rotate (R : Nat → Nat → Prop) (L : List Nat) (k : Nat)
    (h : CyclicRel R L) : CyclicRel R (L.rotate k) := by
  intro i hi
  have hlr : (L.rotate k).length = L.length := List.length_rotate _ _
  rw [hlr] at hi
  have hlen : 0 < L.length := by omega
  rw [hlr]
  have hg1 : (L.rotate k).getD i 0 = L.getD ((i + k) % L.length) 0 := by
    rw [List.getD_eq_getElem _ _ (by rw [hlr]; omega), List.getElem_rotate,
      List.getD_eq_getElem _ _ (Nat.mod_lt _ hlen)]
  have hidx1 : (i + 1) % L.length < L.length := Nat.mod_lt _ hlen
  have hg2 : (L.rotate k).getD ((i + 1) % L.length) 0 =
      L.getD (((i + 1) % L.length + k) % L.length) 0 := by
    rw [List.getD_eq_getElem _ _ (by rw [hlr]; exact hidx1), List.getElem_rotate,
      List.getD_eq_getElem _ _ (Nat.mod_lt _ hlen)]
  rw [hg1, hg2]
  have hinst := h ((i + k) % L.length) (Nat.mod_lt _ hlen)
  have hidx : ((i + k) % L.length + 1) % L.length =
      ((i + 1) % L.length + k) % L.length := by
    rw [Nat.mod_add_mod, Nat.mod_add_mod]
    congr 1
    omega
  rw [hidx] at hinst
  exact hinst

/-- Extending a preimage-closed used set by a complete cycle keeps it
preimage-closed. -/
theorem usedClosed_extend (f : Nat → Nat) (n : Nat)
    (hrange : ∀ x, x < n → f x < n)
    (hinj : ∀ x y, x < n → y < n → f x = f y → x = y)
    (used : Nat → Bool) (hU : UsedClosed f n used)
    (e : Nat) (he : e < n) (hne : used e = false)
    (used2 : Nat → Bool)
    (hspec : ∀ x, used2 x =
      (used x || decide (x ∈ walkC f used e (n + 1)))) :
    UsedClosed f n used2 := by
  intro x hx hfx
  rw [hspec] at hfx
  rw [hspec]
  rcases Bool.or_eq_true_iff.mp hfx with h1 | h1
  · rw [hU x hx h1]
    rfl
  · have hmem : f x ∈ walkC f used e (n + 1) := of_decide_eq_true h1
    set L := walkC f used e (n + 1) with hL
    obtain ⟨i, hi, hieq⟩ := List.mem_iff_getElem.mp hmem
    have hxmem : x ∈ L := by
      match i with
      | 0 =>
        have hhead : L.getD 0 0 = e := walkC_head f (n + 1) used e
          (walkC_ne_nil f (n + 1) used e (by omega) hne)
        have hWlast := walkC_last_f f n hrange hinj used hU e he hne
        have hlast_mem : L.getD (L.length - 1) 0 ∈ L := by
          rw [List.getD_eq_getElem _ _ (by omega)]
          exact List.getElem_mem _
        have hlast_lt : L.getD (L.length - 1) 0 < n :=
          walkC_mem_lt f n hrange (n + 1) used e he _ hlast_mem
        have hfeq : f x = f (L.getD (L.length - 1) 0) := by
          rw [hWlast.2, ← hhead, List.getD_eq_getElem _ _ hi]
          exact hieq.symm
        rw [hinj x _ hx hlast_lt hfeq]
        exact hlast_mem
      | i + 1 =>
        have hchain := walkC_chain f (n + 1) used e i (by rw [← hL]; omega)
        rw [← hL] at hchain
        have hieq2 : L.getD (i + 1) 0 = f x := by
          rw [List.getD_eq_getElem _ _ hi]
          exact hieq
        rw [hchain] at hieq2
        have hmem_i : L.getD i 0 ∈ L := by
          rw [List.getD_eq_getElem _ _ (by omega)]
          exact List.getElem_mem _
        have hlt_i : L.getD i 0 < n :=
          walkC_mem_lt f n hrange (n + 1) used e he _ hmem_i
        rw [hinj x _ hx hlt_i hieq2.symm]
        exact hmem_i
    rw [decide_eq_true hxmem]
    rw [Bool.or_true]

/-- The first already-used edge reached by a walk. -/
def stopEdge (f : Nat → Nat) : (Nat → Bool) → Nat → Nat → Nat
  | _, e, 0 => e
  | used, e, fuel + 1 => if used e then e else stopEdge f (mark used e) (f e) fuel

theorem stopEdge_spec (f : Nat → Nat) (fuel : Nat) :
    ∀ (used : Nat → Bool) (e : Nat),
    stopEdge f used e fuel =
      if walkC f used e fuel = [] then e
      else f ((walkC f used e fuel).getD ((walkC f used e fuel).length - 1) 0) := by
  induction fuel with
  | zero =>
    intro used e
    simp [stopEdge, walkC]
  | succ fuel ih =>
    intro used e
    unfold stopEdge walkC
    by_cases hu : used e = true
    · rw [if_pos hu, if_pos hu]
      simp
    · rw [if_neg hu, if_neg hu]
      rw [if_neg (List.cons_ne_nil _ _)]
      rw [ih (mark used e) (f e)]
      by_cases hrest : walkC f (mark used e) (f e) fuel = []
      · rw [if_pos hrest, hrest]
        rfl
      · rw [if_neg hrest]
        have hpos : 0 < (walkC f (mark used e) (f e) fuel).length := by
          cases hcase : walkC f (mark used e) (f e) fuel with
          | nil => exact absurd hcase hrest
          | cons a as => simp
        congr 1
        simp only [List.length_cons]
        rw [show (walkC f (mark used e) (f e) fuel).length + 1 - 1 =
          ((walkC f (mark used e) (f e) fuel).length - 1) + 1 from by omega]
        rw [List.getD_cons_succ]

/-- A walk started at an unused edge stops exactly when it returns to
its starting edge. -/
theorem stopEdge_start (f : Nat → Nat) (n : Nat)
    (hrange : ∀ x, x < n → f x < n)
    (hinj : ∀ x y, x < n → y < n → f x = f y → x = y)
    (used : Nat → Bool) (hU : UsedClosed f n used)
    (e : Nat) (he : e < n) (hne : used e = false) :
    stopEdge f used e (n + 1) = e := by
  rw [stopEdge_spec]
  have hW := walkC_last_f f n hrange hinj used hU e he hne
  rw [if_neg hW.1]
  exact hW.2

/-- The circuit walk is cyclically closed under the left-turn map. -/
theorem walkC_cyclic (f : Nat → Nat) (n : Nat)
    (hrange : ∀ x, x < n → f x < n)
    (hinj : ∀ x y, x < n → y < n → f x = f y → x = y)
    (used : Nat → Bool) (hU : UsedClosed f n used)
    (e : Nat) (he : e < n) (hne : used e = false) :
    CyclicRel (fun a b => f a = b) (walkC f used e (n + 1)) := by
  intro i hi
  set L := walkC f used e (n + 1) with hL
  by_cases hend : i + 1 < L.length
  · rw [Nat.mod_eq_of_lt hend]
    exact (walkC_chain f (n + 1) used e i (by rw [← hL]; exact hend)).symm
  · have hieq : i = L.length - 1 := by omega
    have hlen : i + 1 = L.length := by omega
    rw [hlen, Nat.mod_self]
    have hW := walkC_last_f f n hrange hinj used hU e he hne
    rw [hieq]
    rw [walkC_head f (n + 1) used e hW.1]
    exact hW.2

/-! ### The peeling walk of SIMPLE loop assembly -/

theorem peelIdx_some (g : Graph) (d : Nat) :
    ∀ (l : List Nat) (j : Nat), peelIdx g d l = some j →
      j < l.length ∧ g.org (l.getD j 0) = d := by
  intro l
  induction l with
  | nil =>
    intro j h
    simp [peelIdx] at h
  | cons x xs ih =>
    intro j h
    unfold peelIdx at h
    split at h
    case isTrue heq =>
      cases h
      exact ⟨by simp, heq⟩
    case isFalse hne =>
      rw [Option.map_eq_some'] at h
      obtain ⟨j', hj', rfl⟩ := h
      have := ih j' hj'
      exact ⟨by simpa using Nat.succ_lt_succ this.1, by simpa using this.2⟩

theorem peelIdx_head (g : Graph) (d : Nat) (x : Nat) (xs : List Nat)
    (h : g.org x = d) : peelIdx g d (x :: xs) = some 0 := by
  unfold peelIdx
  rw [if_pos h]

theorem getD_take_lt (P : List Nat) (j i : Nat) (hij : i < j)
    (hiP : i < P.length) : (P.take j).getD i 0 = P.getD i 0 := by
  have hi : i < (P.take j).length := by
    rw [List.length_take]
    omega
  rw [List.getD_eq_getElem _ _ hi, List.getD_eq_getElem _ _ hiP]
  exact List.getElem_take _

theorem getD_drop_add (P : List Nat) (j i : Nat) (h : j + i < P.length) :
    (P.drop j).getD i 0 = P.getD (j + i) 0 := by
  have hi : i < (P.drop j).length := by
    rw [List.length_drop]
    omega
  rw [List.getD_eq_getElem _ _ hi, List.getD_eq_getElem _ _ h]
  exact List.getElem_drop _

theorem getD_append_last (path : List Nat) (e : Nat) :
    (path ++ [e]).getD ((path ++ [e]).length - 1) 0 = e := by
  rw [List.length_append]
  simp only [List.length_singleton]
  rw [show path.length + 1 - 1 = path.length from by omega]
  rw [List.getD_append_right _ _ _ _ (le_refl _)]
  simp

/-- The invariant carried along the SIMPLE peeling walk: the path is a
connected walk beginning at vertex `A`, whose end joins the pending
edge `e`; when the path is empty the pending edge starts at `A`. -/
def PathInv (g : Graph) (A : Nat) (path : List Nat) (e : Nat) : Prop :=
  (path = [] → g.org e = A) ∧
  (path ≠ [] → g.org (path.getD 0 0) = A ∧
    g.dst (path.getD (path.length - 1) 0) = g.org e) ∧
  ∀ i, i + 1 < path.length →
    g.dst (path.getD i 0) = g.org (path.getD (i + 1) 0)

/-- The used set produced by the SIMPLE walk is the input set plus the
edges of the corresponding circuit walk. -/
theorem speel_used_out (g : Graph) (ids : List Int) (f : Nat → Nat) :
    ∀ (fuel : Nat) (used : Nat → Bool) (path : List Nat)
    (loops : List (List Nat)) (e x : Nat),
    (speel g ids f used path loops e fuel).2.2 x =
      (used x || decide (x ∈ walkC f used e fuel)) := by
  intro fuel
  induction fuel with
  | zero =>
    intro used path loops e x
    simp [speel, walkC]
  | succ fuel ih =>
    intro used path loops e x
    unfold speel walkC
    by_cases hu : used e = true
    · rw [if_pos hu, if_pos hu]
      simp
    · rw [if_neg hu, if_neg hu]
      have hmem : (decide (x ∈ e :: walkC f (mark used e) (f e) fuel) : Bool) =
          (decide (x = e) || decide (x ∈ walkC f (mark used e) (f e) fuel)) := by
        by_cases hx : x = e
        · simp [hx]
        · simp [hx, List.mem_cons]
      have hgoal : ∀ r : List (List Nat) × List Nat × (Nat → Bool),
          r.2.2 x = (mark used e x ||
            decide (x ∈ walkC f (mark used e) (f e) fuel)) →
          r.2.2 x = (used x || decide (x ∈ e :: walkC f (mark used e) (f e) fuel)) := by
        intro r hr
        rw [hr, hmem]
        unfold mark
        by_cases hx : x = e
        · rw [if_pos hx]
          rw [show (decide (x = e) : Bool) = true from decide_eq_true hx]
          simp [hx, Bool.eq_false_iff.mpr hu]
        · rw [if_neg hx]
          rw [show (decide (x = e) : Bool) = false from decide_eq_false hx]
          simp [Bool.or_assoc]
      cases hpi : peelIdx g (g.dst e) (path ++ [e]) with
      | some j => exact hgoal _ (ih _ _ _ _ x)
      | none => exact hgoal _ (ih _ _ _ _ x)

/-- Multiset conservation of the SIMPLE walk: the edges in the emitted
loops plus the final path are the initial loops, the initial path and
the edges pushed by the walk. -/
theorem speel_flatten_perm (g : Graph) (ids : List Int) (f : Nat → Nat) :
    ∀ (fuel : Nat) (used : Nat → Bool) (path : List Nat)
    (loops : List (List Nat)) (e : Nat),
    ((speel g ids f used path loops e fuel).1.flatten ++
        (speel g ids f used path loops e fuel).2.1).Perm
      (loops.flatten ++ (path ++ walkC f used e fuel)) := by
  intro fuel
  induction fuel with
  | zero =>
    intro used path loops e
    simp [speel, walkC]
  | succ fuel ih =>
    intro used path loops e
    unfold speel walkC
    by_cases hu : used e = true
    · rw [if_pos hu, if_pos hu]
      simp
    · rw [if_neg hu, if_neg hu]
      have hP : path ++ e :: walkC f (mark used e) (f e) fuel =
          (path ++ [e]) ++ walkC f (mark used e) (f e) fuel := by
        rw [List.append_assoc]
        rfl
      cases hpi : peelIdx g (g.dst e) (path ++ [e]) with
      | some j =>
        have ihr := ih (mark used e) ((path ++ [e]).take j)
          (loops ++ [CanonicalizeLoopOrder ids ((path ++ [e]).drop j)]) (f e)
        refine ihr.trans ?_
        rw [hP]
        rw [List.flatten_append]
        rw [show ([CanonicalizeLoopOrder ids ((path ++ [e]).drop j)] :
            List (List Nat)).flatten =
          CanonicalizeLoopOrder ids ((path ++ [e]).drop j) from by simp]
        have hcanon : (CanonicalizeLoopOrder ids ((path ++ [e]).drop j)).Perm
            ((path ++ [e]).drop j) := List.rotate_perm _ _
        rw [List.append_assoc]
        refine List.Perm.append_left loops.flatten ?_
        refine (List.Perm.append_right _ hcanon).trans ?_
        rw [← List.append_assoc]
        refine List.Perm.append_right _ ?_
        refine ((List.perm_append_comm).trans ?_)
        rw [List.take_append_drop]
      | none =>
        have ihr := ih (mark used e) (path ++ [e]) loops (f e)
        refine ihr.trans ?_
        rw [hP]

/-- Provided each walk stops at an edge whose origin is the walk's
base vertex `A` (true for a complete cycle of the left-turn
permutation), the SIMPLE peeling walk ends with an empty path and
every loop it emits is a nonempty cyclically closed vertex walk. -/
theorem speel_props (g : Graph) (ids : List Int) (f : Nat → Nat) (n : Nat)
    (hrange : ∀ x, x < n → f x < n)
    (horg : ∀ x, x < n → g.org (f x) = g.dst x)
    (hnd : ∀ x, x < n → g.org x ≠ g.dst x)
    (A : Nat) :
    ∀ (fuel : Nat) (used : Nat → Bool) (path : List Nat)
      (loops : List (List Nat)) (e : Nat),
    e < n →
    PathInv g A path e →
    (used e = true → path = []) →
    g.org (stopEdge f used e fuel) = A →
    (walkC f used e fuel).length < fuel →
    (speel g ids f used path loops e fuel).2.1 = [] ∧
      ∀ L ∈ (speel g ids f used path loops e fuel).1,
        L ∈ loops ∨ (L ≠ [] ∧ CyclicRel (fun a b => g.dst a = g.org b) L) := by
  intro fuel
  induction fuel with
  | zero =>
    intro used path loops e _ _ _ _ hlen
    simp [walkC] at hlen
  | succ fuel ih =>
    intro used path loops e he hpi hstart hstop hlen
    by_cases hu : used e = true
    · unfold speel
      rw [if_pos hu]
      exact ⟨hstart hu, fun L hL => Or.inl hL⟩
    · have hfe : f e < n := hrange e he
      have hndE : g.org e ≠ g.dst e := hnd e he
      have horgE : g.org (f e) = g.dst e := horg e he
      have hPlen : (path ++ [e]).length = path.length + 1 := by simp
      have hPlast : (path ++ [e]).getD ((path ++ [e]).length - 1) 0 = e :=
        getD_append_last path e
      have hPhead : path ≠ [] →
          (path ++ [e]).getD 0 0 = path.getD 0 0 := by
        intro hpne
        apply List.getD_append
        cases path with
        | nil => exact absurd rfl hpne
        | cons a as => simp
      have hPheadNil : path = [] → (path ++ [e]).getD 0 0 = e := by
        intro hpe
        rw [hpe]
        rfl
      have hPget : ∀ i, i < path.length →
          (path ++ [e]).getD i 0 = path.getD i 0 := by
        intro i hi
        exact List.getD_append _ _ _ _ hi
      have hchainP : ∀ i, i + 1 < (path ++ [e]).length →
          g.dst ((path ++ [e]).getD i 0) =
            g.org ((path ++ [e]).getD (i + 1) 0) := by
        intro i hiP
        rw [hPlen] at hiP
        by_cases hi : i + 1 < path.length
        · rw [hPget i (by omega), hPget (i + 1) hi]
          exact hpi.2.2 i hi
        · have hieq : i + 1 = path.length := by omega
          have hpne : path ≠ [] := by
            intro hcon
            rw [hcon] at hieq
            simp at hieq
          rw [hPget i (by omega)]
          rw [show (path ++ [e]).getD (i + 1) 0 = e from by
            rw [show i + 1 = path.length from hieq]
            rw [List.getD_append_right _ _ _ _ (le_refl _)]
            simp]
          rw [show i = path.length - 1 from by omega]
          exact (hpi.2.1 hpne).2
      have hstop' : g.org (stopEdge f (mark used e) (f e) fuel) = A := by
        unfold stopEdge at hstop
        rw [if_neg hu] at hstop
        exact hstop
      have hlen' : (walkC f (mark used e) (f e) fuel).length < fuel := by
        unfold walkC at hlen
        rw [if_neg hu] at hlen
        simpa using hlen
      have hkey : mark used e (f e) = true →
          peelIdx g (g.dst e) (path ++ [e]) = some 0 := by
        intro hmk
        have hstopfe : stopEdge f (mark used e) (f e) fuel = f e := by
          cases fuel with
          | zero => rfl
          | succ fuel2 =>
            unfold stopEdge
            rw [if_pos hmk]
        have hAeq : g.dst e = A := by
          rw [← horgE, ← hstopfe]
          exact hstop'
        have hpne : path ≠ [] := by
          intro hcon
          apply hndE
          rw [hpi.1 hcon, hAeq]
        cases hPcase : path ++ [e] with
        | nil =>
          exact absurd hPcase (by simp)
        | cons x xs =>
          apply peelIdx_head
          have hx : x = (path ++ [e]).getD 0 0 := by
            rw [hPcase]
            rfl
          rw [hx, hPhead hpne, (hpi.2.1 hpne).1, hAeq]
      unfold speel
      rw [if_neg hu]
      cases hpeel : peelIdx g (g.dst e) (path ++ [e]) with
      | some j =>
        obtain ⟨hjlt, hjorg⟩ := peelIdx_some g (g.dst e) (path ++ [e]) j hpeel
        have hdroplen : ((path ++ [e]).drop j).length =
            (path ++ [e]).length - j := by simp
        have hdropne : (path ++ [e]).drop j ≠ [] := by
          intro hcon
          have hcl := congrArg List.length hcon
          rw [hdroplen] at hcl
          simp at hcl
          omega
        have hloopgood :
            CyclicRel (fun a b => g.dst a = g.org b) ((path ++ [e]).drop j) := by
          intro i hi
          rw [hdroplen] at hi
          by_cases hlast : i + 1 < (path ++ [e]).length - j
          · rw [Nat.mod_eq_of_lt (by rw [hdroplen]; exact hlast)]
            rw [getD_drop_add _ _ _ (by omega), getD_drop_add _ _ _ (by omega)]
            rw [show j + (i + 1) = (j + i) + 1 from by omega]
            exact hchainP (j + i) (by omega)
          · have hieq : i + 1 = (path ++ [e]).length - j := by omega
            rw [show (i + 1) % ((path ++ [e]).drop j).length = 0 from by
              rw [hdroplen, ← hieq]
              exact Nat.mod_self _]
            rw [getD_drop_add _ _ _ (by omega), getD_drop_add _ _ _ (by omega)]
            rw [show j + i = (path ++ [e]).length - 1 from by omega,
              show j + 0 = j from rfl]
            rw [hPlast]
            exact hjorg.symm
        have htakelen : ((path ++ [e]).take j).length = j := by
          rw [List.length_take]
          omega
        have hpinv' : PathInv g A ((path ++ [e]).take j) (f e) := by
          refine ⟨?_, ?_, ?_⟩
          · intro hempty
            have hj0 : j = 0 := by
              have hcl := congrArg List.length hempty
              rw [htakelen] at hcl
              simpa using hcl
            subst hj0
            have hpne : path ≠ [] := by
              intro hcon
              apply hndE
              rw [← hjorg]
              congr 1
              rw [hPheadNil hcon]
            rw [horgE, ← hjorg, hPhead hpne]
            exact (hpi.2.1 hpne).1
          · intro hne'
            have hj1 : 1 ≤ j := by
              by_contra hcon
              have hj0 : j = 0 := by omega
              rw [hj0] at hne'
              simp at hne'
            have hpne : path ≠ [] := by
              intro hcon
              rw [hcon] at hjlt
              simp at hjlt
              omega
            constructor
            · rw [getD_take_lt _ _ _ (by omega) (by omega), hPhead hpne]
              exact (hpi.2.1 hpne).1
            · rw [htakelen]
              rw [getD_take_lt _ _ _ (by omega) (by omega)]
              rw [horgE]
              have hc := hchainP (j - 1) (by omega)
              rw [show j - 1 + 1 = j from by omega] at hc
              rw [hc, hjorg]
          · intro i hi
            rw [htakelen] at hi
            rw [getD_take_lt _ _ _ (by omega) (by omega),
              getD_take_lt _ _ _ (by omega) (by omega)]
            exact hchainP i (by omega)
        have hstart' : mark used e (f e) = true → (path ++ [e]).take j = [] := by
          intro hmk
          have h0 : (some j : Option Nat) = some 0 := by
            rw [← hpeel]
            exact hkey hmk
          injection h0 with hj
          rw [hj]
          exact List.take_zero _
        have ihr := ih (mark used e) ((path ++ [e]).take j)
          (loops ++ [CanonicalizeLoopOrder ids ((path ++ [e]).drop j)]) (f e)
          hfe hpinv' hstart' hstop' hlen'
        refine ⟨ihr.1, ?_⟩
        intro L hL
        rcases ihr.2 L hL with hmem | hgood
        · rcases List.mem_append.mp hmem with h1 | h1
          · exact Or.inl h1
          · right
            rw [List.mem_singleton] at h1
            subst h1
            constructor
            · unfold CanonicalizeLoopOrder
              intro hcon
              have hcl := congrArg List.length hcon
              rw [List.length_rotate] at hcl
              exact hdropne (List.length_eq_zero.mp (by simpa using hcl))
            · exact cyclicRel_rotate _ _ _ hloopgood
        · exact Or.inr hgood
      | none =>
        have hpinv' : PathInv g A (path ++ [e]) (f e) := by
          refine ⟨?_, ?_, ?_⟩
          · intro hcon
            exact absurd hcon (by simp)
          · intro _
            constructor
            · by_cases hpne : path = []
              · rw [hPheadNil hpne]
                exact hpi.1 hpne
              · rw [hPhead hpne]
                exact (hpi.2.1 hpne).1
            · rw [hPlast]
              exact horgE.symm
          · exact hchainP
        have hstart'' : mark used e (f e) = true → path ++ [e] = [] := by
          intro hmk
          exfalso
          have h0 := hkey hmk
          rw [hpeel] at h0
          exact Option.noConfusion h0
        exact ih (mark used e) (path ++ [e]) loops (f e) hfe hpinv' hstart''
          hstop' hlen'

/-! ### The outer loop-assembly fold -/

/-- On success the left-turn map is a degenerate-free permutation that
moves along the graph. -/
theorem ltm_success_funProps (g : Graph) (vorder : List (List Slot))
    (hwf : g.WF) (hv : ValidOrder g vorder)
    (hok : (GetLeftTurnMap g vorder).1 = none) :
    (∀ x, x < g.numEdges → ltmFun g vorder x < g.numEdges) ∧
    (∀ x y, x < g.numEdges → y < g.numEdges →
      ltmFun g vorder x = ltmFun g vorder y → x = y) ∧
    (∀ x, x < g.numEdges → g.org (ltmFun g vorder x) = g.dst x) ∧
    (∀ x, x < g.numEdges → g.org x ≠ g.dst x) := by
  refine ⟨?_, ?_, ?_, ?_⟩
  · intro x hx
    exact (ltmFun_props g vorder hwf hv hok x hx).1
  · intro x y hx hy heq
    exact ltmFun_inj g vorder hwf hv hok x y hx hy heq
  · intro x hx
    exact (ltmFun_props g vorder hwf hv hok x hx).2
  · intro x hx
    exact ltm_success_no_degen g vorder hok x hx

/-- The invariant of the loop-assembly fold: the used set is exactly
the set of edges already placed into loops, no edge is placed twice,
placed edges are in range, the used set is preimage-closed under the
left-turn map, and every emitted loop is a nonempty closed walk
(cyclically closed under the left-turn map in CIRCUIT mode). -/
def StInv (g : Graph) (vorder : List (List Slot)) (lt : LoopType)
    (st : List (List Nat) × (Nat → Bool)) : Prop :=
  (∀ x, st.2 x = true ↔ x ∈ st.1.flatten) ∧
  st.1.flatten.Nodup ∧
  (∀ x ∈ st.1.flatten, x < g.numEdges) ∧
  UsedClosed (ltmFun g vorder) g.numEdges st.2 ∧
  ∀ L ∈ st.1, L ≠ [] ∧ CyclicRel (fun a b => g.dst a = g.org b) L ∧
    (lt = LoopType.circuit → CyclicRel (fun a b => ltmFun g vorder a = b) L)

theorem contains_eq_decide_mem (L : List Nat) (x : Nat) :
    L.contains x = decide (x ∈ L) := by
  cases hcase : L.contains x with
  | true => rw [decide_eq_true ((contains_iff_mem_nat L x).mp hcase)]
  | false =>
    rw [decide_eq_false (fun hx => by
      rw [(contains_iff_mem_nat L x).mpr hx] at hcase
      exact Bool.noConfusion hcase)]

/-- A cyclically left-turn-closed loop of in-range edges is also a
cyclically closed vertex walk. -/
theorem cyclic_ltm_imp_walk (g : Graph) (vorder : List (List Slot))
    (L : List Nat) (hb : ∀ x ∈ L, x < g.numEdges)
    (horg : ∀ x, x < g.numEdges → g.org (ltmFun g vorder x) = g.dst x)
    (h : CyclicRel (fun a b => ltmFun g vorder a = b) L) :
    CyclicRel (fun a b => g.dst a = g.org b) L := by
  intro i hi
  have hstep := h i hi
  rw [← hstep]
  have hmem : L.getD i 0 ∈ L := by
    rw [List.getD_eq_getElem _ _ hi]
    exact List.getElem_mem _
  exact (horg _ (hb _ hmem)).symm

/-- One CIRCUIT step of the fold preserves the invariant and marks
the start edge. -/
theorem circuit_step_inv (g : Graph) (vorder : List (List Slot)) (ids : List Int)
    (hwf : g.WF) (hv : ValidOrder g vorder)
    (hok : (GetLeftTurnMap g vorder).1 = none)
    (st : List (List Nat) × (Nat → Bool))
    (hst : StInv g vorder LoopType.circuit st)
    (s : Nat) (hs : s < g.numEdges) (hfresh : st.2 s = false) :
    StInv g vorder LoopType.circuit
      (st.1 ++ [CanonicalizeLoopOrder ids
          (walkC (ltmFun g vorder) st.2 s (g.numEdges + 1))],
        fun x => st.2 x ||
          (walkC (ltmFun g vorder) st.2 s (g.numEdges + 1)).contains x) ∧
      (st.2 s ||
        (walkC (ltmFun g vorder) st.2 s (g.numEdges + 1)).contains s) = true := by
  obtain ⟨hrange, hinj, horg, hnd⟩ := ltm_success_funProps g vorder hwf hv hok
  set f := ltmFun g vorder with hf
  set n := g.numEdges with hn
  set L := walkC f st.2 s (n + 1) with hL
  have hLne : L ≠ [] := walkC_ne_nil f (n + 1) st.2 s (by omega) hfresh
  have hLnodup : L.Nodup := walkC_nodup f (n + 1) st.2 s
  have hLmem_lt : ∀ x ∈ L, x < n := walkC_mem_lt f n hrange (n + 1) st.2 s hs
  have hLunused : ∀ x ∈ L, st.2 x = false := walkC_mem_unused f (n + 1) st.2 s
  have hLcyc : CyclicRel (fun a b => f a = b) L :=
    walkC_cyclic f n hrange hinj st.2 hst.2.2.2.1 s hs hfresh
  have hsmem : s ∈ L := by
    have hhead := walkC_head f (n + 1) st.2 s hLne
    rw [← hhead, List.getD_eq_getElem _ _ (List.length_pos.mpr hLne)]
    exact List.getElem_mem _
  have hflat : (st.1 ++ [CanonicalizeLoopOrder ids L]).flatten =
      st.1.flatten ++ CanonicalizeLoopOrder ids L := by
    rw [List.flatten_append]
    simp
  have hcanonperm : (CanonicalizeLoopOrder ids L).Perm L := List.rotate_perm _ _
  constructor
  · refine ⟨?_, ?_, ?_, ?_, ?_⟩
    · intro x
      rw [hflat]
      rw [List.mem_append]
      rw [Bool.or_eq_true_iff]
      rw [hst.1 x]
      rw [show (L.contains x = true) ↔ x ∈ L from contains_iff_mem_nat L x]
      rw [hcanonperm.mem_iff]
    · rw [hflat]
      refine List.Nodup.append hst.2.1 (hcanonperm.nodup_iff.mpr hLnodup) ?_
      rw [List.disjoint_left]
      intro x hx hxL
      have hused : st.2 x = true := (hst.1 x).mpr hx
      have hunused : st.2 x = false := hLunused x (hcanonperm.mem_iff.mp hxL)
      rw [hused] at hunused
      exact Bool.noConfusion hunused
    · intro x hx
      rw [hflat, List.mem_append] at hx
      rcases hx with hx | hx
      · exact hst.2.2.1 x hx
      · exact hLmem_lt x (hcanonperm.mem_iff.mp hx)
    · refine usedClosed_extend f n hrange hinj st.2 hst.2.2.2.1 s hs hfresh _ ?_
      intro x
      show (st.2 x || L.contains x) = (st.2 x || decide (x ∈ walkC f st.2 s (n + 1)))
      rw [contains_eq_decide_mem, ← hL]
    · intro L' hL'
      rw [List.mem_append] at hL'
      rcases hL' with hL' | hL'
      · exact hst.2.2.2.2 L' hL'
      · rw [List.mem_singleton] at hL'
        subst hL'
        have hcyc' : CyclicRel (fun a b => f a = b) (CanonicalizeLoopOrder ids L) :=
          cyclicRel_rotate _ _ _ hLcyc
        refine ⟨?_, ?_, fun _ => hcyc'⟩
        · intro hcon
          have hcl := congrArg List.length hcon
          rw [hcanonperm.length_eq] at hcl
          exact hLne (List.length_eq_zero.mp (by simpa using hcl))
        · refine cyclic_ltm_imp_walk g vorder _ ?_ horg hcyc'
          intro x hx
          exact hLmem_lt x (hcanonperm.mem_iff.mp hx)
  · rw [Bool.or_eq_true_iff]
    right
    exact (contains_iff_mem_nat L s).mpr hsmem

/-- One SIMPLE step of the fold preserves the invariant and marks the
start edge. -/
theorem simple_step_inv (g : Graph) (vorder : List (List Slot)) (ids : List Int)
    (hwf : g.WF) (hv : ValidOrder g vorder)
    (hok : (GetLeftTurnMap g vorder).1 = none)
    (st : List (List Nat) × (Nat → Bool))
    (hst : StInv g vorder LoopType.simple st)
    (s : Nat) (hs : s < g.numEdges) (hfresh : st.2 s = false) :
    StInv g vorder LoopType.simple
      ((speel g ids (ltmFun g vorder) st.2 [] st.1 s (g.numEdges + 1)).1,
        (speel g ids (ltmFun g vorder) st.2 [] st.1 s (g.numEdges + 1)).2.2) ∧
      (speel g ids (ltmFun g vorder) st.2 [] st.1 s
        (g.numEdges + 1)).2.2 s = true := by
  obtain ⟨hrange, hinj, horg, hnd⟩ := ltm_success_funProps g vorder hwf hv hok
  set f := ltmFun g vorder with hf
  set n := g.numEdges with hn
  set L := walkC f st.2 s (n + 1) with hL
  have hLne : L ≠ [] := walkC_ne_nil f (n + 1) st.2 s (by omega) hfresh
  have hLnodup : L.Nodup := walkC_nodup f (n + 1) st.2 s
  have hLmem_lt : ∀ x ∈ L, x < n := walkC_mem_lt f n hrange (n + 1) st.2 s hs
  have hLunused : ∀ x ∈ L, st.2 x = false := walkC_mem_unused f (n + 1) st.2 s
  have hsmem : s ∈ L := by
    have hhead := walkC_head f (n + 1) st.2 s hLne
    rw [← hhead, List.getD_eq_getElem _ _ (List.length_pos.mpr hLne)]
    exact List.getElem_mem _
  have hpi0 : PathInv g (g.org s) ([] : List Nat) s :=
    ⟨fun _ => rfl, fun h => absurd rfl h, fun i hi => by simp at hi⟩
  have hsp := speel_props g ids f n hrange horg hnd (g.org s) (n + 1) st.2 []
    st.1 s hs hpi0
    (fun h => absurd h (by rw [hfresh]; exact Bool.false_ne_true))
    (by rw [stopEdge_start f n hrange hinj st.2 hst.2.2.2.1 s hs hfresh])
    (by
      have hle : L.length ≤ n := length_le_of_nodup_lt n L hLnodup hLmem_lt
      rw [← hL]
      omega)
  have hus := speel_used_out g ids f (n + 1) st.2 [] st.1 s
  have hfl := speel_flatten_perm g ids f (n + 1) st.2 [] st.1 s
  rw [hsp.1] at hfl
  rw [List.append_nil, List.nil_append, ← hL] at hfl
  constructor
  · refine ⟨?_, ?_, ?_, ?_, ?_⟩
    · intro x
      rw [show ((speel g ids f st.2 [] st.1 s (n + 1)).1,
          (speel g ids f st.2 [] st.1 s (n + 1)).2.2).2 x =
        (speel g ids f st.2 [] st.1 s (n + 1)).2.2 x from rfl]
      rw [hus x, ← hL]
      rw [show ((speel g ids f st.2 [] st.1 s (n + 1)).1,
          (speel g ids f st.2 [] st.1 s (n + 1)).2.2).1 =
        (speel g ids f st.2 [] st.1 s (n + 1)).1 from rfl]
      rw [hfl.mem_iff]
      rw [List.mem_append]
      rw [Bool.or_eq_true_iff]
      rw [hst.1 x]
      rw [decide_eq_true_eq]
    · exact hfl.nodup_iff.mpr (List.Nodup.append hst.2.1 hLnodup (by
        rw [List.disjoint_left]
        intro x hx hxL
        have hused : st.2 x = true := (hst.1 x).mpr hx
        have hunused : st.2 x = false := hLunused x hxL
        rw [hused] at hunused
        exact Bool.noConfusion hunused))
    · intro x hx
      rw [hfl.mem_iff, List.mem_append] at hx
      rcases hx with hx | hx
      · exact hst.2.2.1 x hx
      · exact hLmem_lt x hx
    · refine usedClosed_extend f n hrange hinj st.2 hst.2.2.2.1 s hs hfresh _ ?_
      intro x
      exact hus x
    · intro L' hL'
      rcases hsp.2 L' hL' with hold | hgood
      · exact hst.2.2.2.2 L' hold
      · exact ⟨hgood.1, hgood.2, fun hcon => LoopType.noConfusion hcon⟩
  · rw [hus s, ← hL]
    rw [Bool.or_eq_true_iff]
    right
    exact decide_eq_true hsmem

theorem assembleAux_mono (g : Graph) (ids : List Int) (f : Nat → Nat)
    (lt : LoopType) (n : Nat) :
    ∀ (starts : List Nat) (st : List (List Nat) × (Nat → Bool)) (x : Nat),
    st.2 x = true → (assembleAux g ids f lt n starts st).2 x = true := by
  intro starts
  induction starts with
  | nil =>
    intro st x h
    exact h
  | cons s rest ih =>
    intro st x h
    unfold assembleAux
    by_cases hu : st.2 s = true
    · rw [if_pos hu]
      exact ih st x h
    · rw [if_neg hu]
      cases lt with
      | circuit =>
        apply ih
        show (st.2 x || (walkC f st.2 s (n + 1)).contains x) = true
        rw [h]
        rfl
      | simple =>
        apply ih
        show (speel g ids f st.2 [] st.1 s (n + 1)).2.2 x = true
        rw [speel_used_out, h]
        rfl

theorem assembleAux_inv (g : Graph) (vorder : List (List Slot)) (ids : List Int)
    (lt : LoopType) (hwf : g.WF) (hv : ValidOrder g vorder)
    (hok : (GetLeftTurnMap g vorder).1 = none) :
    ∀ (starts : List Nat) (st : List (List Nat) × (Nat → Bool)),
    (∀ s ∈ starts, s < g.numEdges) → StInv g vorder lt st →
    StInv g vorder lt
      (assembleAux g ids (ltmFun g vorder) lt g.numEdges starts st) ∧
    ∀ s ∈ starts,
      (assembleAux g ids (ltmFun g vorder) lt g.numEdges starts st).2 s
        = true := by
  intro starts
  induction starts with
  | nil =>
    intro st _ hst
    exact ⟨hst, fun s hs => absurd hs (List.not_mem_nil s)⟩
  | cons s rest ih =>
    intro st hb hst
    have hsn : s < g.numEdges := hb s (List.mem_cons_self _ _)
    have hbr : ∀ x ∈ rest, x < g.numEdges :=
      fun x hx => hb x (List.mem_cons_of_mem _ hx)
    unfold assembleAux
    by_cases hu : st.2 s = true
    · rw [if_pos hu]
      have hres := ih st hbr hst
      refine ⟨hres.1, ?_⟩
      intro x hx
      rcases List.mem_cons.mp hx with rfl | hx
      · exact assembleAux_mono g ids _ lt _ rest st x hu
      · exact hres.2 x hx
    · rw [if_neg hu]
      cases lt with
      | circuit =>
        have hstep := circuit_step_inv g vorder ids hwf hv hok st hst s hsn
          (Bool.eq_false_iff.mpr hu)
        have hres := ih _ hbr hstep.1
        refine ⟨hres.1, ?_⟩
        intro x hx
        rcases List.mem_cons.mp hx with rfl | hx
        · exact assembleAux_mono g ids _ _ _ rest _ x hstep.2
        · exact hres.2 x hx
      | simple =>
        have hstep := simple_step_inv g vorder ids hwf hv hok st hst s hsn
          (Bool.eq_false_iff.mpr hu)
        have hres := ih _ hbr hstep.1
        refine ⟨hres.1, ?_⟩
        intro x hx
        rcases List.mem_cons.mp hx with rfl | hx
        · exact assembleAux_mono g ids _ _ _ rest _ x hstep.2
        · exact hres.2 x hx

/-- On success the assembled loops cover every edge exactly once, and
every loop is a nonempty closed walk, cyclically closed under the
left-turn map in CIRCUIT mode. -/
theorem assembleLoops_props (g : Graph) (vorder : List (List Slot))
    (ids : List Int) (lt : LoopType) (hwf : g.WF) (hv : ValidOrder g vorder)
    (hok : (GetLeftTurnMap g vorder).1 = none) :
    (∀ x, x < g.numEdges →
      (assembleLoops g vorder ids lt).flatten.count x = 1) ∧
    (∀ x ∈ (assembleLoops g vorder ids lt).flatten, x < g.numEdges) ∧
    ∀ L ∈ assembleLoops g vorder ids lt, L ≠ [] ∧
      CyclicRel (fun a b => g.dst a = g.org b) L ∧
      (lt = LoopType.circuit →
        CyclicRel (fun a b => ltmFun g vorder a = b) L) := by
  have hinit : StInv g vorder lt ([], fun _ => false) := by
    refine ⟨?_, by simp, by simp, ?_, by simp⟩
    · intro x
      simp
    · intro x _ h
      exact Bool.noConfusion h
  have hres := assembleAux_inv g vorder ids lt hwf hv hok
    (List.range g.numEdges) ([], fun _ => false)
    (fun s hs => List.mem_range.mp hs) hinit
  have hperm : (assembleLoops g vorder ids lt).Perm
      (assembleAux g ids (ltmFun g vorder) lt g.numEdges
        (List.range g.numEdges) ([], fun _ => false)).1 := by
    unfold assembleLoops CanonicalizeVectorOrder
    exact List.perm_insertionSort _ _
  have hflatperm : (assembleLoops g vorder ids lt).flatten.Perm
      (assembleAux g ids (ltmFun g vorder) lt g.numEdges
        (List.range g.numEdges) ([], fun _ => false)).1.flatten :=
    hperm.flatten
  refine ⟨?_, ?_, ?_⟩
  · intro x hx
    rw [hflatperm.count_eq]
    have hmem := (hres.1.1 x).mp (hres.2 x (List.mem_range.mpr hx))
    exact List.count_eq_one_of_mem hres.1.2.1 hmem
  · intro x hx
    exact hres.1.2.2.1 x (hflatperm.mem_iff.mp hx)
  · intro L hL
    exact hres.1.2.2.2.2 L (hperm.mem_iff.mp hL)

/-! ## C1: what `GetDirectedLoops` guarantees about its output -/

/-- The property claimed for `GetDirectedLoops` output: every edge id
appears in exactly one loop, and within each loop (cyclically) each
edge is followed by its left-turn-map successor. -/
def DirectedLoopsClaim (g : Graph) (vorder : List (List Slot)) (ids : List Int)
    (lt : LoopType) : Prop :=
  (∀ e, e < g.numEdges →
    (GetDirectedLoops g vorder ids lt).2.flatten.count e = 1) ∧
  ∀ L ∈ (GetDirectedLoops g vorder ids lt).2,
    CyclicRel (fun a b => ltmFun g vorder a = b) L

instance (g : Graph) (vorder : List (List Slot)) (ids : List Int)
    (lt : LoopType) : Decidable (DirectedLoopsClaim g vorder ids lt) := by
  unfold DirectedLoopsClaim
  infer_instance

/-- The two triangles `0→1→2→0` and `0→3→4→0` sharing vertex `0`, with
an angular order at the shared vertex that links them into a single
left-turn cycle. -/
def fig8Graph : Graph :=
  { options := ⟨EdgeType.directed, DegenerateEdges.discard,
      DuplicateEdges.keep, SiblingPairs.keep⟩,
    numVertices := 5,
    edges := [(0, 1), (0, 3), (1, 2), (2, 0), (3, 4), (4, 0)] }

/-- The angular orders of the figure-eight: at vertex 0 the edges
interleave so that each incoming edge turns into the other triangle's
outgoing edge. -/
def fig8Vorder : List (List Slot) :=
  [[Slot.into 3, Slot.out 1, Slot.into 5, Slot.out 0],
   [Slot.into 0, Slot.out 2],
   [Slot.into 2, Slot.out 3],
   [Slot.into 1, Slot.out 4],
   [Slot.into 4, Slot.out 5]]

/-- Identity min-input-edge ids for the figure-eight. -/
def fig8Ids : List Int := [0, 1, 2, 3, 4, 5]

/-- Counterexample to C1 as stated: on the figure-eight graph the
SIMPLE loop assembly succeeds, but a peeled loop's closing step is not
a left-turn-map step, so not every output loop is closed under the
left-turn map. -/
theorem directed_loops_left_turn_closure_counterexample :
    Graph.WF fig8Graph ∧ ValidOrder fig8Graph fig8Vorder ∧
      (GetDirectedLoops fig8Graph fig8Vorder fig8Ids LoopType.simple).1
        = none ∧
      ¬ DirectedLoopsClaim fig8Graph fig8Vorder fig8Ids LoopType.simple := by
  decide

/-- C1 (amended): whenever `GetDirectedLoops` succeeds (for SIMPLE or
CIRCUIT loop type), every EdgeId of the graph appears in exactly one
output loop; every output loop is a nonempty closed walk (the
destination of each edge is the origin of the cyclically next edge);
and for CIRCUIT loops each edge is (cyclically) followed by its
left-turn-map successor.  (For SIMPLE loops the left-turn-successor
form of closure fails in general — see the counterexample — because
peeling a loop at a repeated vertex breaks the left-turn chain.) -/
theorem directed_loops_coverage_amended (g : Graph) (vorder : List (List Slot))
    (ids : List Int) (lt : LoopType) (hwf : g.WF) (hv : ValidOrder g vorder)
    (hok : (GetDirectedLoops g vorder ids lt).1 = none) :
    (∀ e, e < g.numEdges →
      (GetDirectedLoops g vorder ids lt).2.flatten.count e = 1) ∧
    (∀ L ∈ (GetDirectedLoops g vorder ids lt).2, L ≠ [] ∧
      CyclicRel (fun a b => g.dst a = g.org b) L) ∧
    (lt = LoopType.circuit →
      ∀ L ∈ (GetDirectedLoops g vorder ids lt).2,
        CyclicRel (fun a b => ltmFun g vorder a = b) L) := by
  have hok' : (GetLeftTurnMap g vorder).1 = none := by
    unfold GetDirectedLoops at hok
    cases hcase : (GetLeftTurnMap g vorder).1 with
    | none => rfl
    | some msg =>
      rw [hcase] at hok
      simp at hok
  have hloops : (GetDirectedLoops g vorder ids lt).2 =
      assembleLoops g vorder ids lt := by
    unfold GetDirectedLoops
    rw [hok']
  have hp := assembleLoops_props g vorder ids lt hwf hv hok'
  rw [hloops]
  exact ⟨hp.1, fun L hL => ⟨(hp.2.2 L hL).1, (hp.2.2 L hL).2.1⟩,
    fun hlt L hL => (hp.2.2 L hL).2.2 hlt⟩

/-- Witness for the amended C1 at the directed triangle in CIRCUIT
mode. -/
theorem directed_loops_coverage_amended_witness :
    Graph.WF triGraph ∧ ValidOrder triGraph triVorder ∧
      (GetDirectedLoops triGraph triVorder triIds LoopType.circuit).1
        = none ∧
      ((∀ e, e < triGraph.numEdges →
        (GetDirectedLoops triGraph triVorder triIds
          LoopType.circuit).2.flatten.count e = 1) ∧
      (∀ L ∈ (GetDirectedLoops triGraph triVorder triIds
          LoopType.circuit).2, L ≠ [] ∧
        CyclicRel (fun a b => triGraph.dst a = triGraph.org b) L) ∧
      (LoopType.circuit = LoopType.circuit →
        ∀ L ∈ (GetDirectedLoops triGraph triVorder triIds
            LoopType.circuit).2,
          CyclicRel (fun a b => ltmFun triGraph triVorder a = b) L)) :=
  ⟨by decide, by decide, by decide,
    directed_loops_coverage_amended triGraph triVorder triIds LoopType.circuit
      (by decide) (by decide) (by decide)⟩

/-! ## C3: undirected components and complement duality -/

/-- Two loops are connected when they share a vertex (as origin or
destination of some edge). -/
def sharesVertex (g : Graph) (L1 L2 : List Nat) : Bool :=
  (L1.map g.org ++ L1.map g.dst).any
    (fun v => (L2.map g.org ++ L2.map g.dst).contains v)

/-- Grow a component: repeatedly absorb the remaining loops that share
a vertex with a loop already in the component (fuel-bounded). -/
def growComp (g : Graph) :
    Nat → List (List Nat) → List (List Nat) →
      List (List Nat) × List (List Nat)
  | 0, comp, rest => (comp, rest)
  | fuel + 1, comp, rest =>
    let pr := rest.partition (fun L => comp.any (fun M => sharesVertex g M L))
    if pr.1.isEmpty then (comp, rest)
    else growComp g fuel (comp ++ pr.1) pr.2

/-- Group a list of loops into connected components. -/
def groupComps (g : Graph) :
    Nat → List (List Nat) → List (List (List Nat))
  | 0, _ => []
  | _ + 1, [] => []
  | fuel + 1, L :: rest =>
    let pr := growComp g (rest.length + 1) [L] rest
    pr.1 :: groupComps g fuel pr.2

/-- Every edge id listed in `A` has a sibling (an edge id whose
endpoints are the reverse) listed in `B`. -/
def dualEdges (g : Graph) (A B : List Nat) : Bool :=
  A.all (fun e => B.any (fun x => g.edge x == Graph.reverse (g.edge e)))

/-- The complement-duality check for a candidate partition of a
component's loops: each side's edges have siblings on the other side
and no edge id is shared. -/
def dualityOK (g : Graph) (A B : List (List Nat)) : Bool :=
  dualEdges g A.flatten B.flatten && dualEdges g B.flatten A.flatten &&
    A.flatten.all (fun e => !(B.flatten.contains e))

/-- Split a component's loops into two candidate complements according
to the bits of `m`. -/
def splitByMask (m : Nat) (comp : List (List Nat)) :
    List (List Nat) × List (List Nat) :=
  ((List.range comp.length).filterMap
    (fun i => if m.testBit i then some (comp.getD i []) else none),
   (List.range comp.length).filterMap
    (fun i => if m.testBit i then none else some (comp.getD i [])))

/-- Search for a partition of the component's loops into two dual
complements. -/
def splitComp (g : Graph) (comp : List (List Nat)) :
    Option (List (List Nat) × List (List Nat)) :=
  (List.range (2 ^ comp.length)).findSome? (fun m =>
    let p := splitByMask m comp
    if dualityOK g p.1 p.2 then some p else none)

/-- Modelled from the spec: `GetUndirectedComponents` runs CIRCUIT loop
discovery over the directed representation of the undirected graph,
groups the loops into connected components, and partitions each
component's loops into two complements such that every edge of one
complement has its sibling in the other.  Failure of the left-turn map
(or of the partition search) is reported through the error slot. -/
def GetUndirectedComponents (g : Graph) (vorder : List (List Slot))
    (ids : List Int) :
    Option String × List (List (List Nat) × List (List Nat)) :=
  if g.options.edgeType != EdgeType.undirected then
    (some "graph edges are not undirected", [])
  else
    match (GetLeftTurnMap g vorder).1 with
    | some err => (some err, [])
    | none =>
      let loops := assembleLoops g vorder ids LoopType.circuit
      let comps := groupComps g (loops.length + 1) loops
      let res := comps.map (splitComp g)
      if res.all Option.isSome then (none, res.filterMap id)
      else (some "cannot split a component into two complements", [])

theorem splitComp_some_duality (g : Graph) (comp : List (List Nat))
    (p : List (List Nat) × List (List Nat))
    (h : splitComp g comp = some p) : dualityOK g p.1 p.2 = true := by
  unfold splitComp at h
  obtain ⟨m, _, hm⟩ := List.exists_of_findSome?_eq_some h
  by_cases hd : dualityOK g (splitByMask m comp).1 (splitByMask m comp).2 = true
  · rw [if_pos hd] at hm
    cases hm
    exact hd
  · rw [if_neg hd] at hm
    exact Option.noConfusion hm

theorem dualityOK_props (g : Graph) (A B : List (List Nat))
    (h : dualityOK g A B = true) :
    (∀ e ∈ A.flatten, ∃ x ∈ B.flatten,
      g.edge x = Graph.reverse (g.edge e)) ∧
    (∀ e ∈ B.flatten, ∃ x ∈ A.flatten,
      g.edge x = Graph.reverse (g.edge e)) ∧
    ∀ e ∈ A.flatten, e ∉ B.flatten := by
  unfold dualityOK dualEdges at h
  simp only [Bool.and_eq_true, List.all_eq_true, List.any_eq_true,
    beq_iff_eq] at h
  obtain ⟨⟨h1, h2⟩, h3⟩ := h
  refine ⟨h1, h2, ?_⟩
  intro e he hmem
  have hc := h3 e he
  rw [(contains_iff_mem_nat _ _).mpr hmem] at hc
  exact Bool.noConfusion hc

theorem mem_getUndirectedComponents_snd (g : Graph)
    (vorder : List (List Slot)) (ids : List Int)
    (p : List (List Nat) × List (List Nat))
    (hp : p ∈ (GetUndirectedComponents g vorder ids).2) :
    ∃ comp, splitComp g comp = some p := by
  unfold GetUndirectedComponents at hp
  by_cases hty : (g.options.edgeType != EdgeType.undirected) = true
  · rw [if_pos hty] at hp
    exact absurd hp (List.not_mem_nil p)
  · rw [if_neg hty] at hp
    cases hlt : (GetLeftTurnMap g vorder).1 with
    | some err =>
      rw [hlt] at hp
      exact absurd hp (List.not_mem_nil p)
    | none =>
      rw [hlt] at hp
      set comps := groupComps g
        ((assembleLoops g vorder ids LoopType.circuit).length + 1)
        (assembleLoops g vorder ids LoopType.circuit) with hcomps
      by_cases hall : (comps.map (splitComp g)).all Option.isSome = true
      · rw [if_pos hall] at hp
        obtain ⟨o, ho, hid⟩ := List.mem_filterMap.mp hp
        obtain ⟨comp, _, hco⟩ := List.mem_map.mp ho
        exact ⟨comp, by rw [hco]; exact hid⟩
      · rw [if_neg hall] at hp
        exact absurd hp (List.not_mem_nil p)

/-- C3: for an undirected graph on which `GetUndirectedComponents`
succeeds, each component's loops are partitioned into two complements
such that every edge occurring in a loop of one complement has its
sibling (reverse) edge occurring in a loop of the other complement,
and no EdgeId belongs to both complements. -/
theorem undirected_components_complement_duality (g : Graph)
    (vorder : List (List Slot)) (ids : List Int)
    (hund : g.options.edgeType = EdgeType.undirected)
    (herr : (GetUndirectedComponents g vorder ids).1 = none) :
    ∀ p ∈ (GetUndirectedComponents g vorder ids).2,
      (∀ e ∈ p.1.flatten, ∃ x ∈ p.2.flatten,
        g.edge x = Graph.reverse (g.edge e)) ∧
      (∀ e ∈ p.2.flatten, ∃ x ∈ p.1.flatten,
        g.edge x = Graph.reverse (g.edge e)) ∧
      ∀ e ∈ p.1.flatten, e ∉ p.2.flatten := by
  intro p hp
  obtain ⟨comp, hcomp⟩ :=
    mem_getUndirectedComponents_snd g vorder ids p hp
  exact dualityOK_props g p.1 p.2 (splitComp_some_duality g comp p hcomp)

/-- The undirected triangle: each of the three undirected edges is
stored as a pair of directed siblings. -/
def triUGraph : Graph :=
  { options := ⟨EdgeType.undirected, DegenerateEdges.discard,
      DuplicateEdges.keep, SiblingPairs.keep⟩,
    numVertices := 3,
    edges := [(0, 1), (0, 2), (1, 0), (1, 2), (2, 0), (2, 1)] }

/-- Angular orders for the undirected triangle that make the left-turn
map the two opposite orientations `0→3→4→0` and `1→5→2→1`. -/
def triUVorder : List (List Slot) :=
  [[Slot.into 4, Slot.out 0, Slot.into 2, Slot.out 1],
   [Slot.into 0, Slot.out 3, Slot.into 5, Slot.out 2],
   [Slot.into 3, Slot.out 4, Slot.into 1, Slot.out 5]]

/-- Identity min-input-edge ids for the undirected triangle. -/
def triUIds : List Int := [0, 1, 2, 3, 4, 5]

/-- Witness for C3 at the undirected triangle: the call succeeds and
splits the single component into the two opposite orientations. -/
theorem undirected_components_complement_duality_witness :
    triUGraph.options.edgeType = EdgeType.undirected ∧
      (GetUndirectedComponents triUGraph triUVorder triUIds).1 = none ∧
      ∀ p ∈ (GetUndirectedComponents triUGraph triUVorder triUIds).2,
        (∀ e ∈ p.1.flatten, ∃ x ∈ p.2.flatten,
          triUGraph.edge x = Graph.reverse (triUGraph.edge e)) ∧
        (∀ e ∈ p.2.flatten, ∃ x ∈ p.1.flatten,
          triUGraph.edge x = Graph.reverse (triUGraph.edge e)) ∧
        ∀ e ∈ p.1.flatten, e ∉ p.2.flatten :=
  ⟨rfl, by decide,
    undirected_components_complement_duality triUGraph triUVorder triUIds rfl
      (by decide)⟩

/-! ## C5: in-edge ids and the sibling map -/

/-- Non-strict lexicographic order on vertex pairs. -/
def pairLeB (p q : Nat × Nat) : Bool :=
  decide (p.1 < q.1) || (p.1 == q.1 && decide (p.2 ≤ q.2))

/-- Strict lexicographic order on vertex pairs. -/
def pairLtB (p q : Nat × Nat) : Bool :=
  decide (p.1 < q.1) || (p.1 == q.1 && decide (p.2 < q.2))

/-- The stored edge list is sorted lexicographically by
(origin, destination) — an invariant the builder establishes when it
constructs the graph. -/
def EdgesSorted (g : Graph) : Prop :=
  g.edges.Pairwise (fun p q => pairLeB p q = true)

instance (g : Graph) : Decidable (EdgesSorted g) := by
  unfold EdgesSorted
  infer_instance

/-- The in-edge order: edge ids compared lexicographically by
(destination, origin), with the edge id itself as final tiebreak. -/
def inEdgeLe (g : Graph) (a b : Nat) : Bool :=
  decide (g.dst a < g.dst b) ||
    (g.dst a == g.dst b &&
      (decide (g.org a < g.org b) || (g.org a == g.org b && decide (a ≤ b))))

/-- Modelled from the spec: `GetInEdgeIds` returns the edge ids sorted
lexicographically by (destination, origin), so that the incoming edges
of each vertex form a contiguous block. -/
def GetInEdgeIds (g : Graph) : List Nat :=
  (List.range g.numEdges).insertionSort (fun a b => inEdgeLe g a b = true)

/-- Modelled from the spec: `GetSiblingMap` is identical to
`GetInEdgeIds`; the result is read as a map from each EdgeId to its
sibling EdgeId whenever every edge has a sibling. -/
def GetSiblingMap (g : Graph) : List Nat :=
  GetInEdgeIds g

/-- Number of stored edges lexicographically below the pair `q`. -/
def edgeRankLt (g : Graph) (q : Nat × Nat) : Nat :=
  g.edges.countP (fun p => pairLtB p q)

/-- The candidate sibling of edge `e`: the edge at the matching offset
inside the block of edges whose pair is the reverse of `e`'s pair. -/
def sibFun (g : Graph) (e : Nat) : Nat :=
  edgeRankLt g (Graph.reverse (g.edge e)) + (e - edgeRankLt g (g.edge e))

theorem pairLe_total (p q : Nat × Nat) :
    pairLeB p q = true ∨ pairLeB q p = true := by
  unfold pairLeB
  simp only [Bool.or_eq_true, Bool.and_eq_true, decide_eq_true_eq, beq_iff_eq]
  omega

theorem pairLe_iff (p q : Nat × Nat) :
    pairLeB p q = true ↔ pairLtB p q = true ∨ p = q := by
  unfold pairLeB pairLtB
  simp only [Bool.or_eq_true, Bool.and_eq_true, decide_eq_true_eq, beq_iff_eq,
    Prod.ext_iff]
  omega

theorem pairLe_not_lt (p q : Nat × Nat) (h1 : pairLeB p q = true)
    (h2 : pairLtB q p = true) : False := by
  unfold pairLeB at h1
  unfold pairLtB at h2
  simp only [Bool.or_eq_true, Bool.and_eq_true, decide_eq_true_eq,
    beq_iff_eq] at h1 h2
  omega

theorem pairLt_trans (p q r : Nat × Nat) (h1 : pairLtB p q = true)
    (h2 : pairLtB q r = true) : pairLtB p r = true := by
  unfold pairLtB at h1 h2 ⊢
  simp only [Bool.or_eq_true, Bool.and_eq_true, decide_eq_true_eq,
    beq_iff_eq] at h1 h2 ⊢
  omega

theorem countP_or_disjoint {α : Type} (l : List α) (f k : α → Bool)
    (h : ∀ x ∈ l, ¬(f x = true ∧ k x = true)) :
    l.countP (fun x => f x || k x) = l.countP f + l.countP k := by
  induction l with
  | nil => rfl
  | cons a t ih =>
    have ht := ih (fun x hx => h x (List.mem_cons_of_mem _ hx))
    have ha := h a (List.mem_cons_self _ _)
    rw [List.countP_cons, List.countP_cons, List.countP_cons, ht]
    cases hf : f a <;> cases hk : k a
    · simp
    · simp
      omega
    · simp
      omega
    · exact absurd ⟨hf, hk⟩ ha

theorem countP_le_pred (l : List (Nat × Nat)) (x : Nat × Nat) :
    l.countP (fun p => pairLtB p x || p == x) =
      l.countP (fun p => pairLtB p x) + l.count x := by
  rw [List.count_eq_countP]
  apply countP_or_disjoint
  intro p _ hpp
  obtain ⟨h1, h2⟩ := hpp
  rw [beq_iff_eq] at h2
  subst h2
  exact pairLe_not_lt _ _ ((pairLe_iff _ _).mpr (Or.inr rfl)) h1


/-- In a lexicographically sorted pair list, the element at index `i`
has at most `i` strictly smaller entries, and index `i` falls inside
the contiguous block of entries equal to it. -/
theorem sorted_block (l : List (Nat × Nat))
    (hs : l.Pairwise (fun p q => pairLeB p q = true)) (i : Nat)
    (hi : i < l.length) :
    l.countP (fun p => pairLtB p (l.getD i (0, 0))) ≤ i ∧
    i < l.countP (fun p => pairLtB p (l.getD i (0, 0))) +
      l.count (l.getD i (0, 0)) := by
  have hpg := List.pairwise_iff_getElem.mp hs
  set x := l.getD i (0, 0) with hxdef
  have hx : x = l.get ⟨i, hi⟩ := by
    rw [hxdef]
    exact List.getD_eq_getElem l (0, 0) hi
  constructor
  · have hdropc : l.countP (fun p => pairLtB p x) =
        List.countP (fun p => pairLtB p x) (l.take i) +
        List.countP (fun p => pairLtB p x) (l.drop i) := by
      conv_lhs => rw [(List.take_append_drop i l).symm]
      exact List.countP_append _ _ _
    have hzero : List.countP (fun p => pairLtB p x) (l.drop i) = 0 := by
      rw [List.countP_eq_zero]
      intro a ha
      obtain ⟨m, hm, hma⟩ := List.mem_iff_getElem.mp ha
      rw [List.getElem_drop] at hma
      intro hlt
      rw [hx] at hlt
      have hmlen : i + m < l.length := by
        rw [List.length_drop] at hm
        omega
      rcases Nat.eq_zero_or_pos m with rfl | hm0
      · have ha2 : a = l.get ⟨i, hi⟩ := by
          rw [← hma]
          simp
        rw [ha2] at hlt
        exact pairLe_not_lt _ _ ((pairLe_iff _ _).mpr (Or.inr rfl)) hlt
      · have hle := hpg i (i + m) hi hmlen (by omega)
        have ha2 : a = l[i + m] := hma.symm
        rw [ha2] at hlt
        exact pairLe_not_lt _ _ hle hlt
    have htlen := @List.countP_le_length _
      (fun p => pairLtB p x) (l.take i)
    rw [hdropc, hzero, Nat.add_zero]
    rw [List.length_take] at htlen
    omega
  · have hfull : l.countP (fun p => pairLtB p x || p == x) =
        List.countP (fun p => pairLtB p x || p == x) (l.take (i + 1)) +
        List.countP (fun p => pairLtB p x || p == x) (l.drop (i + 1)) := by
      conv_lhs => rw [(List.take_append_drop (i + 1) l).symm]
      exact List.countP_append _ _ _
    have htake : List.countP (fun p => pairLtB p x || p == x)
        (l.take (i + 1)) = i + 1 := by
      have hlen : (l.take (i + 1)).length = i + 1 := by
        rw [List.length_take]
        omega
      conv_rhs => rw [← hlen]
      rw [List.countP_eq_length]
      intro a ha
      obtain ⟨j, hj, hja⟩ := List.mem_iff_getElem.mp ha
      rw [List.getElem_take] at hja
      have hjl : j < l.length := by
        rw [hlen] at hj
        omega
      rcases Nat.lt_or_ge j i with hji | hji
      · have hle := hpg j i hjl hi hji
        have ha2 : a = l[j] := hja.symm
        rw [ha2]
        rw [Bool.or_eq_true]
        rcases (pairLe_iff l[j] x).mp (by rw [hx]; exact hle) with h | h
        · exact Or.inl h
        · right
          rw [beq_iff_eq]
          exact h
      · have hji2 : j = i := by
          rw [hlen] at hj
          omega
        subst hji2
        have ha2 : a = x := by
          rw [hx, ← hja]
          simp
        rw [Bool.or_eq_true]
        right
        rw [beq_iff_eq]
        exact ha2
    have hle2 : i + 1 ≤ l.countP (fun p => pairLtB p x || p == x) := by
      rw [hfull, htake]
      omega
    rw [countP_le_pred] at hle2
    omega

/-- In a sorted pair list, any index inside the block of a pair `q`
holds an entry equal to `q`. -/
theorem sorted_block_mem (l : List (Nat × Nat))
    (hs : l.Pairwise (fun p q => pairLeB p q = true)) (q : Nat × Nat)
    (k : Nat) (hk : k < l.length)
    (h1 : l.countP (fun p => pairLtB p q) ≤ k)
    (h2 : k < l.countP (fun p => pairLtB p q) + l.count q) :
    l.getD k (0, 0) = q := by
  have hb := sorted_block l hs k hk
  by_contra hne
  rcases pairLe_total (l.getD k (0, 0)) q with hle | hle
  · have hlt : pairLtB (l.getD k (0, 0)) q = true := by
      rcases (pairLe_iff _ _).mp hle with h | h
      · exact h
      · exact absurd h hne
    have hmono : l.countP (fun p => pairLtB p (l.getD k (0, 0)) ||
        p == l.getD k (0, 0)) ≤ l.countP (fun p => pairLtB p q) := by
      apply List.countP_mono_left
      intro a _ ha
      rw [Bool.or_eq_true] at ha
      rcases ha with h | h
      · exact pairLt_trans _ _ _ h hlt
      · rw [beq_iff_eq] at h
        rw [h]
        exact hlt
    rw [countP_le_pred] at hmono
    omega
  · have hlt : pairLtB q (l.getD k (0, 0)) = true := by
      rcases (pairLe_iff _ _).mp hle with h | h
      · exact h
      · exact absurd h.symm hne
    have hmono : l.countP (fun p => pairLtB p q || p == q) ≤
        l.countP (fun p => pairLtB p (l.getD k (0, 0))) := by
      apply List.countP_mono_left
      intro a _ ha
      rw [Bool.or_eq_true] at ha
      rcases ha with h | h
      · exact pairLt_trans _ _ _ h hlt
      · rw [beq_iff_eq] at h
        rw [h]
        exact hlt
    rw [countP_le_pred] at hmono
    omega

theorem reverse_reverse_eq (q : Nat × Nat) :
    Graph.reverse (Graph.reverse q) = q := rfl

/-- The candidate sibling stays in range, has the reversed endpoint
pair, and is an involution. -/
theorem sibFun_props (g : Graph) (hsorted : EdgesSorted g)
    (hbal : ∀ q ∈ g.edges, g.edges.count (Graph.reverse q) = g.edges.count q)
    (e : Nat) (he : e < g.numEdges) :
    sibFun g e < g.numEdges ∧
    g.edge (sibFun g e) = Graph.reverse (g.edge e) ∧
    sibFun g (sibFun g e) = e := by
  have hs' : g.edges.Pairwise (fun p q => pairLeB p q = true) := hsorted
  have hE : g.edges.getD e (0, 0) = g.edge e := rfl
  have hblk := sorted_block g.edges hs' e he
  rw [hE] at hblk
  have hmem : g.edge e ∈ g.edges := by
    rw [← hE, List.getD_eq_getElem g.edges (0, 0) he]
    exact List.getElem_mem _
  have hcnt := hbal (g.edge e) hmem
  have hub : edgeRankLt g (Graph.reverse (g.edge e)) +
      g.edges.count (Graph.reverse (g.edge e)) ≤ g.numEdges := by
    have h1 := @List.countP_le_length _
      (fun p => pairLtB p (Graph.reverse (g.edge e)) ||
        p == Graph.reverse (g.edge e)) g.edges
    rw [countP_le_pred] at h1
    exact h1
  have hL1 : edgeRankLt g (g.edge e) =
      g.edges.countP (fun p => pairLtB p (g.edge e)) := rfl
  have hL2 : edgeRankLt g (Graph.reverse (g.edge e)) =
      g.edges.countP (fun p => pairLtB p (Graph.reverse (g.edge e))) := rfl
  have hsib : sibFun g e = edgeRankLt g (Graph.reverse (g.edge e)) +
      (e - edgeRankLt g (g.edge e)) := rfl
  have hlt : sibFun g e < g.numEdges := by
    rw [hsib, hL1, hL2]
    rw [hL2] at hub
    omega
  have hpair : g.edge (sibFun g e) = Graph.reverse (g.edge e) := by
    rw [show g.edge (sibFun g e) =
      g.edges.getD (sibFun g e) (0, 0) from rfl]
    apply sorted_block_mem g.edges hs' (Graph.reverse (g.edge e))
      (sibFun g e) hlt
    · rw [hsib, hL1, hL2]
      omega
    · rw [hsib, hL1, hL2]
      rw [hL2] at hub
      omega
  refine ⟨hlt, hpair, ?_⟩
  rw [show sibFun g (sibFun g e) =
    edgeRankLt g (Graph.reverse (g.edge (sibFun g e))) +
      (sibFun g e - edgeRankLt g (g.edge (sibFun g e))) from rfl]
  rw [hpair, reverse_reverse_eq, hsib, hL1, hL2]
  omega

instance (g : Graph) : IsTotal Nat (fun a b => inEdgeLe g a b = true) := by
  constructor
  intro a b
  unfold inEdgeLe
  simp only [Bool.or_eq_true, Bool.and_eq_true, decide_eq_true_eq, beq_iff_eq]
  omega

instance (g : Graph) : IsTrans Nat (fun a b => inEdgeLe g a b = true) := by
  constructor
  intro a b c hab hbc
  unfold inEdgeLe at hab hbc ⊢
  simp only [Bool.or_eq_true, Bool.and_eq_true, decide_eq_true_eq,
    beq_iff_eq] at hab hbc ⊢
  omega

instance (g : Graph) : IsAntisymm Nat (fun a b => inEdgeLe g a b = true) := by
  constructor
  intro a b hab hba
  unfold inEdgeLe at hab hba
  simp only [Bool.or_eq_true, Bool.and_eq_true, decide_eq_true_eq,
    beq_iff_eq] at hab hba
  omega

/-- The explicit sibling candidates, listed in edge-id order, are
sorted in the in-edge order. -/
theorem map_sibFun_sorted (g : Graph) (hsorted : EdgesSorted g)
    (hbal : ∀ q ∈ g.edges, g.edges.count (Graph.reverse q) = g.edges.count q) :
    List.Sorted (fun a b => inEdgeLe g a b = true)
      ((List.range g.numEdges).map (sibFun g)) := by
  rw [List.Sorted, List.pairwise_iff_getElem]
  intro i j hi hj hij
  simp only [List.getElem_map, List.getElem_range]
  simp only [List.length_map, List.length_range] at hi hj
  have hpi := sibFun_props g hsorted hbal i hi
  have hpj := sibFun_props g hsorted hbal j hj
  have hdsti : g.dst (sibFun g i) = g.org i := by
    show (g.edge (sibFun g i)).2 = (g.edge i).1
    rw [hpi.2.1]
    rfl
  have hdstj : g.dst (sibFun g j) = g.org j := by
    show (g.edge (sibFun g j)).2 = (g.edge j).1
    rw [hpj.2.1]
    rfl
  have horgi : g.org (sibFun g i) = g.dst i := by
    show (g.edge (sibFun g i)).1 = (g.edge i).2
    rw [hpi.2.1]
    rfl
  have horgj : g.org (sibFun g j) = g.dst j := by
    show (g.edge (sibFun g j)).1 = (g.edge j).2
    rw [hpj.2.1]
    rfl
  have hsij : pairLeB (g.edge i) (g.edge j) = true := by
    have hpg := List.pairwise_iff_getElem.mp
      (show g.edges.Pairwise (fun p q => pairLeB p q = true) from hsorted)
    have h := hpg i j hi hj hij
    have hEi : g.edge i = g.edges.get ⟨i, hi⟩ :=
      List.getD_eq_getElem g.edges (0, 0) hi
    have hEj : g.edge j = g.edges.get ⟨j, hj⟩ :=
      List.getD_eq_getElem g.edges (0, 0) hj
    rw [hEi, hEj]
    exact h
  unfold inEdgeLe
  simp only [Bool.or_eq_true, Bool.and_eq_true, decide_eq_true_eq, beq_iff_eq]
  rw [hdsti, hdstj, horgi, horgj]
  unfold pairLeB at hsij
  simp only [Bool.or_eq_true, Bool.and_eq_true, decide_eq_true_eq,
    beq_iff_eq] at hsij
  by_cases hpp : g.edge i = g.edge j
  · have hid : sibFun g i ≤ sibFun g j := by
      rw [show sibFun g i = edgeRankLt g (Graph.reverse (g.edge i)) +
        (i - edgeRankLt g (g.edge i)) from rfl]
      rw [show sibFun g j = edgeRankLt g (Graph.reverse (g.edge j)) +
        (j - edgeRankLt g (g.edge j)) from rfl]
      rw [hpp]
      exact Nat.add_le_add_left
        (Nat.sub_le_sub_right (Nat.le_of_lt hij) _) _
    have ho : g.org i = g.org j := by
      show (g.edge i).1 = (g.edge j).1
      rw [hpp]
    have hd : g.dst i = g.dst j := by
      show (g.edge i).2 = (g.edge j).2
      rw [hpp]
    exact Or.inr ⟨ho, Or.inr ⟨hd, hid⟩⟩
  · have hne : (g.edge i).1 ≠ (g.edge j).1 ∨ (g.edge i).2 ≠ (g.edge j).2 := by
      by_contra hc
      push_neg at hc
      exact hpp (Prod.ext_iff.mpr ⟨hc.1, hc.2⟩)
    rw [show g.org i = (g.edge i).1 from rfl,
      show g.org j = (g.edge j).1 from rfl,
      show g.dst i = (g.edge i).2 from rfl,
      show g.dst j = (g.edge j).2 from rfl]
    omega

/-- When the edges are sorted and every edge has a sibling, the
in-edge-id vector is exactly the explicit sibling map. -/
theorem getInEdgeIds_eq_map_sibFun (g : Graph) (hsorted : EdgesSorted g)
    (hbal : ∀ q ∈ g.edges, g.edges.count (Graph.reverse q) = g.edges.count q) :
    GetInEdgeIds g = (List.range g.numEdges).map (sibFun g) := by
  have hinj : ∀ x ∈ List.range g.numEdges, ∀ y ∈ List.range g.numEdges,
      sibFun g x = sibFun g y → x = y := by
    intro x hx y hy hxy
    have hx2 := (sibFun_props g hsorted hbal x (List.mem_range.mp hx)).2.2
    have hy2 := (sibFun_props g hsorted hbal y (List.mem_range.mp hy)).2.2
    rw [← hx2, ← hy2, hxy]
  have hnd : ((List.range g.numEdges).map (sibFun g)).Nodup :=
    List.Nodup.map_on hinj (List.nodup_range _)
  have hsub : (List.range g.numEdges).map (sibFun g) ⊆
      List.range g.numEdges := by
    intro x hx
    obtain ⟨a, ha, rfl⟩ := List.mem_map.mp hx
    exact List.mem_range.mpr
      (sibFun_props g hsorted hbal a (List.mem_range.mp ha)).1
  have hTperm : ((List.range g.numEdges).map (sibFun g)).Perm
      (List.range g.numEdges) :=
    (List.Nodup.subperm hnd hsub).perm_of_length_le (by simp)
  exact List.eq_of_perm_of_sorted
    ((List.perm_insertionSort _ _).trans hTperm.symm)
    (List.sorted_insertionSort _ _)
    (map_sibFun_sorted g hsorted hbal)

/-- C5: when every directed edge has a sibling — guaranteed by
sibling_pairs REQUIRE or CREATE, or by undirected edge type, and
expressed here as the edge multiset being closed under reversal — the
sibling map sends each edge to an edge with the reversed endpoints,
and applying it twice returns the original EdgeId. -/
theorem sibling_map_involution (g : Graph)
    (hopt : g.options.siblingPairs = SiblingPairs.require ∨
      g.options.siblingPairs = SiblingPairs.create ∨
      g.options.edgeType = EdgeType.undirected)
    (hsorted : EdgesSorted g)
    (hbal : ∀ q ∈ g.edges, g.edges.count (Graph.reverse q) = g.edges.count q) :
    ∀ e, e < g.numEdges →
      g.edge ((GetSiblingMap g).getD e 0) = Graph.reverse (g.edge e) ∧
      (GetSiblingMap g).getD ((GetSiblingMap g).getD e 0) 0 = e := by
  have hmap : GetSiblingMap g = (List.range g.numEdges).map (sibFun g) :=
    getInEdgeIds_eq_map_sibFun g hsorted hbal
  have hget : ∀ e, e < g.numEdges → (GetSiblingMap g).getD e 0 = sibFun g e := by
    intro e he
    rw [hmap]
    have hlen : e < ((List.range g.numEdges).map (sibFun g)).length := by
      simp [he]
    rw [List.getD_eq_getElem _ 0 hlen]
    simp
  intro e he
  have hp := sibFun_props g hsorted hbal e he
  rw [hget e he]
  exact ⟨hp.2.1, by rw [hget (sibFun g e) hp.1]; exact hp.2.2⟩

/-- A sibling pair: the sorted two-edge graph with edges `(0,1)` and
`(1,0)` and sibling pairs required. -/
def sibGraph : Graph :=
  { options := ⟨EdgeType.directed, DegenerateEdges.discard,
      DuplicateEdges.keep, SiblingPairs.require⟩,
    numVertices := 2,
    edges := [(0, 1), (1, 0)] }

/-- Witness for C5 at the two-edge sibling pair. -/
theorem sibling_map_involution_witness :
    (sibGraph.options.siblingPairs = SiblingPairs.require ∨
      sibGraph.options.siblingPairs = SiblingPairs.create ∨
      sibGraph.options.edgeType = EdgeType.undirected) ∧
    EdgesSorted sibGraph ∧
    (∀ q ∈ sibGraph.edges,
      sibGraph.edges.count (Graph.reverse q) = sibGraph.edges.count q) ∧
    ∀ e, e < sibGraph.numEdges →
      sibGraph.edge ((GetSiblingMap sibGraph).getD e 0) =
        Graph.reverse (sibGraph.edge e) ∧
      (GetSiblingMap sibGraph).getD
        ((GetSiblingMap sibGraph).getD e 0) 0 = e :=
  ⟨Or.inl rfl, by decide, by decide,
    sibling_map_involution sibGraph (Or.inl rfl) (by decide) (by decide)⟩

/-! ## C6/C7: `ProcessEdges` — the Edge Processor -/

/-- A deduplicating lexicon of id sets (`IdSetLexicon`): set ids index
into the stored list of normalized sets. -/
structure IdSetLexicon where
  sets : List (List Nat)
  deriving DecidableEq, Repr

/-- Normalize a set of ids: sort ascending and remove duplicates. -/
def normalizeSet (s : List Nat) : List Nat :=
  (s.insertionSort (fun a b => a ≤ b)).dedup

/-- Index of the first stored set equal to `n`. -/
def findSet (n : List Nat) : List (List Nat) → Option Nat
  | [] => none
  | t :: rest => if t = n then some 0 else (findSet n rest).map (fun i => i + 1)

/-- Add a set to the lexicon, reusing the id of an identical stored
set (`IdSetLexicon::Add`). -/
def IdSetLexicon.add (lex : IdSetLexicon) (s : List Nat) :
    IdSetLexicon × Nat :=
  match findSet (normalizeSet s) lex.sets with
  | some i => (lex, i)
  | none => (⟨lex.sets ++ [normalizeSet s]⟩, lex.sets.length)

/-- Resolve a set id (`IdSetLexicon::id_set`). -/
def IdSetLexicon.idSet (lex : IdSetLexicon) (i : Nat) : List Nat :=
  lex.sets.getD i []

theorem findSet_some (n : List Nat) :
    ∀ (L : List (List Nat)) (i : Nat), findSet n L = some i →
      i < L.length ∧ L.getD i [] = n := by
  intro L
  induction L with
  | nil =>
    intro i h
    exact Option.noConfusion h
  | cons t rest ih =>
    intro i h
    unfold findSet at h
    by_cases ht : t = n
    · rw [if_pos ht] at h
      cases h
      exact ⟨Nat.succ_pos _, ht⟩
    · rw [if_neg ht] at h
      cases hf : findSet n rest with
      | none =>
        rw [hf] at h
        exact Option.noConfusion h
      | some j =>
        rw [hf] at h
        cases h
        have hj := ih j hf
        refine ⟨by simp; omega, ?_⟩
        rw [List.getD_cons_succ]
        exact hj.2

theorem mem_normalizeSet (x : Nat) (s : List Nat) :
    x ∈ normalizeSet s ↔ x ∈ s := by
  unfold normalizeSet
  rw [List.mem_dedup]
  exact (List.perm_insertionSort _ s).mem_iff

theorem idSetLexicon_add_length (lex : IdSetLexicon) (s : List Nat) :
    lex.sets.length ≤ (lex.add s).1.sets.length := by
  unfold IdSetLexicon.add
  cases hf : findSet (normalizeSet s) lex.sets with
  | some i => exact Nat.le_refl _
  | none => simp

theorem idSetLexicon_add_lt (lex : IdSetLexicon) (s : List Nat) :
    (lex.add s).2 < (lex.add s).1.sets.length := by
  unfold IdSetLexicon.add
  cases hf : findSet (normalizeSet s) lex.sets with
  | some i => exact (findSet_some _ _ _ hf).1
  | none => simp

theorem idSetLexicon_add_resolves (lex : IdSetLexicon) (s : List Nat) :
    (lex.add s).1.idSet (lex.add s).2 = normalizeSet s := by
  unfold IdSetLexicon.add
  cases hf : findSet (normalizeSet s) lex.sets with
  | some i => exact (findSet_some _ _ _ hf).2
  | none =>
    show (lex.sets ++ [normalizeSet s]).getD lex.sets.length [] = _
    rw [List.getD_append_right _ _ _ _ (Nat.le_refl _)]
    simp

theorem idSetLexicon_add_preserves (lex : IdSetLexicon) (s : List Nat)
    (i : Nat) (hi : i < lex.sets.length) :
    (lex.add s).1.idSet i = lex.idSet i := by
  unfold IdSetLexicon.add
  cases hf : findSet (normalizeSet s) lex.sets with
  | some j => rfl
  | none =>
    show (lex.sets ++ [normalizeSet s]).getD i [] = lex.sets.getD i []
    rw [List.getD_append _ _ _ _ hi]

/-- Collect the leading run of entries whose edge equals `p`,
returning their set ids and the remainder. -/
def takeRun (p : Nat × Nat) : List ((Nat × Nat) × Nat) →
    List Nat × List ((Nat × Nat) × Nat)
  | [] => ([], [])
  | pe :: rest =>
    if pe.1 = p then
      ((pe.2 :: (takeRun p rest).1), (takeRun p rest).2)
    else ([], pe :: rest)

theorem takeRun_split (p : Nat × Nat) :
    ∀ pes : List ((Nat × Nat) × Nat),
      ∃ pref, pes = pref ++ (takeRun p pes).2 ∧
        (takeRun p pes).1 = pref.map Prod.snd ∧
        (∀ pe ∈ pref, pe.1 = p) ∧
        ∀ qe t, (takeRun p pes).2 = qe :: t → qe.1 ≠ p := by
  intro pes
  induction pes with
  | nil =>
    refine ⟨[], rfl, rfl, ?_, ?_⟩
    · intro pe hpe
      exact absurd hpe (List.not_mem_nil pe)
    · intro qe t h
      exact List.noConfusion h
  | cons pe rest ih =>
    obtain ⟨pref, h1, h2, h3, h4⟩ := ih
    by_cases hp : pe.1 = p
    · have hTR : takeRun p (pe :: rest) =
          ((pe.2 :: (takeRun p rest).1), (takeRun p rest).2) := by
        simp only [takeRun]
        rw [if_pos hp]
      refine ⟨pe :: pref, ?_, ?_, ?_, ?_⟩
      · rw [hTR]
        show pe :: rest = pe :: (pref ++ (takeRun p rest).2)
        rw [← h1]
      · rw [hTR, h2]
        rfl
      · intro x hx
        rcases List.mem_cons.mp hx with rfl | hx
        · exact hp
        · exact h3 x hx
      · intro qe t h
        rw [hTR] at h
        exact h4 qe t h
    · have hTR : takeRun p (pe :: rest) = ([], pe :: rest) := by
        simp only [takeRun]
        rw [if_neg hp]
      refine ⟨[], ?_, ?_, ?_, ?_⟩
      · rw [hTR]
        rfl
      · rw [hTR]
        rfl
      · intro x hx
        exact absurd hx (List.not_mem_nil x)
      · intro qe t h
        rw [hTR] at h
        have hqe : qe = pe := (List.cons.injEq _ _ _ _ ▸ h).1.symm
        rw [hqe]
        exact hp

theorem pairLt_le_trans (p q r : Nat × Nat) (h1 : pairLtB p q = true)
    (h2 : pairLeB q r = true) : pairLtB p r = true := by
  unfold pairLtB at h1 ⊢
  unfold pairLeB at h2
  simp only [Bool.or_eq_true, Bool.and_eq_true, decide_eq_true_eq,
    beq_iff_eq] at h1 h2 ⊢
  omega

/-- Collapse each leading run of identical edges into a single entry
whose provenance set id is the lexicon id of the union of the run's
resolved sets (duplicate-edge MERGE). -/
def mergeRuns : Nat → IdSetLexicon → List ((Nat × Nat) × Nat) →
    List ((Nat × Nat) × Nat) × IdSetLexicon
  | 0, lex, _ => ([], lex)
  | _ + 1, lex, [] => ([], lex)
  | fuel + 1, lex, pe :: rest =>
    let r := takeRun pe.1 rest
    let added := lex.add (lex.idSet pe.2 ++ (r.1.map lex.idSet).flatten)
    let rec2 := mergeRuns fuel added.1 r.2
    ((pe.1, added.2) :: rec2.1, rec2.2)

/-- Correctness of the run-merging pass: on a sorted entry list with
valid set ids, the output edges are the input edges without
duplicates, the lexicon only grows, and each output entry's set id
resolves to the union of the provenance sets of the entries merged
into it. -/
theorem mergeRuns_spec :
    ∀ (fuel : Nat) (lex : IdSetLexicon) (pes : List ((Nat × Nat) × Nat)),
      pes.length < fuel →
      pes.Pairwise (fun a b => pairLeB a.1 b.1 = true) →
      (∀ pe ∈ pes, pe.2 < lex.sets.length) →
      ((mergeRuns fuel lex pes).1.map Prod.fst).Nodup ∧
      (∀ p, p ∈ (mergeRuns fuel lex pes).1.map Prod.fst ↔
        p ∈ pes.map Prod.fst) ∧
      (∀ pe ∈ (mergeRuns fuel lex pes).1,
        pe.2 < (mergeRuns fuel lex pes).2.sets.length) ∧
      lex.sets.length ≤ (mergeRuns fuel lex pes).2.sets.length ∧
      (∀ i, i < lex.sets.length →
        (mergeRuns fuel lex pes).2.idSet i = lex.idSet i) ∧
      (∀ q ∈ (mergeRuns fuel lex pes).1, ∀ x,
        x ∈ (mergeRuns fuel lex pes).2.idSet q.2 ↔
          ∃ pe ∈ pes, pe.1 = q.1 ∧ x ∈ lex.idSet pe.2) := by
  intro fuel
  induction fuel with
  | zero =>
    intro lex pes hf
    omega
  | succ fuel ih =>
    intro lex pes hf hs hv
    cases pes with
    | nil =>
      refine ⟨List.nodup_nil, ?_, ?_, Nat.le_refl _, ?_, ?_⟩
      · intro p
        rfl
      · intro pe hpe
        exact absurd hpe (List.not_mem_nil pe)
      · intro i _
        rfl
      · intro q hq
        exact absurd hq (List.not_mem_nil q)
    | cons pe rest =>
      obtain ⟨pref, hsplit, hids, hprefp, hhead⟩ := takeRun_split pe.1 rest
      set R1 := (takeRun pe.1 rest).1 with hR1
      set R2 := (takeRun pe.1 rest).2 with hR2def
      set uSet := lex.idSet pe.2 ++ (R1.map lex.idSet).flatten with hUset
      set lex2 := (lex.add uSet).1 with hlex2
      set sid := (lex.add uSet).2 with hsidd
      set M := mergeRuns fuel lex2 R2 with hM
      have hMR : mergeRuns (fuel + 1) lex (pe :: rest) =
          ((pe.1, sid) :: M.1, M.2) := rfl
      have hsr := List.pairwise_cons.mp hs
      have hR2sub : R2.Sublist rest := by
        rw [hsplit]
        exact List.sublist_append_right pref R2
      have hR2mem : ∀ qe ∈ R2, qe ∈ rest := fun qe hqe => hR2sub.mem hqe
      have hprefmem : ∀ qe ∈ pref, qe ∈ rest := by
        intro qe hqe
        rw [hsplit]
        exact List.mem_append_left _ hqe
      have hR2len : R2.length < fuel := by
        have h1 : rest.length = pref.length + R2.length := by
          rw [hsplit, List.length_append]
        simp only [List.length_cons] at hf
        omega
      have hsortR2 : R2.Pairwise (fun a b => pairLeB a.1 b.1 = true) :=
        List.Pairwise.sublist hR2sub hsr.2
      have hv2 : ∀ qe ∈ R2, qe.2 < lex2.sets.length := by
        intro qe hqe
        have h1 := hv qe (List.mem_cons_of_mem _ (hR2mem qe hqe))
        have h2 : lex.sets.length ≤ lex2.sets.length :=
          idSetLexicon_add_length lex uSet
        omega
      have hnopR2 : ∀ qe ∈ R2, qe.1 ≠ pe.1 := by
        intro qe hqe
        cases hcase : R2 with
        | nil =>
          rw [hcase] at hqe
          exact absurd hqe (List.not_mem_nil qe)
        | cons be t =>
          have hbe : be.1 ≠ pe.1 := hhead be t hcase
          rw [hcase] at hqe
          rcases List.mem_cons.mp hqe with rfl | hqe2
          · exact hbe
          · have hbein : be ∈ R2 := by
              rw [hcase]
              exact List.mem_cons_self _ _
            have hbemem : be ∈ rest := hR2mem be hbein
            have hpele : pairLeB pe.1 be.1 = true := hsr.1 be hbemem
            have hpelt : pairLtB pe.1 be.1 = true := by
              rcases (pairLe_iff _ _).mp hpele with h | h
              · exact h
              · exact absurd h.symm hbe
            have hsR2 := List.pairwise_cons.mp (hcase ▸ hsortR2)
            have hbeqe : pairLeB be.1 qe.1 = true := hsR2.1 qe hqe2
            have hlt : pairLtB pe.1 qe.1 = true :=
              pairLt_le_trans _ _ _ hpelt hbeqe
            intro hqp
            rw [hqp] at hlt
            exact pairLe_not_lt _ _ ((pairLe_iff _ _).mpr (Or.inr rfl)) hlt
      obtain ⟨IH1, IH2, IH3, IH4, IH5, IH6⟩ := ih lex2 R2 hR2len hsortR2 hv2
      rw [← hM] at IH1 IH2 IH3 IH4 IH5 IH6
      have hsid_lt : sid < lex2.sets.length := idSetLexicon_add_lt lex uSet
      have hlexle : lex.sets.length ≤ lex2.sets.length :=
        idSetLexicon_add_length lex uSet
      have hMsid : M.2.idSet sid = normalizeSet uSet := by
        rw [IH5 sid hsid_lt]
        exact idSetLexicon_add_resolves lex uSet
      have hMpres : ∀ i, i < lex.sets.length → M.2.idSet i = lex.idSet i := by
        intro i hi
        rw [IH5 i (by omega)]
        exact idSetLexicon_add_preserves lex uSet i hi
      have hpeMap : ∀ p, p ∈ rest.map Prod.fst ↔
          (p = pe.1 ∧ pref ≠ []) ∨ p ∈ R2.map Prod.fst := by
        intro p
        constructor
        · intro hp
          obtain ⟨qe, hqe, rfl⟩ := List.mem_map.mp hp
          rw [hsplit] at hqe
          rcases List.mem_append.mp hqe with h | h
          · left
            refine ⟨hprefp qe h, ?_⟩
            intro hc
            rw [hc] at h
            exact absurd h (List.not_mem_nil qe)
          · right
            exact List.mem_map.mpr ⟨qe, h, rfl⟩
        · intro hp
          rcases hp with ⟨rfl, hne⟩ | hp
          · cases hcp : pref with
            | nil => exact absurd hcp hne
            | cons ae t =>
              have haein : ae ∈ pref := by
                rw [hcp]
                exact List.mem_cons_self _ _
              exact List.mem_map.mpr ⟨ae, hprefmem ae haein, hprefp ae haein⟩
          · obtain ⟨qe, hqe, rfl⟩ := List.mem_map.mp hp
            exact List.mem_map.mpr ⟨qe, hR2mem qe hqe, rfl⟩
      rw [hMR]
      refine ⟨?_, ?_, ?_, ?_, ?_, ?_⟩
      · show (pe.1 :: M.1.map Prod.fst).Nodup
        rw [List.nodup_cons]
        refine ⟨?_, IH1⟩
        intro hmem
        obtain ⟨qe, hqe, hq1⟩ := List.mem_map.mp ((IH2 pe.1).mp hmem)
        exact hnopR2 qe hqe hq1
      · intro p
        show p ∈ pe.1 :: M.1.map Prod.fst ↔ p ∈ pe.1 :: rest.map Prod.fst
        constructor
        · intro hp
          rcases List.mem_cons.mp hp with rfl | hp
          · exact List.mem_cons_self _ _
          · apply List.mem_cons_of_mem
            obtain ⟨qe, hqe, rfl⟩ := List.mem_map.mp ((IH2 p).mp hp)
            exact List.mem_map.mpr ⟨qe, hR2mem qe hqe, rfl⟩
        · intro hp
          rcases List.mem_cons.mp hp with rfl | hp
          · exact List.mem_cons_self _ _
          · rcases (hpeMap p).mp hp with ⟨rfl, _⟩ | hp2
            · exact List.mem_cons_self _ _
            · exact List.mem_cons_of_mem _ ((IH2 p).mpr hp2)
      · intro q hq
        rcases List.mem_cons.mp hq with rfl | hq
        · show sid < M.2.sets.length
          exact Nat.lt_of_lt_of_le hsid_lt IH4
        · exact IH3 q hq
      · show lex.sets.length ≤ M.2.sets.length
        exact Nat.le_trans hlexle IH4
      · exact hMpres
      · intro q hq x
        rcases List.mem_cons.mp hq with rfl | hq
        · show x ∈ M.2.idSet sid ↔
            ∃ qe ∈ pe :: rest, qe.1 = (pe.1, sid).1 ∧ x ∈ lex.idSet qe.2
          rw [hMsid, mem_normalizeSet]
          constructor
          · intro hx
            rcases List.mem_append.mp hx with hx | hx
            · exact ⟨pe, List.mem_cons_self _ _, rfl, hx⟩
            · obtain ⟨s, hsmem, hxs⟩ := List.mem_flatten.mp hx
              obtain ⟨idv, hidv, rfl⟩ := List.mem_map.mp hsmem
              rw [hids] at hidv
              obtain ⟨qe, hqe, rfl⟩ := List.mem_map.mp hidv
              exact ⟨qe, List.mem_cons_of_mem _ (hprefmem qe hqe),
                hprefp qe hqe, hxs⟩
          · intro hx
            obtain ⟨qe, hqe, hq1, hxq⟩ := hx
            rcases List.mem_cons.mp hqe with rfl | hqe
            · exact List.mem_append_left _ hxq
            · rw [hsplit] at hqe
              rcases List.mem_append.mp hqe with h | h
              · apply List.mem_append_right
                apply List.mem_flatten.mpr
                refine ⟨lex.idSet qe.2, ?_, hxq⟩
                apply List.mem_map.mpr
                refine ⟨qe.2, ?_, rfl⟩
                rw [hids]
                exact List.mem_map.mpr ⟨qe, h, rfl⟩
              · exact absurd hq1 (hnopR2 qe h)
        · have hq1ne : q.1 ≠ pe.1 := by
            have hq1mem : q.1 ∈ M.1.map Prod.fst :=
              List.mem_map.mpr ⟨q, hq, rfl⟩
            obtain ⟨qe, hqe, hq1⟩ := List.mem_map.mp ((IH2 q.1).mp hq1mem)
            rw [← hq1]
            exact hnopR2 qe hqe
          rw [IH6 q hq x]
          constructor
          · intro hx
            obtain ⟨qe, hqe, hq1, hxq⟩ := hx
            refine ⟨qe, List.mem_cons_of_mem _ (hR2mem qe hqe), hq1, ?_⟩
            rw [← idSetLexicon_add_preserves lex uSet qe.2
              (hv qe (List.mem_cons_of_mem _ (hR2mem qe hqe)))]
            exact hxq
          · intro hx
            obtain ⟨qe, hqe, hq1, hxq⟩ := hx
            rcases List.mem_cons.mp hqe with rfl | hqe
            · exact absurd hq1.symm hq1ne
            · rw [hsplit] at hqe
              rcases List.mem_append.mp hqe with h | h
              · rw [hprefp qe h] at hq1
                exact absurd hq1.symm hq1ne
              · refine ⟨qe, h, hq1, ?_⟩
                rw [idSetLexicon_add_preserves lex uSet qe.2
                  (hv qe (List.mem_cons_of_mem _ (hR2mem qe h)))]
                exact hxq

/-- Pair each edge with its provenance set id. -/
def pairEdges (edges : List (Nat × Nat)) (inputIds : List Nat) :
    List ((Nat × Nat) × Nat) :=
  (List.range edges.length).map
    (fun i => (edges.getD i (0, 0), inputIds.getD i 0))

/-- Sort entries lexicographically by edge (stable). -/
def sortPairs (pes : List ((Nat × Nat) × Nat)) : List ((Nat × Nat) × Nat) :=
  pes.insertionSort (fun a b => pairLeB a.1 b.1 = true)

/-- Does some entry hold the reverse edge of `p`? -/
def hasSibling (pes : List ((Nat × Nat) × Nat)) (p : Nat × Nat) : Bool :=
  pes.any (fun qe => qe.1 == Graph.reverse p)

/-- Sorting then (optionally) dropping degenerate edges: steps 0–1 of
the Edge Processor. -/
def stage1 (options : GraphOptions) (edges : List (Nat × Nat))
    (inputIds : List Nat) : List ((Nat × Nat) × Nat) :=
  let pes0 := sortPairs (pairEdges edges inputIds)
  if options.degenerateEdges = DegenerateEdges.discard then
    pes0.filter (fun pe => !(pe.1.1 == pe.1.2))
  else pes0

/-- The only failure of the Edge Processor: sibling pairs are REQUIRED
but some edge's reverse is missing. -/
def processEdgesErr (options : GraphOptions)
    (pes : List ((Nat × Nat) × Nat)) : Option String :=
  if options.siblingPairs = SiblingPairs.require ∧
      pes.any (fun pe => !(hasSibling pes pe.1)) = true then
    some "sibling pair required but missing"
  else none

/-- The sibling-pair transformation (step 2): KEEP and REQUIRE leave
the entries unchanged, DISCARD removes both members of every sibling
pair, CREATE appends a reverse edge with empty provenance for each
entry lacking one and re-sorts. -/
def siblingTransform (options : GraphOptions)
    (pes : List ((Nat × Nat) × Nat)) (lex : IdSetLexicon) :
    List ((Nat × Nat) × Nat) × IdSetLexicon :=
  match options.siblingPairs with
  | SiblingPairs.keep => (pes, lex)
  | SiblingPairs.require => (pes, lex)
  | SiblingPairs.discard =>
      (pes.filter (fun pe => !(hasSibling pes pe.1)), lex)
  | SiblingPairs.create =>
      (sortPairs (pes ++
        (pes.filter (fun pe => !(hasSibling pes pe.1))).map
          (fun pe => (Graph.reverse pe.1, (lex.add []).2))), (lex.add []).1)

/-- Result of `ProcessEdges`: error slot, possibly narrowed options,
transformed edges with their provenance set ids, and the updated
lexicon. -/
structure PEResult where
  err : Option String
  options : GraphOptions
  edges : List (Nat × Nat)
  inputIds : List Nat
  lexicon : IdSetLexicon

/-- Modelled from the spec: `ProcessEdges` sorts the edges, applies
the degenerate-edge, sibling-pair and duplicate-edge policies in
order, narrows the edge type to DIRECTED under REQUIRE/CREATE, and
reports an error only when REQUIRE finds an edge without a sibling. -/
def ProcessEdges (options : GraphOptions) (edges : List (Nat × Nat))
    (inputIds : List Nat) (lex : IdSetLexicon) : PEResult :=
  let pes1 := stage1 options edges inputIds
  match processEdgesErr options pes1 with
  | some msg =>
    ⟨some msg, options, pes1.map Prod.fst, pes1.map Prod.snd, lex⟩
  | none =>
    let st := siblingTransform options pes1 lex
    let merged := if options.duplicateEdges = DuplicateEdges.merge then
        mergeRuns (st.1.length + 1) st.2 st.1
      else st
    let newOpts : GraphOptions :=
      if options.siblingPairs = SiblingPairs.require ∨
          options.siblingPairs = SiblingPairs.create then
        ⟨EdgeType.directed, options.degenerateEdges,
          options.duplicateEdges, options.siblingPairs⟩
      else options
    ⟨none, newOpts, merged.1.map Prod.fst, merged.1.map Prod.snd, merged.2⟩

theorem range_map_getD {α : Type} (l : List α) (d : α) :
    (List.range l.length).map (fun i => l.getD i d) = l := by
  apply List.ext_getElem
  · simp
  · intro i h1 h2
    simp only [List.getElem_map, List.getElem_range]
    exact List.getD_eq_getElem l d h2

theorem pairEdges_map_fst (edges : List (Nat × Nat)) (inputIds : List Nat) :
    (pairEdges edges inputIds).map Prod.fst = edges := by
  unfold pairEdges
  rw [List.map_map]
  rw [show (Prod.fst ∘ fun i =>
    ((edges.getD i (0, 0), inputIds.getD i 0) : (Nat × Nat) × Nat)) =
    (fun i => edges.getD i (0, 0)) from rfl]
  exact range_map_getD edges (0, 0)

theorem hasSibling_iff (pes : List ((Nat × Nat) × Nat)) (p : Nat × Nat) :
    hasSibling pes p = true ↔ Graph.reverse p ∈ pes.map Prod.fst := by
  unfold hasSibling
  rw [List.any_eq_true]
  constructor
  · intro h
    obtain ⟨qe, hqe, hb⟩ := h
    rw [beq_iff_eq] at hb
    rw [← hb]
    exact List.mem_map.mpr ⟨qe, hqe, rfl⟩
  · intro h
    obtain ⟨qe, hqe, hq⟩ := List.mem_map.mp h
    exact ⟨qe, hqe, beq_iff_eq.mpr hq⟩

theorem stage1_mem (options : GraphOptions) (edges : List (Nat × Nat))
    (inputIds : List Nat) (p : Nat × Nat) :
    p ∈ (stage1 options edges inputIds).map Prod.fst ↔
      (p ∈ edges ∧
        (options.degenerateEdges = DegenerateEdges.discard →
          p.1 ≠ p.2)) := by
  have hbase : ∀ q : Nat × Nat,
      q ∈ (sortPairs (pairEdges edges inputIds)).map Prod.fst ↔
        q ∈ edges := by
    intro q
    have hp : ((sortPairs (pairEdges edges inputIds)).map Prod.fst).Perm
        ((pairEdges edges inputIds).map Prod.fst) :=
      (List.perm_insertionSort _ _).map Prod.fst
    rw [hp.mem_iff, pairEdges_map_fst]
  unfold stage1
  by_cases hdeg : options.degenerateEdges = DegenerateEdges.discard
  · rw [if_pos hdeg]
    constructor
    · intro hp
      obtain ⟨qe, hqe, rfl⟩ := List.mem_map.mp hp
      have hf := List.mem_filter.mp hqe
      refine ⟨(hbase qe.1).mp (List.mem_map.mpr ⟨qe, hf.1, rfl⟩), ?_⟩
      intro _
      have h2 := hf.2
      simp only [Bool.not_eq_true', beq_eq_false_iff_ne] at h2
      exact h2
    · intro hcc
      obtain ⟨hpe, hnd⟩ := hcc
      obtain ⟨qe, hqe, rfl⟩ := List.mem_map.mp ((hbase p).mpr hpe)
      apply List.mem_map.mpr
      refine ⟨qe, List.mem_filter.mpr ⟨hqe, ?_⟩, rfl⟩
      simp only [Bool.not_eq_true', beq_eq_false_iff_ne]
      exact hnd hdeg
  · rw [if_neg hdeg]
    rw [hbase p]
    constructor
    · intro h
      exact ⟨h, fun hc => absurd hc hdeg⟩
    · intro h
      exact h.1

theorem stage1_check_iff (options : GraphOptions) (edges : List (Nat × Nat))
    (inputIds : List Nat) :
    ((stage1 options edges inputIds).any
      (fun pe => !(hasSibling (stage1 options edges inputIds) pe.1))
        = true) ↔
      ∃ p ∈ edges, Graph.reverse p ∉ edges := by
  rw [List.any_eq_true]
  constructor
  · intro h
    obtain ⟨pe, hpe, hb⟩ := h
    rw [Bool.not_eq_true'] at hb
    have hnosib : Graph.reverse pe.1 ∉
        (stage1 options edges inputIds).map Prod.fst := by
      intro hc
      rw [← hasSibling_iff] at hc
      rw [hb] at hc
      exact Bool.noConfusion hc
    have hp1 := (stage1_mem options edges inputIds pe.1).mp
      (List.mem_map.mpr ⟨pe, hpe, rfl⟩)
    refine ⟨pe.1, hp1.1, ?_⟩
    intro hrev
    apply hnosib
    apply (stage1_mem options edges inputIds (Graph.reverse pe.1)).mpr
    refine ⟨hrev, ?_⟩
    intro hdeg
    have hnd := hp1.2 hdeg
    show pe.1.2 ≠ pe.1.1
    exact fun hh => hnd hh.symm
  · intro h
    obtain ⟨p, hp, hrev⟩ := h
    obtain ⟨a, b⟩ := p
    by_cases hab : a = b
    · subst hab
      exact absurd hp hrev
    · have hmem1 : ((a, b) : Nat × Nat) ∈
          (stage1 options edges inputIds).map Prod.fst :=
        (stage1_mem options edges inputIds (a, b)).mpr
          ⟨hp, fun _ => hab⟩
      obtain ⟨pe, hpe, hq⟩ := List.mem_map.mp hmem1
      refine ⟨pe, hpe, ?_⟩
      rw [Bool.not_eq_true']
      cases hcs : hasSibling (stage1 options edges inputIds) pe.1 with
      | false => rfl
      | true =>
        exfalso
        have hc := (hasSibling_iff _ _).mp hcs
        have hc2 := ((stage1_mem options edges inputIds _).mp hc).1
        rw [hq] at hc2
        exact hrev hc2

theorem processEdges_err (options : GraphOptions) (edges : List (Nat × Nat))
    (inputIds : List Nat) (lex : IdSetLexicon) :
    (ProcessEdges options edges inputIds lex).err =
      processEdgesErr options (stage1 options edges inputIds) := by
  dsimp only [ProcessEdges]
  cases hc : processEdgesErr options (stage1 options edges inputIds) with
  | some msg => rfl
  | none => rfl

/-- C7: `ProcessEdges` reports an error (through its error slot) if
and only if sibling pairs are REQUIRED and some input edge's reverse
edge is absent from the input; every other configuration completes
without error on every input. -/
theorem process_edges_error_iff_require (options : GraphOptions)
    (edges : List (Nat × Nat)) (inputIds : List Nat) (lex : IdSetLexicon) :
    (ProcessEdges options edges inputIds lex).err ≠ none ↔
      (options.siblingPairs = SiblingPairs.require ∧
        ∃ p ∈ edges, Graph.reverse p ∉ edges) := by
  rw [processEdges_err]
  unfold processEdgesErr
  by_cases hcond : options.siblingPairs = SiblingPairs.require ∧
      (stage1 options edges inputIds).any
        (fun pe => !(hasSibling (stage1 options edges inputIds) pe.1))
          = true
  · rw [if_pos hcond]
    constructor
    · intro _
      exact ⟨hcond.1, (stage1_check_iff options edges inputIds).mp hcond.2⟩
    · intro _ hc
      exact Option.noConfusion hc
  · rw [if_neg hcond]
    constructor
    · intro h
      exact absurd rfl h
    · intro h
      obtain ⟨h1, h2⟩ := h
      exact absurd
        ⟨h1, (stage1_check_iff options edges inputIds).mpr h2⟩ hcond

theorem pairLe_trans (p q r : Nat × Nat) (h1 : pairLeB p q = true)
    (h2 : pairLeB q r = true) : pairLeB p r = true := by
  unfold pairLeB at h1 h2 ⊢
  simp only [Bool.or_eq_true, Bool.and_eq_true, decide_eq_true_eq,
    beq_iff_eq] at h1 h2 ⊢
  omega

instance : IsTotal ((Nat × Nat) × Nat)
    (fun a b => pairLeB a.1 b.1 = true) :=
  ⟨fun a b => pairLe_total a.1 b.1⟩

instance : IsTrans ((Nat × Nat) × Nat)
    (fun a b => pairLeB a.1 b.1 = true) :=
  ⟨fun a b c h1 h2 => pairLe_trans _ _ _ h1 h2⟩

theorem stage1_sorted (options : GraphOptions) (edges : List (Nat × Nat))
    (inputIds : List Nat) :
    (stage1 options edges inputIds).Pairwise
      (fun a b => pairLeB a.1 b.1 = true) := by
  have hs0 : (sortPairs (pairEdges edges inputIds)).Pairwise
      (fun a b => pairLeB a.1 b.1 = true) :=
    List.sorted_insertionSort _ _
  unfold stage1
  by_cases hdeg : options.degenerateEdges = DegenerateEdges.discard
  · rw [if_pos hdeg]
    exact List.Pairwise.sublist (List.filter_sublist _) hs0
  · rw [if_neg hdeg]
    exact hs0

theorem stage1_entry_mem (options : GraphOptions) (edges : List (Nat × Nat))
    (inputIds : List Nat) (pe : (Nat × Nat) × Nat) :
    pe ∈ stage1 options edges inputIds ↔
      ((∃ k, k < edges.length ∧
        pe = (edges.getD k (0, 0), inputIds.getD k 0)) ∧
      (options.degenerateEdges = DegenerateEdges.discard →
        pe.1.1 ≠ pe.1.2)) := by
  have hbase : ∀ qe, qe ∈ sortPairs (pairEdges edges inputIds) ↔
      ∃ k, k < edges.length ∧
        qe = (edges.getD k (0, 0), inputIds.getD k 0) := by
    intro qe
    unfold sortPairs
    rw [(List.perm_insertionSort _ _).mem_iff]
    unfold pairEdges
    rw [List.mem_map]
    constructor
    · intro h
      obtain ⟨k, hk, hkq⟩ := h
      exact ⟨k, List.mem_range.mp hk, hkq.symm⟩
    · intro h
      obtain ⟨k, hk, hkq⟩ := h
      exact ⟨k, List.mem_range.mpr hk, hkq.symm⟩
  unfold stage1
  by_cases hdeg : options.degenerateEdges = DegenerateEdges.discard
  · rw [if_pos hdeg]
    rw [List.mem_filter]
    rw [hbase pe]
    constructor
    · intro h
      refine ⟨h.1, ?_⟩
      intro _
      have h2 := h.2
      simp only [Bool.not_eq_true', beq_eq_false_iff_ne] at h2
      exact h2
    · intro h
      refine ⟨h.1, ?_⟩
      simp only [Bool.not_eq_true', beq_eq_false_iff_ne]
      exact h.2 hdeg
  · rw [if_neg hdeg]
    rw [hbase pe]
    constructor
    · intro h
      exact ⟨h, fun hc => absurd hc hdeg⟩
    · intro h
      exact h.1

theorem stage1_valid (options : GraphOptions) (edges : List (Nat × Nat))
    (inputIds : List Nat) (lex : IdSetLexicon)
    (hvalid : ∀ i, i < edges.length → inputIds.getD i 0 < lex.sets.length) :
    ∀ pe ∈ stage1 options edges inputIds, pe.2 < lex.sets.length := by
  intro pe hpe
  obtain ⟨⟨k, hk, rfl⟩, _⟩ :=
    (stage1_entry_mem options edges inputIds pe).mp hpe
  exact hvalid k hk

/-- The Scenario 5 configuration: directed edges, degenerate DISCARD,
duplicate MERGE, siblings KEEP. -/
def scenario5Options : GraphOptions :=
  ⟨EdgeType.directed, DegenerateEdges.discard, DuplicateEdges.merge,
    SiblingPairs.keep⟩

/-- The Scenario 5 lexicon: set id 0 resolves to the set containing 5,
set id 1 to the set containing 9. -/
def scenario5Lex : IdSetLexicon := ⟨[[5], [9]]⟩

/-- C6: with duplicate_edges MERGE (and siblings KEPT), `ProcessEdges`
collapses each run of identical (origin, destination) edges into one
output edge — the output edge list has no duplicates and consists
exactly of the surviving input edges — and each output edge's
provenance set id resolves to the union of the provenance sets of the
edges merged into it.  In particular (Scenario 5), two copies of edge
`(0,1)` with provenance sets containing 5 and 9 yield the single edge
`(0,1)` whose provenance set resolves to both 5 and 9. -/
theorem process_edges_merge_provenance (options : GraphOptions)
    (edges : List (Nat × Nat)) (inputIds : List Nat) (lex : IdSetLexicon)
    (hmerge : options.duplicateEdges = DuplicateEdges.merge)
    (hkeep : options.siblingPairs = SiblingPairs.keep)
    (hvalid : ∀ i, i < edges.length → inputIds.getD i 0 < lex.sets.length) :
    (ProcessEdges options edges inputIds lex).edges.Nodup ∧
    (∀ p, p ∈ (ProcessEdges options edges inputIds lex).edges ↔
      (p ∈ edges ∧ (options.degenerateEdges = DegenerateEdges.discard →
        p.1 ≠ p.2))) ∧
    (∀ j, j < (ProcessEdges options edges inputIds lex).edges.length →
      ∀ x, x ∈ (ProcessEdges options edges inputIds lex).lexicon.idSet
          ((ProcessEdges options edges inputIds lex).inputIds.getD j 0) ↔
        ∃ i, i < edges.length ∧
          edges.getD i (0, 0) =
            (ProcessEdges options edges inputIds lex).edges.getD j (0, 0) ∧
          x ∈ lex.idSet (inputIds.getD i 0)) ∧
    ((ProcessEdges scenario5Options [(0, 1), (0, 1)] [0, 1]
        scenario5Lex).err = none ∧
      (ProcessEdges scenario5Options [(0, 1), (0, 1)] [0, 1]
        scenario5Lex).edges = [(0, 1)] ∧
      (ProcessEdges scenario5Options [(0, 1), (0, 1)] [0, 1]
        scenario5Lex).lexicon.idSet
        ((ProcessEdges scenario5Options [(0, 1), (0, 1)] [0, 1]
          scenario5Lex).inputIds.getD 0 0) = [5, 9]) := by
  have herr : processEdgesErr options (stage1 options edges inputIds)
      = none := by
    unfold processEdgesErr
    rw [if_neg]
    intro hcc
    rw [hkeep] at hcc
    exact SiblingPairs.noConfusion hcc.1
  have hst : siblingTransform options (stage1 options edges inputIds) lex =
      (stage1 options edges inputIds, lex) := by
    unfold siblingTransform
    rw [hkeep]
  have hopt2 : ¬(options.siblingPairs = SiblingPairs.require ∨
      options.siblingPairs = SiblingPairs.create) := by
    intro hcc
    rw [hkeep] at hcc
    rcases hcc with h | h
    · exact SiblingPairs.noConfusion h
    · exact SiblingPairs.noConfusion h
  have hout : ProcessEdges options edges inputIds lex =
      ⟨none, options,
        (mergeRuns ((stage1 options edges inputIds).length + 1) lex
          (stage1 options edges inputIds)).1.map Prod.fst,
        (mergeRuns ((stage1 options edges inputIds).length + 1) lex
          (stage1 options edges inputIds)).1.map Prod.snd,
        (mergeRuns ((stage1 options edges inputIds).length + 1) lex
          (stage1 options edges inputIds)).2⟩ := by
    dsimp only [ProcessEdges]
    rw [herr, hst, if_pos hmerge, if_neg hopt2]
  have hE : (ProcessEdges options edges inputIds lex).edges =
      (mergeRuns ((stage1 options edges inputIds).length + 1) lex
        (stage1 options edges inputIds)).1.map Prod.fst := by
    rw [hout]
  have hI : (ProcessEdges options edges inputIds lex).inputIds =
      (mergeRuns ((stage1 options edges inputIds).length + 1) lex
        (stage1 options edges inputIds)).1.map Prod.snd := by
    rw [hout]
  have hL : (ProcessEdges options edges inputIds lex).lexicon =
      (mergeRuns ((stage1 options edges inputIds).length + 1) lex
        (stage1 options edges inputIds)).2 := by
    rw [hout]
  obtain ⟨hmr1, hmr2, hmr3, hmr4, hmr5, hmr6⟩ :=
    mergeRuns_spec ((stage1 options edges inputIds).length + 1) lex
      (stage1 options edges inputIds) (Nat.lt_succ_self _)
      (stage1_sorted options edges inputIds)
      (stage1_valid options edges inputIds lex hvalid)
  refine ⟨?_, ?_, ?_, rfl, rfl, rfl⟩
  · rw [hE]
    exact hmr1
  · intro p
    rw [hE, hmr2 p]
    exact stage1_mem options edges inputIds p
  · intro j hj x
    rw [hE, List.length_map] at hj
    have hq : (mergeRuns ((stage1 options edges inputIds).length + 1) lex
        (stage1 options edges inputIds)).1.getD j ((0, 0), 0) =
        (mergeRuns ((stage1 options edges inputIds).length + 1) lex
          (stage1 options edges inputIds)).1.get ⟨j, hj⟩ :=
      List.getD_eq_getElem _ _ hj
    have hqmem : (mergeRuns ((stage1 options edges inputIds).length + 1)
        lex (stage1 options edges inputIds)).1.getD j ((0, 0), 0) ∈
        (mergeRuns ((stage1 options edges inputIds).length + 1) lex
          (stage1 options edges inputIds)).1 := by
      rw [hq]
      exact List.get_mem _ _ _
    have hq1 : ((mergeRuns ((stage1 options edges inputIds).length + 1) lex
        (stage1 options edges inputIds)).1.map Prod.fst).getD j (0, 0) =
        ((mergeRuns ((stage1 options edges inputIds).length + 1) lex
          (stage1 options edges inputIds)).1.getD j ((0, 0), 0)).1 := by
      rw [hq, List.getD_eq_getElem _ _ (by rw [List.length_map]; exact hj),
        List.getElem_map]
      simp
    have hq2 : ((mergeRuns ((stage1 options edges inputIds).length + 1) lex
        (stage1 options edges inputIds)).1.map Prod.snd).getD j 0 =
        ((mergeRuns ((stage1 options edges inputIds).length + 1) lex
          (stage1 options edges inputIds)).1.getD j ((0, 0), 0)).2 := by
      rw [hq, List.getD_eq_getElem _ _ (by rw [List.length_map]; exact hj),
        List.getElem_map]
      simp
    rw [hE, hI, hL, hq1, hq2]
    rw [hmr6 _ hqmem x]
    have hq1nd : options.degenerateEdges = DegenerateEdges.discard →
        ((mergeRuns ((stage1 options edges inputIds).length + 1) lex
          (stage1 options edges inputIds)).1.getD j ((0, 0), 0)).1.1 ≠
        ((mergeRuns ((stage1 options edges inputIds).length + 1) lex
          (stage1 options edges inputIds)).1.getD j ((0, 0), 0)).1.2 := by
      intro hdeg
      have hmem : ((mergeRuns ((stage1 options edges inputIds).length + 1)
          lex (stage1 options edges inputIds)).1.getD j ((0, 0), 0)).1 ∈
          (mergeRuns ((stage1 options edges inputIds).length + 1) lex
            (stage1 options edges inputIds)).1.map Prod.fst :=
        List.mem_map.mpr ⟨_, hqmem, rfl⟩
      have h2 := (hmr2 _).mp hmem
      obtain ⟨qe, hqe, hqe1⟩ := List.mem_map.mp h2
      obtain ⟨_, hcond⟩ :=
        (stage1_entry_mem options edges inputIds qe).mp hqe
      rw [← hqe1]
      exact hcond hdeg
    constructor
    · intro h
      obtain ⟨pe, hpe, hpe1, hpex⟩ := h
      obtain ⟨⟨k, hk, rfl⟩, _⟩ :=
        (stage1_entry_mem options edges inputIds pe).mp hpe
      exact ⟨k, hk, hpe1, hpex⟩
    · intro h
      obtain ⟨i, hi, hieq, hix⟩ := h
      refine ⟨(edges.getD i (0, 0), inputIds.getD i 0), ?_, hieq, hix⟩
      apply (stage1_entry_mem options edges inputIds _).mpr
      refine ⟨⟨i, hi, rfl⟩, ?_⟩
      intro hdeg
      have := hq1nd hdeg
      rw [← hieq] at this
      exact this

/-- Witness for C6 at the Scenario 5 input itself. -/
theorem process_edges_merge_provenance_witness :
    scenario5Options.duplicateEdges = DuplicateEdges.merge ∧
    scenario5Options.siblingPairs = SiblingPairs.keep ∧
    (∀ i, i < ([(0, 1), (0, 1)] : List (Nat × Nat)).length →
      ([0, 1] : List Nat).getD i 0 < scenario5Lex.sets.length) ∧
    ((ProcessEdges scenario5Options [(0, 1), (0, 1)] [0, 1]
        scenario5Lex).edges.Nodup ∧
    (∀ p, p ∈ (ProcessEdges scenario5Options [(0, 1), (0, 1)] [0, 1]
        scenario5Lex).edges ↔
      (p ∈ ([(0, 1), (0, 1)] : List (Nat × Nat)) ∧
        (scenario5Options.degenerateEdges = DegenerateEdges.discard →
          p.1 ≠ p.2))) ∧
    (∀ j, j < (ProcessEdges scenario5Options [(0, 1), (0, 1)] [0, 1]
        scenario5Lex).edges.length →
      ∀ x, x ∈ (ProcessEdges scenario5Options [(0, 1), (0, 1)] [0, 1]
          scenario5Lex).lexicon.idSet
          ((ProcessEdges scenario5Options [(0, 1), (0, 1)] [0, 1]
            scenario5Lex).inputIds.getD j 0) ↔
        ∃ i, i < ([(0, 1), (0, 1)] : List (Nat × Nat)).length ∧
          ([(0, 1), (0, 1)] : List (Nat × Nat)).getD i (0, 0) =
            (ProcessEdges scenario5Options [(0, 1), (0, 1)] [0, 1]
              scenario5Lex).edges.getD j (0, 0) ∧
          x ∈ scenario5Lex.idSet (([0, 1] : List Nat).getD i 0)) ∧
    ((ProcessEdges scenario5Options [(0, 1), (0, 1)] [0, 1]
        scenario5Lex).err = none ∧
      (ProcessEdges scenario5Options [(0, 1), (0, 1)] [0, 1]
        scenario5Lex).edges = [(0, 1)] ∧
      (ProcessEdges scenario5Options [(0, 1), (0, 1)] [0, 1]
        scenario5Lex).lexicon.idSet
        ((ProcessEdges scenario5Options [(0, 1), (0, 1)] [0, 1]
          scenario5Lex).inputIds.getD 0 0) = [5, 9])) :=
  ⟨rfl, rfl, by decide,
    process_edges_merge_provenance scenario5Options [(0, 1), (0, 1)] [0, 1]
      scenario5Lex rfl rfl (by decide)⟩
